import Mathlib

/-!
Shallow embedding of the order-book matching engine (OrderBook.h, Order.h,
ExchangeRules.h, MarketDataFeed.h, OrderModify.h of the repository; the
newer `Orderbook` variant that distinguishes ImmediateOrCancel and
FillOrKill).  Machine integers are modelled as `Int` (Price, int32_t) and
`Nat` (Quantity, uint32_t; OrderId, uint64_t); no arithmetic in the
modelled code paths can overflow these C++ types (fills and quantity
subtractions are guarded, and the notional product is computed in int64_t
by the source, which `Int` matches exactly).  Wall-clock time is made
explicit: every ingress path that reads the clock takes `now : Nat`
(seconds; the source's localtime decomposition is modelled with a fixed
UTC offset).
-/

/-- std::numeric_limits of Price max, the converted market-buy sentinel. -/
def priceMax : Int := 2147483647

/-- std::numeric_limits of Price min, the converted market-sell sentinel. -/
def priceMin : Int := -2147483648

/-- OrderType.h (the five-type taxonomy used by the newer Orderbook variant;
FillAndKill of the older enum is ImmediateOrCancel there). -/
inductive OrderType where
  | goodTillCancel
  | immediateOrCancel
  | market
  | goodForDay
  | fillOrKill
deriving DecidableEq, Repr

/-- Side enum from OrderType.h. -/
inductive Side where
  | buy
  | sell
deriving DecidableEq, Repr

/-- Order class from Order.h: identity, type, side, price and fill state. -/
structure Order where
  orderType : OrderType
  orderId : Nat
  side : Side
  price : Int
  initialQuantity : Nat
  remainingQuantity : Nat
deriving DecidableEq, Repr

/-- Order::Fill: returns false and leaves the order untouched when the
quantity exceeds the remaining quantity, otherwise subtracts.  The Bool is
the C++ return value (call sites in the book discard it). -/
def Order.fill (o : Order) (quantity : Nat) : Order × Bool :=
  if quantity > o.remainingQuantity then (o, false)
  else ({ o with remainingQuantity := o.remainingQuantity - quantity }, true)

/-- Order::IsFilled. -/
def Order.isFilled (o : Order) : Bool :=
  o.remainingQuantity == 0

/-- Order::ToGoodTillCancel: converts a Market order to GoodTillCancel at the
given price; fails (returns false, order untouched) for other types. -/
def Order.toGoodTillCancel (o : Order) (price : Int) : Order × Bool :=
  if o.orderType ≠ OrderType.market then (o, false)
  else ({ o with price := price, orderType := OrderType.goodTillCancel }, true)

/-- TradeInfo: one side of an executed trade (order id, that order's own
limit price, executed quantity). -/
structure TradeInfo where
  orderId : Nat
  price : Int
  quantity : Nat
deriving DecidableEq, Repr

/-- Trade: both sides of one execution. -/
structure Trade where
  bidTrade : TradeInfo
  askTrade : TradeInfo
deriving DecidableEq, Repr

abbrev Trades := List Trade

/-- ExchangeRules from ExchangeRules.h with the source's default values. -/
structure ExchangeRules where
  tickSize : Int := 1
  lotSize : Nat := 1
  minQuantity : Nat := 1
  maxQuantity : Nat := 1000000
  minNotional : Int := 0
deriving DecidableEq, Repr

/-- ExchangeRules::IsValidPrice: positive and divisible by tickSize.  C++
integer % truncates toward zero, which Int.tmod matches. -/
def ExchangeRules.isValidPrice (r : ExchangeRules) (price : Int) : Bool :=
  if price ≤ 0 then false
  else price.tmod r.tickSize == 0

/-- ExchangeRules::IsValidQuantity: within min and max and divisible by lotSize. -/
def ExchangeRules.isValidQuantity (r : ExchangeRules) (quantity : Nat) : Bool :=
  if quantity < r.minQuantity || quantity > r.maxQuantity then false
  else quantity % r.lotSize == 0

/-- ExchangeRules::IsValidNotional: the source widens to int64_t before
multiplying; |price| < 2^31 and quantity < 2^32 so the int64 product is
exact and Int models it exactly. -/
def ExchangeRules.isValidNotional (r : ExchangeRules) (price : Int) (quantity : Nat) : Bool :=
  r.minNotional ≤ price * (quantity : Int)

/-- ExchangeRules::RoundToTick: C++ / on int32_t truncates toward zero,
which Int.tdiv matches. -/
def ExchangeRules.roundToTick (r : ExchangeRules) (price : Int) : Int :=
  if r.tickSize ≤ 1 then price
  else (price.tdiv r.tickSize) * r.tickSize

/-- ExchangeRules::RoundToLot (uint32_t division). -/
def ExchangeRules.roundToLot (r : ExchangeRules) (quantity : Nat) : Nat :=
  if r.lotSize ≤ 1 then quantity
  else (quantity / r.lotSize) * r.lotSize

/-- RejectReason enum from ExchangeRules.h. -/
inductive RejectReason where
  | none
  | invalidPrice
  | invalidQuantity
  | belowMinQuantity
  | aboveMaxQuantity
  | belowMinNotional
  | duplicateOrderId
  | invalidOrderType
  | emptyBook
deriving DecidableEq, Repr

/-- OrderValidation result struct. -/
structure OrderValidation where
  isValid : Bool
  reason : RejectReason
deriving DecidableEq, Repr

/-- OrderValidation::Accept. -/
def OrderValidation.accept : OrderValidation := ⟨true, RejectReason.none⟩

/-- OrderValidation::Reject. -/
def OrderValidation.reject (reason : RejectReason) : OrderValidation := ⟨false, reason⟩

/-- OrderModify from OrderModify.h. -/
structure OrderModify where
  orderId : Nat
  price : Int
  side : Side
  quantity : Nat
deriving DecidableEq, Repr

/-- OrderModify::ToOrderPointer: a fresh order with the preserved type. -/
def OrderModify.toOrder (m : OrderModify) (type : OrderType) : Order :=
  ⟨type, m.orderId, m.side, m.price, m.quantity, m.quantity⟩

/-- SnapshotLevel from MarketDataFeed.h (orderCount is carried but never
read by the book). -/
structure SnapshotLevel where
  price : Int
  quantity : Nat
  orderCount : Int
deriving DecidableEq, Repr

/-- NewOrderMessage payload (the unread timestamp field is omitted). -/
structure NewOrderMessage where
  orderId : Nat
  side : Side
  price : Int
  quantity : Nat
  orderType : OrderType
deriving DecidableEq, Repr

/-- CancelOrderMessage payload. -/
structure CancelOrderMessage where
  orderId : Nat
deriving DecidableEq, Repr

/-- ModifyOrderMessage payload. -/
structure ModifyOrderMessage where
  orderId : Nat
  side : Side
  newPrice : Int
  newQuantity : Nat
deriving DecidableEq, Repr

/-- TradeMessage payload (informational only). -/
structure TradeMessage where
  buyOrderId : Nat
  sellOrderId : Nat
  price : Int
  quantity : Nat
deriving DecidableEq, Repr

/-- BookSnapshotMessage payload. -/
structure BookSnapshotMessage where
  bids : List SnapshotLevel
  asks : List SnapshotLevel
  sequenceNumber : Nat
deriving DecidableEq, Repr

/-- MarketDataMessage variant from MarketDataFeed.h. -/
inductive MarketDataMessage where
  | newOrderMsg (m : NewOrderMessage)
  | cancelOrderMsg (m : CancelOrderMessage)
  | modifyOrderMsg (m : ModifyOrderMessage)
  | tradeMsg (m : TradeMessage)
  | bookSnapshotMsg (m : BookSnapshotMessage)
deriving DecidableEq, Repr

/-- MarketDataStats counters (the three latency duration fields are timing
observations outside the shallow embedding and are omitted). -/
structure MarketDataStats where
  messagesProcessed : Nat := 0
  newOrders : Nat := 0
  cancellations : Nat := 0
  modifications : Nat := 0
  trades : Nat := 0
  snapshots : Nat := 0
  errors : Nat := 0
  sequenceGaps : Nat := 0
deriving DecidableEq, Repr

/-- EntryInfo models what the book reads through OrderEntry::order_ in the
id index (orders_): the three fields that are immutable once an order has
been inserted (side, price, order type).  The remaining quantity lives in
the price-level lists, which own the orders; the stored list iterator is
modelled by locating the unique element with the given id. -/
structure EntryInfo where
  side : Side
  price : Int
  orderType : OrderType
deriving DecidableEq, Repr

/-- A price level: the price key and its FIFO list of resting orders
(front of the list = front of the queue). -/
abbrev Level := Int × List Order

/-- One side of the book: std::map over prices, modelled as a list of
levels kept sorted by the side's comparator (bids descending, asks
ascending). -/
abbrev Levels := List Level

/-- Orderbook state (the newer variant of OrderBook.h). -/
structure Orderbook where
  bids : Levels
  asks : Levels
  orders : List (Nat × EntryInfo)
  lastDayReset : Nat
  dayResetHour : Nat := 15
  dayResetMinute : Nat := 59
  stats : MarketDataStats := {}
  lastSequenceNumber : Nat := 0
  isInitialized : Bool := false
  exchangeRules : ExchangeRules := {}
deriving DecidableEq, Repr

/-- A freshly constructed Orderbook (the constructor records the current
time into lastDayReset_). -/
def initialBook (constructedAt : Nat) : Orderbook :=
  { bids := [], asks := [], orders := [], lastDayReset := constructedAt }

/-- Lookup in the id index (unordered_map::at / contains). -/
def lookupEntry : List (Nat × EntryInfo) → Nat → Option EntryInfo
  | [], _ => none
  | kv :: rest, id => if kv.1 = id then some kv.2 else lookupEntry rest id

/-- Erase an id from the index (unordered_map::erase). -/
def eraseEntry : List (Nat × EntryInfo) → Nat → List (Nat × EntryInfo)
  | [], _ => []
  | kv :: rest, id => if kv.1 = id then rest else kv :: eraseEntry rest id

/-- Get-or-create a price level and append an order to its FIFO queue
(map[price] followed by push_back); before x y means x is ordered
strictly in front of y by the side's comparator. -/
def insertIntoLevels (before : Int → Int → Bool) (price : Int) (o : Order) :
    Levels → Levels
  | [] => [(price, [o])]
  | (p, l) :: rest =>
    if price = p then (p, l ++ [o]) :: rest
    else if before price p then (price, [o]) :: (p, l) :: rest
    else (p, l) :: insertIntoLevels before price o rest

/-- Remove the (unique) order with the given id from a level queue,
modelling erase at the stored iterator. -/
def eraseFromLevel (id : Nat) : List Order → List Order
  | [] => []
  | o :: rest => if o.orderId = id then rest else o :: eraseFromLevel id rest

/-- Remove an order from the level at the given price and drop the level
if it became empty (map::at, list::erase, map::erase on empty). -/
def eraseFromLevels (price : Int) (id : Nat) : Levels → Levels
  | [] => []
  | (p, l) :: rest =>
    if p = price then
      let l' := eraseFromLevel id l
      if l' = [] then rest else (p, l') :: rest
    else (p, l) :: eraseFromLevels price id rest

/-- All orders resting on one side, best level first, FIFO within level. -/
def levelsOrders : Levels → List Order
  | [] => []
  | (_, l) :: rest => l ++ levelsOrders rest

/-- All resting orders of the book (the objects owned by the level lists). -/
def bookOrders (b : Orderbook) : List Order :=
  levelsOrders b.bids ++ levelsOrders b.asks

/-- The resting order with the given id, if any (dereferencing the shared
pointer held by the owning level list). -/
def findOrderInBook (b : Orderbook) (id : Nat) : Option Order :=
  (bookOrders b).find? (fun o => o.orderId == id)

/-- Apply Order::Fill to the order with the given id inside one level
queue; the Bool is the discarded Fill return value, present when found. -/
def fillInLevel (id : Nat) (quantity : Nat) :
    List Order → List Order × Option Bool
  | [] => ([], none)
  | o :: rest =>
    if o.orderId = id then
      ((o.fill quantity).1 :: rest, some (o.fill quantity).2)
    else
      let r := fillInLevel id quantity rest
      (o :: r.1, r.2)

/-- Apply Order::Fill to the order with the given id inside a side. -/
def fillInLevels (id : Nat) (quantity : Nat) :
    Levels → Levels × Option Bool
  | [] => ([], none)
  | (p, l) :: rest =>
    match (fillInLevel id quantity l).2 with
    | some ok => ((p, (fillInLevel id quantity l).1) :: rest, some ok)
    | none =>
      let r := fillInLevels id quantity rest
      ((p, l) :: r.1, r.2)

/-- matchOrder->Fill(quantity) in ExecuteMatchesForFillOrKill: the pointer
target is the order owned by one of the level lists; the Bool is the
discarded Fill result (false if the id is not found, which cannot happen
on a consistent book). -/
def fillOrderInBook (b : Orderbook) (id : Nat) (quantity : Nat) :
    Orderbook × Bool :=
  match (fillInLevels id quantity b.bids).2 with
  | some ok => ({ b with bids := (fillInLevels id quantity b.bids).1 }, ok)
  | none =>
    match (fillInLevels id quantity b.asks).2 with
    | some ok => ({ b with asks := (fillInLevels id quantity b.asks).1 }, ok)
    | none => (b, false)

/-- Orderbook::CancelOrder: no-op for an unknown id; otherwise erase from
the index, then from the price level located through the stored entry,
dropping the level if it became empty.  Reads no clock. -/
def cancelOrder (b : Orderbook) (id : Nat) : Orderbook :=
  match lookupEntry b.orders id with
  | none => b
  | some e =>
    let b1 := { b with orders := eraseEntry b.orders id }
    if e.side = Side.sell then { b1 with asks := eraseFromLevels e.price id b1.asks }
    else { b1 with bids := eraseFromLevels e.price id b1.bids }

/-- Orderbook::CanMatch: whether a price on the given side crosses the
best level of the opposite side. -/
def canMatch (b : Orderbook) (side : Side) (price : Int) : Bool :=
  match side with
  | Side.buy =>
    match b.asks with
    | [] => false
    | (bestAsk, _) :: _ => bestAsk ≤ price
  | Side.sell =>
    match b.bids with
    | [] => false
    | (bestBid, _) :: _ => price ≤ bestBid

/-- Orderbook::ValidateOrder: duplicate id, then price (skipped for
converted market orders at a sentinel price), then quantity with the three
quantity reasons, then notional (also skipped for converted market
orders). -/
def validateOrder (b : Orderbook) (o : Order) : OrderValidation :=
  if (lookupEntry b.orders o.orderId).isSome then
    OrderValidation.reject RejectReason.duplicateOrderId
  else
    let isConvertedMarketOrder : Bool := o.price == priceMax || o.price == priceMin
    if ¬isConvertedMarketOrder ∧ ¬b.exchangeRules.isValidPrice o.price then
      OrderValidation.reject RejectReason.invalidPrice
    else if ¬b.exchangeRules.isValidQuantity o.remainingQuantity then
      if o.remainingQuantity < b.exchangeRules.minQuantity then
        OrderValidation.reject RejectReason.belowMinQuantity
      else if o.remainingQuantity > b.exchangeRules.maxQuantity then
        OrderValidation.reject RejectReason.aboveMaxQuantity
      else
        OrderValidation.reject RejectReason.invalidQuantity
    else if ¬isConvertedMarketOrder ∧ ¬b.exchangeRules.isValidNotional o.price o.remainingQuantity then
      OrderValidation.reject RejectReason.belowMinNotional
    else
      OrderValidation.accept

/-- Today's reset instant for a given now (the source decomposes now with
localtime and rebuilds with mktime; modelled with a fixed UTC offset:
start of the current day plus the configured hour and minute). -/
def todayResetTime (b : Orderbook) (now : Nat) : Nat :=
  (now / 86400) * 86400 + b.dayResetHour * 3600 + b.dayResetMinute * 60

/-- The day-reset firing condition of Orderbook::CheckAndResetDay:
lastReset before today's reset instant and now at or past it. -/
def shouldResetDay (b : Orderbook) (now : Nat) : Bool :=
  b.lastDayReset < todayResetTime b now && todayResetTime b now ≤ now

/-- Orderbook::CancelGoodForDayOrders: collect the GoodForDay ids from the
index into a buffer, then cancel each. -/
def cancelGoodForDayOrders (b : Orderbook) : Orderbook :=
  let ordersToCancel :=
    (b.orders.filter (fun kv => kv.2.orderType == OrderType.goodForDay)).map Prod.fst
  ordersToCancel.foldl cancelOrder b

/-- Orderbook::CheckAndResetDay: on firing, cancel all GoodForDay orders
and record now as the last reset time. -/
def checkAndResetDay (b : Orderbook) (now : Nat) : Orderbook :=
  if shouldResetDay b now then
    { cancelGoodForDayOrders b with lastDayReset := now }
  else b

/-- Inner collection loop of CollectMatchesForFillOrKill over one level
queue: pair each resting order with min(remaining demand, its remaining),
stopping once demand reaches zero (checked after recording the pair). -/
def collectLevel (remaining : Nat) : List Order → List (Order × Nat) × Nat
  | [] => ([], remaining)
  | o :: rest =>
    let matchQty := min remaining o.remainingQuantity
    let remaining' := remaining - matchQty
    if remaining' = 0 then ([(o, matchQty)], 0)
    else
      let r := collectLevel remaining' rest
      ((o, matchQty) :: r.1, r.2)

/-- Outer collection loop of CollectMatchesForFillOrKill over the opposite
side's levels, best first, stopping at the first level that is no longer
crossable or once demand reaches zero. -/
def collectLevels (crossable : Int → Bool) (remaining : Nat) :
    Levels → List (Order × Nat) × Nat
  | [] => ([], remaining)
  | (p, l) :: rest =>
    if ¬crossable p then ([], remaining)
    else
      let c := collectLevel remaining l
      if c.2 = 0 then (c.1, 0)
      else
        let c2 := collectLevels crossable c.2 rest
        (c.1 ++ c2.1, c2.2)

/-- Orderbook::CollectMatchesForFillOrKill: walk the opposite side without
mutating anything; returns the collected pairs and the unfilled demand. -/
def collectMatchesForFillOrKill (o : Order) (b : Orderbook) :
    List (Order × Nat) × Nat :=
  if o.side = Side.buy then
    collectLevels (fun askPrice => askPrice ≤ o.price) o.remainingQuantity b.asks
  else
    collectLevels (fun bidPrice => o.price ≤ bidPrice) o.remainingQuantity b.bids

/-- Result of AddOrder: the returned trades, the caller-visible final state
of the aggressor order object, the book, and the ghost conjunction of the
discarded Order::Fill return values encountered on the way. -/
structure AddResult where
  trades : Trades
  aggressor : Order
  book : Orderbook
  fillsOk : Bool
deriving DecidableEq, Repr

/-- Orderbook::ExecuteMatchesForFillOrKill: fill the aggressor and each
collected resting order, record the trade with the aggressor in the slot
of its own side, and cancel resting orders that are now filled. -/
def executeMatchesForFillOrKill (o : Order) (b : Orderbook) :
    List (Order × Nat) → Trades × Order × Orderbook × Bool
  | [] => ([], o, b, true)
  | (matchOrder, quantity) :: rest =>
    let oF := o.fill quantity
    let bF := fillOrderInBook b matchOrder.orderId quantity
    let trade : Trade :=
      if o.side = Side.buy then
        ⟨⟨o.orderId, o.price, quantity⟩, ⟨matchOrder.orderId, matchOrder.price, quantity⟩⟩
      else
        ⟨⟨matchOrder.orderId, matchOrder.price, quantity⟩, ⟨o.orderId, o.price, quantity⟩⟩
    let nowFilled : Bool :=
      match findOrderInBook bF.1 matchOrder.orderId with
      | some m => m.isFilled
      | none => false
    let b2 := if nowFilled then cancelOrder bF.1 matchOrder.orderId else bF.1
    let r := executeMatchesForFillOrKill oF.1 b2 rest
    (trade :: r.1, r.2.1, r.2.2.1, oF.2 && bF.2 && r.2.2.2)

/-- Orderbook::MatchFillOrKill: non-mutating collection phase; reject with
no trades and an untouched book unless demand reaches zero; otherwise
execute all collected pairs. -/
def matchFillOrKill (o : Order) (b : Orderbook) : AddResult :=
  let c := collectMatchesForFillOrKill o b
  if 0 < c.2 then ⟨[], o, b, true⟩
  else
    let r := executeMatchesForFillOrKill o b c.1
    ⟨r.1, r.2.1, r.2.2.1, r.2.2.2⟩

/-- Fills of min(bid remaining, ask remaining) always leave at least one of
the two orders with zero remaining quantity. -/
theorem fill_min_one_filled (bid ask : Order) :
    ((bid.fill (min bid.remainingQuantity ask.remainingQuantity)).1.remainingQuantity = 0) ∨
    ((ask.fill (min bid.remainingQuantity ask.remainingQuantity)).1.remainingQuantity = 0) := by
  unfold Order.fill
  rcases Nat.le_total bid.remainingQuantity ask.remainingQuantity with h | h
  · left
    simp [Nat.min_eq_left h]
  · right
    simp [Nat.min_eq_right h]

/-- Inner crossing loop of Orderbook::MatchOrders at one pair of levels:
repeatedly trade the two queue fronts for min of the remainings, record
the trade, fill both, and pop whichever side got filled (at least one
does, by fill_min_one_filled).  Returns the trades, the popped (filled)
ids in push order, the two residual queues, and the ghost conjunction of
the discarded Fill results.  The C++ while-loop is modelled with explicit
fuel (structural recursion); every iteration pops at least one order, so
any fuel of at least the combined queue length makes the out-of-fuel
branch unreachable (matchLevelLoop_fuel_irrelevant), and all call sites
supply such fuel. -/
def matchLevelLoop : Nat → List Order → List Order →
    Trades × List Nat × List Order × List Order × Bool
  | 0, lb, la => ([], [], lb, la, true)
  | _ + 1, [], la => ([], [], [], la, true)
  | _ + 1, bid :: restB, [] => ([], [], bid :: restB, [], true)
  | fuel + 1, bid :: restB, ask :: restA =>
    let quantity := min bid.remainingQuantity ask.remainingQuantity
    let trade : Trade := ⟨⟨bid.orderId, bid.price, quantity⟩, ⟨ask.orderId, ask.price, quantity⟩⟩
    let bidF := bid.fill quantity
    let askF := ask.fill quantity
    if bidF.1.remainingQuantity = 0 then
      if askF.1.remainingQuantity = 0 then
        let r := matchLevelLoop fuel restB restA
        (trade :: r.1, bid.orderId :: ask.orderId :: r.2.1, r.2.2.1, r.2.2.2.1,
          bidF.2 && askF.2 && r.2.2.2.2)
      else
        let r := matchLevelLoop fuel restB (askF.1 :: restA)
        (trade :: r.1, bid.orderId :: r.2.1, r.2.2.1, r.2.2.2.1,
          bidF.2 && askF.2 && r.2.2.2.2)
    else
      -- quantity = min forces the ask to be filled here (fill_min_one_filled);
      -- the source's independent if (ask->IsFilled()) necessarily takes this branch
      let r := matchLevelLoop fuel (bidF.1 :: restB) restA
      (trade :: r.1, ask.orderId :: r.2.1, r.2.2.1, r.2.2.2.1,
        bidF.2 && askF.2 && r.2.2.2.2)

/-- Total number of resting orders in a list of levels. -/
def levelsSize : Levels → Nat
  | [] => 0
  | (_, l) :: rest => l.length + levelsSize rest


/-- The inner crossing loop never grows a queue, and strictly shrinks the
pair of queues when both are non-empty (and there is fuel). -/
theorem matchLevelLoop_length (fuel : Nat) (lb la : List Order) :
    (matchLevelLoop fuel lb la).2.2.1.length ≤ lb.length ∧
    (matchLevelLoop fuel lb la).2.2.2.1.length ≤ la.length ∧
    (lb ≠ [] → la ≠ [] → lb.length + la.length ≤ fuel →
      (matchLevelLoop fuel lb la).2.2.1.length + (matchLevelLoop fuel lb la).2.2.2.1.length
        < lb.length + la.length) := by
  induction fuel generalizing lb la with
  | zero =>
    refine ⟨le_refl _, le_refl _, ?_⟩
    intro h1 h2 h3
    have := List.length_pos.mpr h1
    omega
  | succ fuel ih =>
    match lb, la with
    | [], la => simp [matchLevelLoop]
    | bid :: restB, [] => simp [matchLevelLoop]
    | bid :: restB, ask :: restA =>
      rw [matchLevelLoop]
      dsimp only
      split
      · split
        · have h := ih restB restA
          simp only [List.length_cons]
          omega
        · have h := ih restB ((ask.fill (min bid.remainingQuantity ask.remainingQuantity)).1 :: restA)
          simp only [List.length_cons] at h ⊢
          omega
      · have h := ih ((bid.fill (min bid.remainingQuantity ask.remainingQuantity)).1 :: restB) restA
        simp only [List.length_cons] at h ⊢
        omega

/-- Fuel bound for the outer crossing loop: every iteration either pops at
least one order or drops an empty level. -/
def matchLoopFuel (bids asks : Levels) : Nat :=
  levelsSize bids + levelsSize asks + bids.length + asks.length

/-- Outer crossing loop of Orderbook::MatchOrders: while both sides are
non-empty and the best bid price is not below the best ask price, run the
inner loop at the two best levels, erase the filled ids from the index,
and drop a level that became empty.  Returns the trades, the two sides,
the index, and the ghost conjunction of the discarded Fill results.  The
while-loop is modelled with explicit fuel; every iteration strictly
decreases matchLoopFuel of the sides, so any fuel of at least that
measure makes the out-of-fuel branch unreachable, and all call sites
supply such fuel. -/
def matchLoop : Nat → Levels → Levels → List (Nat × EntryInfo) →
    Trades × Levels × Levels × List (Nat × EntryInfo) × Bool
  | 0, bids, asks, idx => ([], bids, asks, idx, true)
  | _ + 1, [], asks, idx => ([], [], asks, idx, true)
  | _ + 1, (bp, lb) :: restB, [], idx => ([], (bp, lb) :: restB, [], idx, true)
  | fuel + 1, (bp, lb) :: restB, (ap, la) :: restA, idx =>
    if bp < ap then ([], (bp, lb) :: restB, (ap, la) :: restA, idx, true)
    else
      let m := matchLevelLoop (lb.length + la.length) lb la
      let idx2 := m.2.1.foldl eraseEntry idx
      let bids2 := if m.2.2.1 = [] then restB else (bp, m.2.2.1) :: restB
      let asks2 := if m.2.2.2.1 = [] then restA else (ap, m.2.2.2.1) :: restA
      let r := matchLoop fuel bids2 asks2 idx2
      (m.1 ++ r.1, r.2.1, r.2.2.1, r.2.2.2.1, m.2.2.2.2 && r.2.2.2.2)

/-- The index entry recorded for an inserted order (side, price and type
are immutable once the order is resting; see EntryInfo). -/
def entryInfoOf (o : Order) : EntryInfo :=
  ⟨o.side, o.price, o.orderType⟩

/-- Insert an order at its price level on its side (get-or-create the
level, push_back) and record it in the id index. -/
def insertOrder (b : Orderbook) (o : Order) : Orderbook :=
  if o.side = Side.buy then
    { b with bids := insertIntoLevels (fun x y => y < x) o.price o b.bids,
             orders := (o.orderId, entryInfoOf o) :: b.orders }
  else
    { b with asks := insertIntoLevels (fun x y => x < y) o.price o b.asks,
             orders := (o.orderId, entryInfoOf o) :: b.orders }

/-- IOC sweep at the end of Orderbook::MatchOrders: collect every index
entry whose type is ImmediateOrCancel into a buffer, then cancel each. -/
def cancelIocOrders (b : Orderbook) : Orderbook :=
  let iocOrdersToCancel :=
    (b.orders.filter (fun kv => kv.2.orderType == OrderType.immediateOrCancel)).map Prod.fst
  iocOrdersToCancel.foldl cancelOrder b

/-- Orderbook::MatchOrders: the crossing loop followed by the IOC sweep.
AddOrder inlines these two stages (see addOrder); this wrapper is the
whole member function. -/
def matchOrdersFn (b : Orderbook) : Trades × Orderbook × Bool :=
  let m := matchLoop (matchLoopFuel b.bids b.asks) b.bids b.asks b.orders
  let b1 := { b with bids := m.2.1, asks := m.2.2.1, orders := m.2.2.2.1 }
  (m.1, cancelIocOrders b1, m.2.2.2.2)

/-- Orderbook::AddOrder (the newer variant): day-reset check, market
conversion against the opposite side, validation, IOC fast-reject, the
FillOrKill branch, and otherwise insert plus MatchOrders.  MatchOrders is
inlined as crossing loop then IOC sweep so that the final state of the
aggressor object (still observable through the caller's shared_ptr) can
be recorded in between; the sweep only removes whole orders and never
changes a remaining quantity, and the loop pops an order exactly when its
remaining quantity reached zero, which justifies the getD default. -/
def addOrder (order : Order) (now : Nat) (b : Orderbook) : AddResult :=
  let b0 := checkAndResetDay b now
  let conv : Option Order :=
    if order.orderType = OrderType.market then
      if order.side = Side.buy ∧ b0.asks ≠ [] then
        some (order.toGoodTillCancel priceMax).1
      else if order.side = Side.sell ∧ b0.bids ≠ [] then
        some (order.toGoodTillCancel priceMin).1
      else none
    else some order
  match conv with
  | none => ⟨[], order, b0, true⟩
  | some order1 =>
    if ¬(validateOrder b0 order1).isValid then ⟨[], order1, b0, true⟩
    else if order1.orderType = OrderType.immediateOrCancel ∧
        ¬canMatch b0 order1.side order1.price then ⟨[], order1, b0, true⟩
    else if order1.orderType = OrderType.fillOrKill then matchFillOrKill order1 b0
    else
      let b3 := insertOrder b0 order1
      let m := matchLoop (matchLoopFuel b3.bids b3.asks) b3.bids b3.asks b3.orders
      let b4 := { b3 with bids := m.2.1, asks := m.2.2.1, orders := m.2.2.2.1 }
      let aggressor :=
        (findOrderInBook b4 order1.orderId).getD { order1 with remainingQuantity := 0 }
      ⟨m.1, aggressor, cancelIocOrders b4, m.2.2.2.2⟩

/-- Orderbook::MatchOrder (cancel-and-replace): day-reset check; empty
result for an unknown id; otherwise read the resting order's type through
the index, cancel it and AddOrder the replacement. -/
def matchOrder (m : OrderModify) (now : Nat) (b : Orderbook) : Trades × Orderbook :=
  let b0 := checkAndResetDay b now
  match lookupEntry b0.orders m.orderId with
  | none => ([], b0)
  | some e =>
    let b1 := cancelOrder b0 m.orderId
    let r := addOrder (m.toOrder e.orderType) now b1
    (r.trades, r.book)

/-- Orderbook::Size. -/
def bookSize (b : Orderbook) : Nat :=
  b.orders.length

/-- First synthetic order id used when rebuilding from a snapshot
(0x8000000000000000). -/
def syntheticIdBase : Nat := 9223372036854775808

/-- One snapshot level insertion: skip zero-quantity levels, otherwise
insert a synthetic GoodTillCancel order carrying the level's aggregate
quantity and advance the synthetic id counter. -/
def snapshotInsert (side : Side) (acc : Orderbook × Nat) (level : SnapshotLevel) :
    Orderbook × Nat :=
  if level.quantity = 0 then acc
  else
    (insertOrder acc.1 ⟨OrderType.goodTillCancel, acc.2, side, level.price,
      level.quantity, level.quantity⟩, acc.2 + 1)

/-- Orderbook::ProcessSnapshot: clear both sides and the index, rebuild
bids then asks from the snapshot levels with synthetic ids, then mark the
book initialized, record the sequence number and count the snapshot.  (No
comparison against the previous sequence number is performed.) -/
def processSnapshot (msg : BookSnapshotMessage) (b : Orderbook) : Orderbook :=
  let b1 := { b with bids := [], asks := [], orders := [] }
  let rb := msg.bids.foldl (snapshotInsert Side.buy) (b1, syntheticIdBase)
  let ra := msg.asks.foldl (snapshotInsert Side.sell) rb
  { ra.1 with isInitialized := true,
              lastSequenceNumber := msg.sequenceNumber,
              stats := { ra.1.stats with snapshots := ra.1.stats.snapshots + 1 } }

/-- Orderbook::ProcessNewOrder: construct the order, AddOrder it, count
the new order and the resulting trades. -/
def processNewOrder (msg : NewOrderMessage) (now : Nat) (b : Orderbook) : Orderbook :=
  let r := addOrder ⟨msg.orderType, msg.orderId, msg.side, msg.price,
    msg.quantity, msg.quantity⟩ now b
  { r.book with stats := { r.book.stats with
      newOrders := r.book.stats.newOrders + 1,
      trades := r.book.stats.trades + r.trades.length } }

/-- Orderbook::ProcessCancel. -/
def processCancel (msg : CancelOrderMessage) (b : Orderbook) : Orderbook :=
  let b1 := cancelOrder b msg.orderId
  { b1 with stats := { b1.stats with cancellations := b1.stats.cancellations + 1 } }

/-- Orderbook::ProcessModify. -/
def processModify (msg : ModifyOrderMessage) (now : Nat) (b : Orderbook) : Orderbook :=
  let r := matchOrder ⟨msg.orderId, msg.newPrice, msg.side, msg.newQuantity⟩ now b
  { r.2 with stats := { r.2.stats with modifications := r.2.stats.modifications + 1 } }

/-- Orderbook::ProcessTrade (informational: count only). -/
def processTrade (b : Orderbook) : Orderbook :=
  { b with stats := { b.stats with trades := b.stats.trades + 1 } }

/-- Orderbook::ProcessMarketData: dispatch on the variant, then count the
processed message.  The source's timing statistics and its catch-all
exception path (unreachable in this model, whose operations are total)
are not modelled; the Bool is the source's return value. -/
def processMarketData (msg : MarketDataMessage) (now : Nat) (b : Orderbook) :
    Bool × Orderbook :=
  let b1 :=
    match msg with
    | MarketDataMessage.newOrderMsg m => processNewOrder m now b
    | MarketDataMessage.cancelOrderMsg m => processCancel m b
    | MarketDataMessage.modifyOrderMsg m => processModify m now b
    | MarketDataMessage.tradeMsg _ => processTrade b
    | MarketDataMessage.bookSnapshotMsg m => processSnapshot m b
  (true, { b1 with stats := { b1.stats with
      messagesProcessed := b1.stats.messagesProcessed + 1 } })

/-- The price keys of the bid side, best (highest under sortedness) first. -/
def bidPriceKeys (b : Orderbook) : List Int :=
  b.bids.map Prod.fst

/-- The price keys of the ask side, best (lowest under sortedness) first. -/
def askPriceKeys (b : Orderbook) : List Int :=
  b.asks.map Prod.fst

/-- Sum of the executed quantities of a trade list (each Trade carries the
same quantity in both of its TradeInfo slots). -/
def sumTradeQty : Trades → Nat
  | [] => 0
  | t :: rest => t.bidTrade.quantity + sumTradeQty rest

/-- Total remaining quantity of a list of orders. -/
def totalRemaining : List Order → Nat
  | [] => 0
  | o :: rest => o.remainingQuantity + totalRemaining rest

/-! Basic lemmas about the primitive operations. -/

theorem Order.fill_orderId (o : Order) (q : Nat) : (o.fill q).1.orderId = o.orderId := by
  unfold Order.fill
  split <;> rfl

theorem Order.fill_price (o : Order) (q : Nat) : (o.fill q).1.price = o.price := by
  unfold Order.fill
  split <;> rfl

theorem Order.fill_side (o : Order) (q : Nat) : (o.fill q).1.side = o.side := by
  unfold Order.fill
  split <;> rfl

theorem Order.fill_orderType (o : Order) (q : Nat) :
    (o.fill q).1.orderType = o.orderType := by
  unfold Order.fill
  split <;> rfl

theorem Order.fill_initialQuantity (o : Order) (q : Nat) :
    (o.fill q).1.initialQuantity = o.initialQuantity := by
  unfold Order.fill
  split <;> rfl

theorem Order.fill_remaining_of_le (o : Order) (q : Nat) (h : q ≤ o.remainingQuantity) :
    (o.fill q).1.remainingQuantity = o.remainingQuantity - q := by
  unfold Order.fill
  have hq : ¬q > o.remainingQuantity := by omega
  rw [if_neg hq]

theorem Order.fill_ok_iff (o : Order) (q : Nat) :
    (o.fill q).2 = true ↔ q ≤ o.remainingQuantity := by
  unfold Order.fill
  rcases Nat.lt_or_ge o.remainingQuantity q with h | h
  · have hq : q > o.remainingQuantity := by omega
    rw [if_pos hq]
    simp
    omega
  · have hq : ¬q > o.remainingQuantity := by omega
    rw [if_neg hq]
    simp [h]

theorem Order.fill_remaining_le (o : Order) (q : Nat) :
    (o.fill q).1.remainingQuantity ≤ o.remainingQuantity := by
  unfold Order.fill
  rcases Nat.lt_or_ge o.remainingQuantity q with h | h
  · have hq : q > o.remainingQuantity := by omega
    rw [if_pos hq]
  · have hq : ¬q > o.remainingQuantity := by omega
    rw [if_neg hq]
    simp

theorem checkAndResetDay_of_not {b : Orderbook} {now : Nat}
    (h : shouldResetDay b now = false) : checkAndResetDay b now = b := by
  unfold checkAndResetDay
  rw [h]
  rfl

theorem cancelOrder_stats (b : Orderbook) (id : Nat) :
    (cancelOrder b id).stats = b.stats := by
  unfold cancelOrder
  cases lookupEntry b.orders id <;> simp
  split <;> rfl

theorem cancelOrder_meta (b : Orderbook) (id : Nat) :
    (cancelOrder b id).lastDayReset = b.lastDayReset ∧
    (cancelOrder b id).dayResetHour = b.dayResetHour ∧
    (cancelOrder b id).dayResetMinute = b.dayResetMinute ∧
    (cancelOrder b id).stats = b.stats ∧
    (cancelOrder b id).lastSequenceNumber = b.lastSequenceNumber ∧
    (cancelOrder b id).isInitialized = b.isInitialized ∧
    (cancelOrder b id).exchangeRules = b.exchangeRules := by
  unfold cancelOrder
  cases lookupEntry b.orders id <;> simp
  split <;> simp

theorem foldl_cancelOrder_meta (ids : List Nat) (b : Orderbook) :
    (ids.foldl cancelOrder b).lastDayReset = b.lastDayReset ∧
    (ids.foldl cancelOrder b).dayResetHour = b.dayResetHour ∧
    (ids.foldl cancelOrder b).dayResetMinute = b.dayResetMinute ∧
    (ids.foldl cancelOrder b).stats = b.stats ∧
    (ids.foldl cancelOrder b).lastSequenceNumber = b.lastSequenceNumber ∧
    (ids.foldl cancelOrder b).isInitialized = b.isInitialized ∧
    (ids.foldl cancelOrder b).exchangeRules = b.exchangeRules := by
  induction ids generalizing b with
  | nil => simp
  | cons id rest ih =>
    simp only [List.foldl_cons]
    have h1 := cancelOrder_meta b id
    have h2 := ih (cancelOrder b id)
    exact ⟨by rw [h2.1, h1.1], by rw [h2.2.1, h1.2.1], by rw [h2.2.2.1, h1.2.2.1],
      by rw [h2.2.2.2.1, h1.2.2.2.1], by rw [h2.2.2.2.2.1, h1.2.2.2.2.1],
      by rw [h2.2.2.2.2.2.1, h1.2.2.2.2.2.1], by rw [h2.2.2.2.2.2.2, h1.2.2.2.2.2.2]⟩

/-! Lemmas for RoundToTick and RoundToLot. -/

theorem roundToTick_floor (r : ExchangeRules) (p : Int)
    (ht : 1 ≤ r.tickSize) (hp : 0 ≤ p) :
    r.tickSize ∣ r.roundToTick p ∧ r.roundToTick p ≤ p ∧
      ∀ m : Int, r.tickSize ∣ m → m ≤ p → m ≤ r.roundToTick p := by
  unfold ExchangeRules.roundToTick
  rcases eq_or_lt_of_le ht with h1 | h1
  · rw [if_pos (by omega)]
    exact ⟨by rw [← h1]; exact one_dvd p, le_refl p, fun m _ hm => hm⟩
  · have hne : ¬r.tickSize ≤ 1 := by omega
    rw [if_neg hne]
    have ht0 : 0 < r.tickSize := by omega
    have htd : p.tdiv r.tickSize = p / r.tickSize := Int.tdiv_eq_ediv hp (by omega)
    rw [htd]
    refine ⟨⟨p / r.tickSize, by ring⟩, ?_, ?_⟩
    · have h2 := Int.emod_nonneg p (show r.tickSize ≠ 0 by omega)
      have h3 := Int.ediv_add_emod p r.tickSize
      rw [mul_comm]
      omega
    · intro m hdvd hm
      rcases hdvd with ⟨k, hk⟩
      subst hk
      have hk2 : k ≤ p / r.tickSize := by
        rw [Int.le_ediv_iff_mul_le ht0]
        calc k * r.tickSize = r.tickSize * k := by ring
        _ ≤ p := hm
      calc r.tickSize * k ≤ r.tickSize * (p / r.tickSize) :=
            mul_le_mul_of_nonneg_left hk2 (by omega)
      _ = p / r.tickSize * r.tickSize := by ring

theorem roundToLot_floor (r : ExchangeRules) (q : Nat) (hl : 1 ≤ r.lotSize) :
    r.lotSize ∣ r.roundToLot q ∧ r.roundToLot q ≤ q ∧
      ∀ n : Nat, r.lotSize ∣ n → n ≤ q → n ≤ r.roundToLot q := by
  unfold ExchangeRules.roundToLot
  rcases eq_or_lt_of_le hl with h1 | h1
  · rw [if_pos (by omega)]
    exact ⟨by rw [← h1]; exact one_dvd q, le_refl q, fun m _ hm => hm⟩
  · have hne : ¬r.lotSize ≤ 1 := by omega
    rw [if_neg hne]
    have hl0 : 0 < r.lotSize := by omega
    refine ⟨⟨q / r.lotSize, by ring⟩, Nat.div_mul_le_self q r.lotSize, ?_⟩
    intro n hdvd hn
    rcases hdvd with ⟨k, hk⟩
    subst hk
    have hk2 : k ≤ q / r.lotSize := by
      rw [Nat.le_div_iff_mul_le hl0]
      calc k * r.lotSize = r.lotSize * k := by ring
      _ ≤ q := hn
    calc r.lotSize * k ≤ r.lotSize * (q / r.lotSize) := Nat.mul_le_mul_left _ hk2
    _ = q / r.lotSize * r.lotSize := by ring

/-! Statistics preservation: no book operation below ProcessMarketData
touches the stats, and no path anywhere increments sequenceGaps. -/

theorem fillOrderInBook_stats (b : Orderbook) (id : Nat) (q : Nat) :
    (fillOrderInBook b id q).1.stats = b.stats := by
  unfold fillOrderInBook
  rcases h1 : (fillInLevels id q b.bids).2 with _ | ok1
  · rcases h2 : (fillInLevels id q b.asks).2 with _ | ok2 <;> simp [h1, h2]
  · simp [h1]

theorem executeMatchesForFillOrKill_stats (ms : List (Order × Nat)) (o : Order)
    (b : Orderbook) : (executeMatchesForFillOrKill o b ms).2.2.1.stats = b.stats := by
  induction ms generalizing o b with
  | nil => rfl
  | cons p rest ih =>
    rcases p with ⟨m, q⟩
    unfold executeMatchesForFillOrKill
    dsimp only
    split
    · rw [ih, cancelOrder_stats, fillOrderInBook_stats]
    · rw [ih, fillOrderInBook_stats]

theorem matchFillOrKill_stats (o : Order) (b : Orderbook) :
    (matchFillOrKill o b).book.stats = b.stats := by
  unfold matchFillOrKill
  dsimp only
  split
  · rfl
  · exact executeMatchesForFillOrKill_stats _ _ _

theorem insertOrder_stats (b : Orderbook) (o : Order) :
    (insertOrder b o).stats = b.stats := by
  unfold insertOrder
  split <;> rfl

theorem cancelGoodForDayOrders_stats (b : Orderbook) :
    (cancelGoodForDayOrders b).stats = b.stats :=
  (foldl_cancelOrder_meta _ b).2.2.2.1

theorem checkAndResetDay_stats (b : Orderbook) (now : Nat) :
    (checkAndResetDay b now).stats = b.stats := by
  unfold checkAndResetDay
  split
  · exact cancelGoodForDayOrders_stats b
  · rfl

theorem cancelIocOrders_stats (b : Orderbook) :
    (cancelIocOrders b).stats = b.stats :=
  (foldl_cancelOrder_meta _ b).2.2.2.1

theorem addOrder_stats (order : Order) (now : Nat) (b : Orderbook) :
    (addOrder order now b).book.stats = b.stats := by
  unfold addOrder
  dsimp only
  split
  · exact checkAndResetDay_stats b now
  · split
    · exact checkAndResetDay_stats b now
    · split
      · exact checkAndResetDay_stats b now
      · split
        · rw [matchFillOrKill_stats]
          exact checkAndResetDay_stats b now
        · show (cancelIocOrders _).stats = b.stats
          rw [cancelIocOrders_stats]
          show (insertOrder _ _).stats = b.stats
          rw [insertOrder_stats]
          exact checkAndResetDay_stats b now

theorem matchOrder_stats (m : OrderModify) (now : Nat) (b : Orderbook) :
    (matchOrder m now b).2.stats = b.stats := by
  unfold matchOrder
  dsimp only
  split
  · exact checkAndResetDay_stats b now
  · rw [addOrder_stats, cancelOrder_stats]
    exact checkAndResetDay_stats b now

theorem snapshotInsert_stats (side : Side) (acc : Orderbook × Nat) (level : SnapshotLevel) :
    (snapshotInsert side acc level).1.stats = acc.1.stats := by
  unfold snapshotInsert
  split
  · rfl
  · exact insertOrder_stats _ _

theorem foldl_snapshotInsert_stats (side : Side) (levels : List SnapshotLevel)
    (acc : Orderbook × Nat) :
    (levels.foldl (snapshotInsert side) acc).1.stats = acc.1.stats := by
  induction levels generalizing acc with
  | nil => rfl
  | cons l rest ih => rw [List.foldl_cons, ih, snapshotInsert_stats]

theorem processSnapshot_sequenceGaps (msg : BookSnapshotMessage) (b : Orderbook) :
    (processSnapshot msg b).stats.sequenceGaps = b.stats.sequenceGaps := by
  unfold processSnapshot
  dsimp only
  rw [foldl_snapshotInsert_stats, foldl_snapshotInsert_stats]

theorem processMarketData_sequenceGaps (msg : MarketDataMessage) (now : Nat) (b : Orderbook) :
    (processMarketData msg now b).2.stats.sequenceGaps = b.stats.sequenceGaps := by
  unfold processMarketData
  cases msg with
  | newOrderMsg m =>
    simp only [processNewOrder]
    rw [addOrder_stats]
  | cancelOrderMsg m =>
    simp only [processCancel]
    rw [cancelOrder_stats]
  | modifyOrderMsg m =>
    simp only [processModify]
    rw [matchOrder_stats]
  | tradeMsg m => rfl
  | bookSnapshotMsg m =>
    dsimp only
    rw [processSnapshot_sequenceGaps]

/-! Lemmas for CancelOrder locality (claim about the day-reset check). -/

theorem find_eraseFromLevel {oid id : Nat} (h : oid ≠ id) (l : List Order) :
    (eraseFromLevel id l).find? (fun o => o.orderId == oid) =
      l.find? (fun o => o.orderId == oid) := by
  induction l with
  | nil => rfl
  | cons o rest ih =>
    unfold eraseFromLevel
    by_cases ho : o.orderId = id
    · rw [if_pos ho]
      have : (o.orderId == oid) = false := by
        simp [ho]
        omega
      rw [List.find?_cons, this]
    · rw [if_neg ho]
      rw [List.find?_cons, List.find?_cons]
      cases hoo : (o.orderId == oid)
      · exact ih
      · rfl

theorem find_levelsOrders_eraseFromLevels {oid id : Nat} (h : oid ≠ id)
    (price : Int) (ls : Levels) :
    (levelsOrders (eraseFromLevels price id ls)).find? (fun o => o.orderId == oid) =
      (levelsOrders ls).find? (fun o => o.orderId == oid) := by
  induction ls with
  | nil => rfl
  | cons pl rest ih =>
    rcases pl with ⟨p, l⟩
    unfold eraseFromLevels
    by_cases hp : p = price
    · rw [if_pos hp]
      dsimp only
      split
      · next hl =>
        show (levelsOrders rest).find? _ = (levelsOrders ((p, l) :: rest)).find? _
        have h1 := find_eraseFromLevel h l
        rw [hl] at h1
        show _ = (l ++ levelsOrders rest).find? _
        rw [List.find?_append, ← h1]
        rfl
      · show ((eraseFromLevel id l) ++ levelsOrders rest).find? _ =
          (l ++ levelsOrders rest).find? _
        rw [List.find?_append, List.find?_append, find_eraseFromLevel h]
    · rw [if_neg hp]
      show ((l ++ levelsOrders (eraseFromLevels price id rest))).find? _ =
        (l ++ levelsOrders rest).find? _
      rw [List.find?_append, List.find?_append, ih]

theorem toGoodTillCancel_orderId (o : Order) (p : Int) :
    (o.toGoodTillCancel p).1.orderId = o.orderId := by
  unfold Order.toGoodTillCancel
  split <;> rfl

theorem executeMatchesForFillOrKill_trades_nil (ms : List (Order × Nat)) (o : Order)
    (b : Orderbook) : (executeMatchesForFillOrKill o b ms).1 = [] ↔ ms = [] := by
  cases ms with
  | nil => simp [executeMatchesForFillOrKill]
  | cons p rest =>
    rcases p with ⟨m, q⟩
    unfold executeMatchesForFillOrKill
    dsimp only
    simp

/-! Concrete books used as claim inputs. -/

/-- A book holding one resting GoodForDay buy order (id 1, price 100,
quantity 10), built by a public AddOrder at construction time 0. -/
def gfdBook : Orderbook :=
  (addOrder ⟨OrderType.goodForDay, 1, Side.buy, 100, 10, 10⟩ 0 (initialBook 0)).book

/-- A book holding one resting GoodTillCancel sell order (id 1, price 100,
quantity 5). -/
def sellBook : Orderbook :=
  (addOrder ⟨OrderType.goodTillCancel, 1, Side.sell, 100, 5, 5⟩ 0 (initialBook 0)).book

/-- C4 (amended): when the day-reset does not fire during the call, an
AddOrder of a FillOrKill order that returns empty Trades leaves the book
exactly as it was (the collection phase never mutates, and an empty trade
list means the execution phase ran on an empty match list). -/
theorem c4_fok_atomic (order : Order) (now : Nat) (b : Orderbook)
    (htype : order.orderType = OrderType.fillOrKill)
    (hreset : shouldResetDay b now = false)
    (hempty : (addOrder order now b).trades = []) :
    (addOrder order now b).book = b := by
  unfold addOrder at hempty ⊢
  rw [checkAndResetDay_of_not hreset] at hempty ⊢
  dsimp only at hempty ⊢
  rw [if_neg (show ¬(order.orderType = OrderType.market) by rw [htype]; decide)]
    at hempty ⊢
  dsimp only at hempty ⊢
  by_cases hv : ¬(validateOrder b order).isValid = true
  · rw [if_pos hv]
  · rw [if_neg hv] at hempty ⊢
    rw [if_neg (show ¬(order.orderType = OrderType.immediateOrCancel ∧
        ¬canMatch b order.side order.price = true) by
      rintro ⟨h1, _⟩
      rw [htype] at h1
      exact absurd h1 (by decide))] at hempty ⊢
    rw [if_pos htype] at hempty ⊢
    unfold matchFillOrKill at hempty ⊢
    dsimp only at hempty ⊢
    split at hempty
    · next hh =>
      rw [if_pos hh]
    · next hh =>
      rw [if_neg hh]
      rcases (executeMatchesForFillOrKill_trades_nil _ _ _).mp hempty with hnil
      rw [hnil]
      rfl

/-- C6 (amended): when the day-reset does not fire during the call, an
AddOrder whose id is already in the index returns empty Trades and leaves
the book unchanged (the duplicate-id rejection in ValidateOrder). -/
theorem c6_duplicate_rejected (order : Order) (now : Nat) (b : Orderbook)
    (hdup : (lookupEntry b.orders order.orderId).isSome = true)
    (hreset : shouldResetDay b now = false) :
    (addOrder order now b).trades = [] ∧ (addOrder order now b).book = b := by
  have hval : ∀ o1 : Order, o1.orderId = order.orderId →
      (validateOrder b o1).isValid = false := by
    intro o1 h1
    unfold validateOrder
    rw [h1, if_pos hdup]
    rfl
  unfold addOrder
  rw [checkAndResetDay_of_not hreset]
  dsimp only
  by_cases hm : order.orderType = OrderType.market
  · rw [if_pos hm]
    by_cases ha : order.side = Side.buy ∧ b.asks ≠ []
    · rw [if_pos ha]
      dsimp only
      rw [if_pos (by rw [hval _ (toGoodTillCancel_orderId order priceMax)]; decide)]
      exact ⟨rfl, rfl⟩
    · rw [if_neg ha]
      by_cases hb : order.side = Side.sell ∧ b.bids ≠ []
      · rw [if_pos hb]
        dsimp only
        rw [if_pos (by rw [hval _ (toGoodTillCancel_orderId order priceMin)]; decide)]
        exact ⟨rfl, rfl⟩
      · rw [if_neg hb]
        exact ⟨rfl, rfl⟩
  · rw [if_neg hm]
    dsimp only
    rw [if_pos (by rw [hval order rfl]; decide)]
    exact ⟨rfl, rfl⟩

/-- C8 (amended): CancelOrder performs no day-reset check and touches no
order other than the given id: every other resting order is exactly as
before the call. -/
theorem c8_cancel_touches_only_id (b : Orderbook) (id oid : Nat) (h : oid ≠ id) :
    findOrderInBook (cancelOrder b id) oid = findOrderInBook b oid := by
  unfold cancelOrder
  cases he : lookupEntry b.orders id with
  | none => rfl
  | some e =>
    dsimp only
    split
    · unfold findOrderInBook bookOrders
      dsimp only
      rw [List.find?_append, List.find?_append, find_levelsOrders_eraseFromLevels h]
    · unfold findOrderInBook bookOrders
      dsimp only
      rw [List.find?_append, List.find?_append, find_levelsOrders_eraseFromLevels h]

/-- C8 counterexample: at an instant when the day-reset condition holds
(one GoodForDay order resting, reset time passed), a CancelOrder call for
an absent id leaves the book byte-identical - the GoodForDay order
survives - although the day-reset check (as AddOrder and MatchOrder run
it) would have cancelled it.  CancelOrder reads no clock at all. -/
theorem c8_counterexample :
    shouldResetDay gfdBook 57540 = true ∧
    cancelOrder gfdBook 999 = gfdBook ∧
    (findOrderInBook gfdBook 1).isSome = true ∧
    bookSize (checkAndResetDay gfdBook 57540) = 0 := by decide

/-- C8 witness: cancelling an absent id leaves the unrelated resting
order 1 untouched. -/
theorem c8_cancel_touches_only_id_witness :
    findOrderInBook (cancelOrder gfdBook 999) 1 = findOrderInBook gfdBook 1 :=
  c8_cancel_touches_only_id gfdBook 999 1 (by decide)

/-- C7: the claimed sequence-gap detection does not exist in the code.
No ProcessMarketData dispatch ever changes the sequenceGaps counter, and
in particular two snapshots whose sequence numbers jump from 1 to 5 leave
it at zero although the last recorded sequence number was 1. -/
theorem c7_sequence_gaps_never_incremented :
    (∀ (msg : MarketDataMessage) (now : Nat) (b : Orderbook),
      (processMarketData msg now b).2.stats.sequenceGaps = b.stats.sequenceGaps) ∧
    (processMarketData
        (MarketDataMessage.bookSnapshotMsg ⟨[⟨100, 5, 1⟩], [⟨101, 5, 1⟩], 1⟩) 0
        (initialBook 0)).2.lastSequenceNumber = 1 ∧
    (processMarketData
        (MarketDataMessage.bookSnapshotMsg ⟨[⟨100, 5, 1⟩], [⟨101, 5, 1⟩], 5⟩) 0
        (processMarketData
          (MarketDataMessage.bookSnapshotMsg ⟨[⟨100, 5, 1⟩], [⟨101, 5, 1⟩], 1⟩) 0
          (initialBook 0)).2).2.stats.sequenceGaps = 0 :=
  ⟨processMarketData_sequenceGaps, by decide, by decide⟩

/-- C9 counterexample: with tick size 2, RoundToTick(-3) returns -2
(truncation toward zero, as C++ integer division does), which is greater
than the argument, so RoundToTick is not a floor on negative prices. -/
theorem c9_counterexample :
    ({ tickSize := 2 : ExchangeRules }).roundToTick (-3) = -2 ∧ ¬((-2 : Int) ≤ -3) := by
  decide

/-- C9 (amended): for a positive tick size and a non-negative price,
RoundToTick returns the largest multiple of tickSize that is at most the
price, and for a positive lot size RoundToLot likewise floors every
(unsigned) quantity. -/
theorem c9_rounding_is_floor (r : ExchangeRules) (p : Int) (q : Nat)
    (ht : 1 ≤ r.tickSize) (hp : 0 ≤ p) (hl : 1 ≤ r.lotSize) :
    (r.tickSize ∣ r.roundToTick p ∧ r.roundToTick p ≤ p ∧
      ∀ m : Int, r.tickSize ∣ m → m ≤ p → m ≤ r.roundToTick p) ∧
    (r.lotSize ∣ r.roundToLot q ∧ r.roundToLot q ≤ q ∧
      ∀ n : Nat, r.lotSize ∣ n → n ≤ q → n ≤ r.roundToLot q) :=
  ⟨roundToTick_floor r p ht hp, roundToLot_floor r q hl⟩

/-- C9 witness: with tick size 2 and lot size 3, rounding 7 and 10 gives
multiples that are at most the inputs and at least the concrete lower
multiples 6 and 9. -/
theorem c9_rounding_is_floor_witness :
    (2 : Int) ∣ ({ tickSize := 2, lotSize := 3 : ExchangeRules }).roundToTick 7 ∧
    ({ tickSize := 2, lotSize := 3 : ExchangeRules }).roundToTick 7 ≤ 7 ∧
    (6 : Int) ≤ ({ tickSize := 2, lotSize := 3 : ExchangeRules }).roundToTick 7 ∧
    (3 : Nat) ∣ ({ tickSize := 2, lotSize := 3 : ExchangeRules }).roundToLot 10 ∧
    ({ tickSize := 2, lotSize := 3 : ExchangeRules }).roundToLot 10 ≤ 10 ∧
    (9 : Nat) ≤ ({ tickSize := 2, lotSize := 3 : ExchangeRules }).roundToLot 10 := by
  have h := c9_rounding_is_floor { tickSize := 2, lotSize := 3 } 7 10
    (by decide) (by decide) (by decide)
  exact ⟨h.1.1, h.1.2.1, h.1.2.2 6 (by decide) (by decide),
    h.2.1, h.2.2.1, h.2.2.2 9 (by decide) (by decide)⟩

/-- C4 counterexample: with one resting GoodForDay order and the day-reset
condition holding, a FillOrKill AddOrder that cannot fill returns empty
Trades, yet the book is not identical to the pre-call book - the
GoodForDay order was cancelled by the day-reset step of the same call. -/
theorem c4_counterexample :
    (addOrder ⟨OrderType.fillOrKill, 2, Side.sell, 200, 5, 5⟩ 57540 gfdBook).trades = [] ∧
    (addOrder ⟨OrderType.fillOrKill, 2, Side.sell, 200, 5, 5⟩ 57540 gfdBook).book ≠ gfdBook := by
  decide

/-- C4 witness: a FillOrKill buy for 10 against a book offering only 5
returns no trades and leaves the book unchanged. -/
theorem c4_fok_atomic_witness :
    (addOrder ⟨OrderType.fillOrKill, 2, Side.buy, 100, 10, 10⟩ 0 sellBook).book = sellBook :=
  c4_fok_atomic _ 0 sellBook rfl (by decide) (by decide)

/-- C6 counterexample: the book holds a GoodForDay order with id 1 and the
day-reset condition holds; AddOrder of a new order with the same id 1
cancels the resting order in its day-reset step, then passes the
duplicate check and inserts the new order, so existing state is not left
untouched. -/
theorem c6_counterexample :
    (lookupEntry gfdBook.orders 1).isSome = true ∧
    (addOrder ⟨OrderType.goodTillCancel, 1, Side.buy, 100, 5, 5⟩ 57540 gfdBook).book ≠ gfdBook := by
  decide

/-- C6 witness: a duplicate id is rejected with empty trades and an
untouched book. -/
theorem c6_duplicate_rejected_witness :
    (addOrder ⟨OrderType.goodTillCancel, 1, Side.buy, 100, 10, 10⟩ 0 sellBook).trades = [] ∧
    (addOrder ⟨OrderType.goodTillCancel, 1, Side.buy, 100, 10, 10⟩ 0 sellBook).book = sellBook :=
  c6_duplicate_rejected _ 0 sellBook (by decide) (by decide)

/-! Evolution of a FIFO level queue under the crossing loop: the loop pops
whole orders from the front and may partially reduce the order that ends
up at the front; nothing else changes. -/

/-- cur is obtained from orig by dropping some front elements and possibly
reducing the remaining quantity of the new front element. -/
def reducedSuffix (orig cur : List Order) : Prop :=
  ∃ k, cur = orig.drop k ∨
    ∃ o rest r, orig.drop k = o :: rest ∧ r < o.remainingQuantity ∧
      cur = { o with remainingQuantity := r } :: rest

theorem reducedSuffix_refl (l : List Order) : reducedSuffix l l :=
  ⟨0, Or.inl rfl⟩

theorem reducedSuffix_nil (l : List Order) : reducedSuffix l [] :=
  ⟨l.length, Or.inl (List.drop_length l).symm⟩

/-- Dropping the head preserves the relation. -/
theorem reducedSuffix_cons {t cur : List Order} (h : reducedSuffix t cur) (o : Order) :
    reducedSuffix (o :: t) cur := by
  rcases h with ⟨k, h | ⟨x, rest, r, hdrop, hr, hcur⟩⟩
  · exact ⟨k + 1, Or.inl (by simpa using h)⟩
  · exact ⟨k + 1, Or.inr ⟨x, rest, r, by simpa using hdrop, hr, hcur⟩⟩

/-- Reducing the head first (to h' with the same identity and no larger
remaining quantity) preserves the relation. -/
theorem reducedSuffix_reduce_head {h h' : Order} {t cur : List Order}
    (hrel : reducedSuffix (h' :: t) cur)
    (hval : h' = { h with remainingQuantity := h'.remainingQuantity })
    (hle : h'.remainingQuantity ≤ h.remainingQuantity) :
    reducedSuffix (h :: t) cur := by
  rcases hrel with ⟨k, hk | ⟨x, rest, r, hdrop, hr, hcur⟩⟩
  · cases k with
    | zero =>
      rcases Nat.lt_or_ge h'.remainingQuantity h.remainingQuantity with hlt | hge
      · exact ⟨0, Or.inr ⟨h, t, h'.remainingQuantity, rfl, hlt, by rw [hk, List.drop_zero, ← hval]⟩⟩
      · have heq : h' = h := by
          have hrem : h'.remainingQuantity = h.remainingQuantity := by omega
          rw [hval, hrem]
        exact ⟨0, Or.inl (by rw [hk, heq])⟩
    | succ k =>
      exact ⟨k + 1, Or.inl (by simpa using hk)⟩
  · cases k with
    | zero =>
      rw [List.drop_zero] at hdrop
      rcases List.cons.injEq .. ▸ hdrop with ⟨hx, hrest⟩
      refine ⟨0, Or.inr ⟨h, t, r, rfl, ?_, ?_⟩⟩
      · have : x = h' := hx.symm
        rw [this] at hr
        omega
      · rw [hcur, hrest]
        have : x = h' := hx.symm
        rw [this, hval]
    | succ k =>
      exact ⟨k + 1, Or.inr ⟨x, rest, r, by simpa using hdrop, hr, hcur⟩⟩

/-- An order after a fill is the same order with its remaining quantity
replaced. -/
theorem Order.fill_eq_update (o : Order) (q : Nat) :
    (o.fill q).1 = { o with remainingQuantity := (o.fill q).1.remainingQuantity } := by
  unfold Order.fill
  split <;> rfl

/-- Ids of a list of orders. -/
def idsOf (l : List Order) : List Nat :=
  l.map (fun o => o.orderId)

/-- The inner crossing loop consumes each queue from the front: the
residual queue is a suffix whose new front may have been partially
reduced. -/
theorem matchLevelLoop_evol (fuel : Nat) (lb la : List Order) :
    reducedSuffix lb (matchLevelLoop fuel lb la).2.2.1 ∧
    reducedSuffix la (matchLevelLoop fuel lb la).2.2.2.1 := by
  induction fuel generalizing lb la with
  | zero => exact ⟨reducedSuffix_refl lb, reducedSuffix_refl la⟩
  | succ fuel ih =>
    match lb, la with
    | [], la =>
      rw [matchLevelLoop]
      exact ⟨reducedSuffix_refl [], reducedSuffix_refl la⟩
    | bid :: restB, [] =>
      rw [matchLevelLoop]
      exact ⟨reducedSuffix_refl _, reducedSuffix_refl []⟩
    | bid :: restB, ask :: restA =>
      rw [matchLevelLoop]
      dsimp only
      split
      · split
        · have h := ih restB restA
          exact ⟨reducedSuffix_cons h.1 bid, reducedSuffix_cons h.2 ask⟩
        · have h := ih restB ((ask.fill (min bid.remainingQuantity ask.remainingQuantity)).1 :: restA)
          refine ⟨reducedSuffix_cons h.1 bid, ?_⟩
          exact reducedSuffix_reduce_head h.2 (Order.fill_eq_update ask _)
            (Order.fill_remaining_le ask _)
      · have h := ih ((bid.fill (min bid.remainingQuantity ask.remainingQuantity)).1 :: restB) restA
        refine ⟨?_, reducedSuffix_cons h.2 ask⟩
        exact reducedSuffix_reduce_head h.1 (Order.fill_eq_update bid _)
          (Order.fill_remaining_le bid _)

/-- The ids of the two queues are exactly the popped (filled) ids plus the
ids of the two residual queues. -/
theorem matchLevelLoop_perm (fuel : Nat) (lb la : List Order) :
    List.Perm (idsOf lb ++ idsOf la)
      ((matchLevelLoop fuel lb la).2.1 ++
        (idsOf (matchLevelLoop fuel lb la).2.2.1 ++
          idsOf (matchLevelLoop fuel lb la).2.2.2.1)) := by
  induction fuel generalizing lb la with
  | zero => simp [matchLevelLoop]
  | succ fuel ih =>
    match lb, la with
    | [], la => simp [matchLevelLoop]
    | bid :: restB, [] => simp [matchLevelLoop, idsOf]
    | bid :: restB, ask :: restA =>
      rw [matchLevelLoop]
      dsimp only
      split
      · split
        · have h := ih restB restA
          show List.Perm (idsOf (bid :: restB) ++ idsOf (ask :: restA)) _
          rw [show idsOf (bid :: restB) = bid.orderId :: idsOf restB from rfl,
            show idsOf (ask :: restA) = ask.orderId :: idsOf restA from rfl,
            List.cons_append, List.cons_append, List.cons_append]
          refine List.Perm.cons _ ?_
          refine List.Perm.trans (@List.perm_middle _ _ (idsOf restB) (idsOf restA)) ?_
          exact List.Perm.cons _ h
        · have h := ih restB ((ask.fill (min bid.remainingQuantity ask.remainingQuantity)).1 :: restA)
          have e3 : idsOf ((ask.fill (min bid.remainingQuantity ask.remainingQuantity)).1 :: restA)
              = ask.orderId :: idsOf restA := by
            simp [idsOf, Order.fill_orderId]
          rw [e3] at h
          show List.Perm (idsOf (bid :: restB) ++ idsOf (ask :: restA)) _
          rw [show idsOf (bid :: restB) = bid.orderId :: idsOf restB from rfl,
            show idsOf (ask :: restA) = ask.orderId :: idsOf restA from rfl,
            List.cons_append, List.cons_append]
          exact List.Perm.cons _ h
      · have h := ih ((bid.fill (min bid.remainingQuantity ask.remainingQuantity)).1 :: restB) restA
        have e3 : idsOf ((bid.fill (min bid.remainingQuantity ask.remainingQuantity)).1 :: restB)
            = idsOf (bid :: restB) := by
          simp [idsOf, Order.fill_orderId]
        rw [e3] at h
        show List.Perm (idsOf (bid :: restB) ++ idsOf (ask :: restA)) _
        rw [show idsOf (ask :: restA) = ask.orderId :: idsOf restA from rfl,
          List.cons_append]
        refine List.Perm.trans (@List.perm_middle _ _ (idsOf (bid :: restB)) (idsOf restA)) ?_
        exact List.Perm.cons _ h

/-- The inner crossing loop conserves quantity on each side: each side's
total remaining quantity decreases by exactly the total traded quantity. -/
theorem matchLevelLoop_totals (fuel : Nat) (lb la : List Order)
    (hfuel : lb.length + la.length ≤ fuel) :
    totalRemaining lb =
      totalRemaining (matchLevelLoop fuel lb la).2.2.1 +
        sumTradeQty (matchLevelLoop fuel lb la).1 ∧
    totalRemaining la =
      totalRemaining (matchLevelLoop fuel lb la).2.2.2.1 +
        sumTradeQty (matchLevelLoop fuel lb la).1 := by
  induction fuel generalizing lb la with
  | zero =>
    have hlb : lb = [] := List.length_eq_zero.mp (by omega)
    have hla : la = [] := List.length_eq_zero.mp (by omega)
    subst hlb hla
    simp [matchLevelLoop, sumTradeQty]
  | succ fuel ih =>
    match lb, la with
    | [], la =>
      rw [matchLevelLoop]
      simp [totalRemaining, sumTradeQty]
    | bid :: restB, [] =>
      rw [matchLevelLoop]
      simp [totalRemaining, sumTradeQty]
    | bid :: restB, ask :: restA =>
      rw [matchLevelLoop]
      dsimp only
      have hqb : min bid.remainingQuantity ask.remainingQuantity ≤ bid.remainingQuantity :=
        Nat.min_le_left _ _
      have hqa : min bid.remainingQuantity ask.remainingQuantity ≤ ask.remainingQuantity :=
        Nat.min_le_right _ _
      have eb := Order.fill_remaining_of_le bid _ hqb
      have ea := Order.fill_remaining_of_le ask _ hqa
      simp only [List.length_cons] at hfuel
      split
      · next hb =>
        split
        · next ha =>
          have h := ih restB restA (by omega)
          simp only [totalRemaining, sumTradeQty]
          omega
        · next ha =>
          have h := ih restB
            ((ask.fill (min bid.remainingQuantity ask.remainingQuantity)).1 :: restA)
            (by simp only [List.length_cons]; omega)
          simp only [totalRemaining, sumTradeQty] at h ⊢
          omega
      · next hb =>
        have h := ih ((bid.fill (min bid.remainingQuantity ask.remainingQuantity)).1 :: restB)
          restA (by simp only [List.length_cons]; omega)
        simp only [totalRemaining, sumTradeQty] at h ⊢
        omega

/-- Every Fill performed by the inner crossing loop is for min of the two
remaining quantities, so the discarded Fill results are all true. -/
theorem matchLevelLoop_ok (fuel : Nat) (lb la : List Order) :
    (matchLevelLoop fuel lb la).2.2.2.2 = true := by
  induction fuel generalizing lb la with
  | zero => rfl
  | succ fuel ih =>
    match lb, la with
    | [], la => rfl
    | bid :: restB, [] => rfl
    | bid :: restB, ask :: restA =>
      rw [matchLevelLoop]
      dsimp only
      have hb2 := (Order.fill_ok_iff bid (min bid.remainingQuantity ask.remainingQuantity)).mpr
        (Nat.min_le_left _ _)
      have ha2 := (Order.fill_ok_iff ask (min bid.remainingQuantity ask.remainingQuantity)).mpr
        (Nat.min_le_right _ _)
      split
      · split
        · simp [hb2, ha2, ih restB restA]
        · simp [hb2, ha2, ih restB _]
      · simp [hb2, ha2, ih _ restA]

/-! Locality of the index operations. -/

theorem lookupEntry_eraseEntry_ne (idx : List (Nat × EntryInfo)) (id oid : Nat)
    (h : oid ≠ id) : lookupEntry (eraseEntry idx id) oid = lookupEntry idx oid := by
  induction idx with
  | nil => rfl
  | cons kv rest ih =>
    simp only [eraseEntry]
    by_cases hk : kv.1 = id
    · rw [if_pos hk]
      simp only [lookupEntry]
      rw [if_neg (by omega)]
    · rw [if_neg hk]
      simp only [lookupEntry]
      by_cases ho : kv.1 = oid
      · rw [if_pos ho, if_pos ho]
      · rw [if_neg ho, if_neg ho]
        exact ih

theorem eraseEntry_sub {idx : List (Nat × EntryInfo)} {id : Nat} {kv : Nat × EntryInfo}
    (h : kv ∈ eraseEntry idx id) : kv ∈ idx := by
  induction idx with
  | nil => exact absurd h (by simp [eraseEntry])
  | cons kv0 rest ih =>
    simp only [eraseEntry] at h
    by_cases hk : kv0.1 = id
    · rw [if_pos hk] at h
      exact List.mem_cons_of_mem _ h
    · rw [if_neg hk] at h
      rcases List.mem_cons.mp h with h1 | h1
      · exact h1 ▸ List.mem_cons_self _ _
      · exact List.mem_cons_of_mem _ (ih h1)

theorem eraseEntry_keys_sublist (idx : List (Nat × EntryInfo)) (id : Nat) :
    List.Sublist ((eraseEntry idx id).map Prod.fst) (idx.map Prod.fst) := by
  induction idx with
  | nil => simp [eraseEntry]
  | cons kv rest ih =>
    simp only [eraseEntry]
    by_cases hk : kv.1 = id
    · rw [if_pos hk]
      simp only [List.map_cons]
      exact List.sublist_cons_self _ _
    · rw [if_neg hk]
      simp only [List.map_cons]
      exact List.Sublist.cons₂ kv.1 ih

theorem lookupEntry_eraseEntry_self (idx : List (Nat × EntryInfo)) (id : Nat)
    (hnd : (idx.map Prod.fst).Nodup) :
    lookupEntry (eraseEntry idx id) id = none := by
  induction idx with
  | nil => rfl
  | cons kv rest ih =>
    simp only [List.map_cons, List.nodup_cons] at hnd
    simp only [eraseEntry]
    by_cases hk : kv.1 = id
    · rw [if_pos hk]
      subst hk
      clear ih
      induction rest with
      | nil => rfl
      | cons kv2 rest2 ih2 =>
        simp only [List.map_cons, List.mem_cons, List.nodup_cons] at hnd
        simp only [lookupEntry]
        rw [if_neg (by intro he; exact hnd.1 (Or.inl he.symm))]
        exact ih2 ⟨fun hm => hnd.1 (Or.inr hm), hnd.2.2⟩
    · rw [if_neg hk]
      simp only [lookupEntry]
      rw [if_neg hk]
      exact ih hnd.2

theorem lookupEntry_foldl_erase_ne (ids : List Nat) (idx : List (Nat × EntryInfo))
    (oid : Nat) (h : oid ∉ ids) :
    lookupEntry (ids.foldl eraseEntry idx) oid = lookupEntry idx oid := by
  induction ids generalizing idx with
  | nil => rfl
  | cons id rest ih =>
    simp only [List.mem_cons, not_or] at h
    rw [List.foldl_cons, ih _ h.2, lookupEntry_eraseEntry_ne _ _ _ h.1]

theorem foldl_erase_sub {ids : List Nat} {idx : List (Nat × EntryInfo)}
    {kv : Nat × EntryInfo} (h : kv ∈ ids.foldl eraseEntry idx) : kv ∈ idx := by
  induction ids generalizing idx with
  | nil => exact h
  | cons id rest ih =>
    rw [List.foldl_cons] at h
    exact eraseEntry_sub (ih h)

theorem foldl_erase_keys_sublist (ids : List Nat) (idx : List (Nat × EntryInfo)) :
    List.Sublist ((ids.foldl eraseEntry idx).map Prod.fst) (idx.map Prod.fst) := by
  induction ids generalizing idx with
  | nil => simp
  | cons id rest ih =>
    rw [List.foldl_cons]
    exact List.Sublist.trans (ih _) (eraseEntry_keys_sublist idx id)

theorem lookupEntry_foldl_erase_self (ids : List Nat) (idx : List (Nat × EntryInfo))
    (oid : Nat) (hmem : oid ∈ ids) (hnd : (idx.map Prod.fst).Nodup) :
    lookupEntry (ids.foldl eraseEntry idx) oid = none := by
  induction ids generalizing idx with
  | nil => exact absurd hmem (by simp)
  | cons id rest ih =>
    rw [List.foldl_cons]
    rcases List.mem_cons.mp hmem with h1 | h1
    · subst h1
      by_cases h2 : oid ∈ rest
      · exact ih _ h2 ((eraseEntry_keys_sublist idx oid).nodup hnd)
      · rw [lookupEntry_foldl_erase_ne _ _ _ h2]
        exact lookupEntry_eraseEntry_self idx oid hnd
    · exact ih _ h1 ((eraseEntry_keys_sublist idx id).nodup hnd)

/-! Locality of the level operations. -/

theorem eraseFromLevel_ids_sublist (id : Nat) (l : List Order) :
    List.Sublist (idsOf (eraseFromLevel id l)) (idsOf l) := by
  induction l with
  | nil => simp [eraseFromLevel]
  | cons o rest ih =>
    simp only [eraseFromLevel]
    by_cases ho : o.orderId = id
    · rw [if_pos ho]
      simp only [idsOf, List.map_cons]
      exact List.sublist_cons_self _ _
    · rw [if_neg ho]
      simp only [idsOf, List.map_cons]
      exact List.Sublist.cons₂ _ ih

theorem eraseFromLevel_sub {id : Nat} {l : List Order} {o : Order}
    (h : o ∈ eraseFromLevel id l) : o ∈ l := by
  induction l with
  | nil => exact absurd h (by simp [eraseFromLevel])
  | cons o0 rest ih =>
    simp only [eraseFromLevel] at h
    by_cases ho : o0.orderId = id
    · rw [if_pos ho] at h
      exact List.mem_cons_of_mem _ h
    · rw [if_neg ho] at h
      rcases List.mem_cons.mp h with h1 | h1
      · exact h1 ▸ List.mem_cons_self _ _
      · exact List.mem_cons_of_mem _ (ih h1)

/-- Every order of an erased side is an order of the original side
(erasure never changes order values). -/
theorem eraseFromLevels_sub {price : Int} {id : Nat} {ls : Levels} {o : Order}
    (h : o ∈ levelsOrders (eraseFromLevels price id ls)) : o ∈ levelsOrders ls := by
  induction ls with
  | nil => exact absurd h (by simp [eraseFromLevels, levelsOrders])
  | cons pl rest ih =>
    rcases pl with ⟨p, l⟩
    simp only [eraseFromLevels] at h
    by_cases hp : p = price
    · rw [if_pos hp] at h
      split at h
      · exact List.mem_append_right _ h
      · rcases List.mem_append.mp h with h1 | h1
        · exact List.mem_append_left _ (eraseFromLevel_sub h1)
        · exact List.mem_append_right _ h1
    · rw [if_neg hp] at h
      rcases List.mem_append.mp h with h1 | h1
      · exact List.mem_append_left _ h1
      · exact List.mem_append_right _ (ih h1)

theorem eraseFromLevels_ids_sublist (price : Int) (id : Nat) (ls : Levels) :
    List.Sublist (idsOf (levelsOrders (eraseFromLevels price id ls)))
      (idsOf (levelsOrders ls)) := by
  induction ls with
  | nil => simp [eraseFromLevels]
  | cons pl rest ih =>
    rcases pl with ⟨p, l⟩
    simp only [eraseFromLevels]
    by_cases hp : p = price
    · rw [if_pos hp]
      split
      · show List.Sublist (idsOf (levelsOrders rest)) (idsOf (l ++ levelsOrders rest))
        simp only [idsOf, levelsOrders, List.map_append]
        exact List.sublist_append_right _ _
      · show List.Sublist (idsOf (eraseFromLevel id l ++ levelsOrders rest))
          (idsOf (l ++ levelsOrders rest))
        simp only [idsOf, List.map_append]
        exact List.Sublist.append (eraseFromLevel_ids_sublist id l) (List.Sublist.refl _)
    · rw [if_neg hp]
      show List.Sublist (idsOf (l ++ levelsOrders (eraseFromLevels price id rest)))
        (idsOf (l ++ levelsOrders rest))
      simp only [idsOf, List.map_append]
      exact List.Sublist.append (List.Sublist.refl _) ih

theorem eraseFromLevels_keys_sublist (price : Int) (id : Nat) (ls : Levels) :
    List.Sublist ((eraseFromLevels price id ls).map Prod.fst) (ls.map Prod.fst) := by
  induction ls with
  | nil => simp [eraseFromLevels]
  | cons pl rest ih =>
    rcases pl with ⟨p, l⟩
    simp only [eraseFromLevels]
    by_cases hp : p = price
    · rw [if_pos hp]
      split
      · simp only [List.map_cons]
        exact List.sublist_cons_self _ _
      · simp only [List.map_cons]
        exact List.Sublist.cons₂ _ (List.Sublist.refl _)
    · rw [if_neg hp]
      simp only [List.map_cons]
      exact List.Sublist.cons₂ _ ih

/-- CancelOrder only removes orders: every order of the result was in the
original book. -/
theorem cancelOrder_sub {b : Orderbook} {id : Nat} {o : Order}
    (h : o ∈ bookOrders (cancelOrder b id)) : o ∈ bookOrders b := by
  unfold cancelOrder at h
  cases he : lookupEntry b.orders id with
  | none =>
    rw [he] at h
    exact h
  | some e =>
    rw [he] at h
    dsimp only at h
    by_cases hs : e.side = Side.sell
    · rw [if_pos hs] at h
      replace h : o ∈ levelsOrders b.bids ++ levelsOrders (eraseFromLevels e.price id b.asks) := h
      unfold bookOrders
      rcases List.mem_append.mp h with h1 | h1
      · exact List.mem_append_left _ h1
      · exact List.mem_append_right _ (eraseFromLevels_sub h1)
    · rw [if_neg hs] at h
      replace h : o ∈ levelsOrders (eraseFromLevels e.price id b.bids) ++ levelsOrders b.asks := h
      unfold bookOrders
      rcases List.mem_append.mp h with h1 | h1
      · exact List.mem_append_left _ (eraseFromLevels_sub h1)
      · exact List.mem_append_right _ h1

theorem cancelOrder_ids_sublist (b : Orderbook) (id : Nat) :
    List.Sublist (idsOf (bookOrders (cancelOrder b id))) (idsOf (bookOrders b)) := by
  unfold cancelOrder
  cases he : lookupEntry b.orders id with
  | none => exact List.Sublist.refl _
  | some e =>
    dsimp only
    by_cases hs : e.side = Side.sell
    · rw [if_pos hs]
      show List.Sublist
        (idsOf (levelsOrders b.bids ++ levelsOrders (eraseFromLevels e.price id b.asks)))
        (idsOf (levelsOrders b.bids ++ levelsOrders b.asks))
      simp only [idsOf, List.map_append]
      exact List.Sublist.append (List.Sublist.refl _)
        (by simpa [idsOf] using eraseFromLevels_ids_sublist e.price id b.asks)
    · rw [if_neg hs]
      show List.Sublist
        (idsOf (levelsOrders (eraseFromLevels e.price id b.bids) ++ levelsOrders b.asks))
        (idsOf (levelsOrders b.bids ++ levelsOrders b.asks))
      simp only [idsOf, List.map_append]
      exact List.Sublist.append
        (by simpa [idsOf] using eraseFromLevels_ids_sublist e.price id b.bids)
        (List.Sublist.refl _)

theorem foldl_cancelOrder_sub {ids : List Nat} {b : Orderbook} {o : Order}
    (h : o ∈ bookOrders (ids.foldl cancelOrder b)) : o ∈ bookOrders b := by
  induction ids generalizing b with
  | nil => exact h
  | cons id rest ih => exact cancelOrder_sub (ih h)

/-! Insertion into a sorted side. -/

theorem insertIntoLevels_keys (before : Int → Int → Bool) (p : Int) (o : Order)
    (ls : Levels) :
    ∀ q ∈ (insertIntoLevels before p o ls).map Prod.fst, q = p ∨ q ∈ ls.map Prod.fst := by
  induction ls with
  | nil => simp [insertIntoLevels]
  | cons pl rest ih =>
    rcases pl with ⟨key, l⟩
    simp only [insertIntoLevels]
    by_cases hp : p = key
    · rw [if_pos hp]
      intro q hq
      simp only [List.map_cons, List.mem_cons] at hq ⊢
      tauto
    · rw [if_neg hp]
      by_cases hb : before p key
      · rw [if_pos hb]
        intro q hq
        simp only [List.map_cons, List.mem_cons] at hq ⊢
        tauto
      · rw [if_neg hb]
        intro q hq
        simp only [List.map_cons, List.mem_cons] at hq ⊢
        rcases hq with h1 | h1
        · tauto
        · rcases ih q h1 with h2 | h2 <;> tauto

theorem insertIntoLevels_sorted (R : Int → Int → Prop) (before : Int → Int → Bool)
    (hR : ∀ x y, before x y = true → R x y)
    (htotal : ∀ x y, x ≠ y → before x y = true ∨ before y x = true)
    (htrans : ∀ x y z, R x y → R y z → R x z)
    (p : Int) (o : Order) (ls : Levels)
    (hs : List.Pairwise (fun x y => R x.1 y.1) ls) :
    List.Pairwise (fun x y => R x.1 y.1) (insertIntoLevels before p o ls) := by
  induction ls with
  | nil => simp [insertIntoLevels]
  | cons pl rest ih =>
    rcases pl with ⟨key, l⟩
    rcases List.pairwise_cons.mp hs with ⟨hhead, htail⟩
    simp only [insertIntoLevels]
    by_cases hp : p = key
    · rw [if_pos hp]
      exact List.pairwise_cons.mpr ⟨hhead, htail⟩
    · rw [if_neg hp]
      by_cases hb : before p key
      · rw [if_pos hb]
        refine List.pairwise_cons.mpr ⟨?_, List.pairwise_cons.mpr ⟨hhead, htail⟩⟩
        intro q hq
        rcases List.mem_cons.mp hq with h1 | h1
        · rw [h1]
          exact hR _ _ hb
        · exact htrans _ _ _ (hR _ _ hb) (hhead q h1)
      · rw [if_neg hb]
        refine List.pairwise_cons.mpr ⟨?_, ih htail⟩
        intro q hq
        have hq2 := insertIntoLevels_keys before p o rest q.1
          (List.mem_map.mpr ⟨q, hq, rfl⟩)
        rcases hq2 with h1 | h1
        · rw [h1]
          rcases htotal p key hp with h2 | h2
          · exact absurd h2 hb
          · exact hR _ _ h2
        · rcases List.mem_map.mp h1 with ⟨q2, hq2m, hq2e⟩
          have := hhead q2 hq2m
          rw [← hq2e]
          exact this
      
theorem insertIntoLevels_orders_perm (before : Int → Int → Bool) (p : Int) (o : Order)
    (ls : Levels) :
    List.Perm (levelsOrders (insertIntoLevels before p o ls)) (o :: levelsOrders ls) := by
  induction ls with
  | nil => simp [insertIntoLevels, levelsOrders]
  | cons pl rest ih =>
    rcases pl with ⟨key, l⟩
    simp only [insertIntoLevels]
    by_cases hp : p = key
    · rw [if_pos hp]
      show List.Perm ((l ++ [o]) ++ levelsOrders rest) (o :: (l ++ levelsOrders rest))
      rw [List.append_assoc]
      exact List.perm_middle
    · rw [if_neg hp]
      by_cases hb : before p key
      · rw [if_pos hb]
        exact List.Perm.refl _
      · rw [if_neg hb]
        show List.Perm (l ++ levelsOrders (insertIntoLevels before p o rest))
          (o :: (l ++ levelsOrders rest))
        refine List.Perm.trans (List.Perm.append_left l ih) ?_
        exact List.perm_middle

/-! Well-formedness of a book: the invariants std::map and the id index
maintain in the source. -/

/-- Ids resting on one side. -/
def sideIds (ls : Levels) : List Nat :=
  idsOf (levelsOrders ls)

/-- Well-formed book: sides sorted by their comparators, no empty levels,
orders stored on their own side at their own price, globally unique order
ids, an index with unique keys that is sound and complete for the resting
orders. -/
structure WFBook (b : Orderbook) : Prop where
  bidsSorted : List.Pairwise (fun x y => y.1 < x.1) b.bids
  asksSorted : List.Pairwise (fun x y => x.1 < y.1) b.asks
  bidsNonempty : ∀ pl ∈ b.bids, pl.2 ≠ []
  asksNonempty : ∀ pl ∈ b.asks, pl.2 ≠ []
  bidsSide : ∀ pl ∈ b.bids, ∀ o ∈ pl.2, o.side = Side.buy ∧ o.price = pl.1
  asksSide : ∀ pl ∈ b.asks, ∀ o ∈ pl.2, o.side = Side.sell ∧ o.price = pl.1
  idsNodup : (idsOf (bookOrders b)).Nodup
  idxKeysNodup : (b.orders.map Prod.fst).Nodup
  idxSound : ∀ kv ∈ b.orders, ∃ o ∈ bookOrders b, o.orderId = kv.1 ∧ kv.2 = entryInfoOf o
  idxComplete : ∀ o ∈ bookOrders b, lookupEntry b.orders o.orderId = some (entryInfoOf o)

theorem mem_eraseFromLevel_of_ne {o : Order} {l : List Order} {id : Nat}
    (hm : o ∈ l) (hne : o.orderId ≠ id) : o ∈ eraseFromLevel id l := by
  induction l with
  | nil => exact absurd hm (by simp)
  | cons o0 rest ih =>
    simp only [eraseFromLevel]
    rcases List.mem_cons.mp hm with h1 | h1
    · subst h1
      rw [if_neg hne]
      exact List.mem_cons_self _ _
    · by_cases h0 : o0.orderId = id
      · rw [if_pos h0]
        exact h1
      · rw [if_neg h0]
        exact List.mem_cons_of_mem _ (ih h1)

theorem not_mem_ids_eraseFromLevel {l : List Order} {id : Nat}
    (hnd : (idsOf l).Nodup) : id ∉ idsOf (eraseFromLevel id l) := by
  induction l with
  | nil => simp [eraseFromLevel, idsOf]
  | cons o0 rest ih =>
    simp only [idsOf, List.map_cons, List.nodup_cons] at hnd
    simp only [eraseFromLevel]
    by_cases h0 : o0.orderId = id
    · rw [if_pos h0]
      intro hmem
      exact hnd.1 (by rw [h0]; exact (by simpa [idsOf] using hmem))
    · rw [if_neg h0]
      simp only [idsOf, List.map_cons, List.mem_cons]
      rintro (h1 | h1)
      · exact h0 h1.symm
      · exact ih hnd.2 (by simpa [idsOf] using h1)

theorem mem_eraseFromLevels {price : Int} {id : Nat} {ls : Levels} {pl : Int × List Order}
    (h : pl ∈ eraseFromLevels price id ls) :
    pl ∈ ls ∨ ∃ l0, (price, l0) ∈ ls ∧ pl = (price, eraseFromLevel id l0) := by
  induction ls with
  | nil => exact absurd h (by simp [eraseFromLevels])
  | cons pl0 rest ih =>
    rcases pl0 with ⟨p, l⟩
    simp only [eraseFromLevels] at h
    by_cases hp : p = price
    · rw [if_pos hp] at h
      split at h
      · exact Or.inl (List.mem_cons_of_mem _ h)
      · rcases List.mem_cons.mp h with h1 | h1
        · subst hp
          exact Or.inr ⟨l, List.mem_cons_self _ _, h1⟩
        · exact Or.inl (List.mem_cons_of_mem _ h1)
    · rw [if_neg hp] at h
      rcases List.mem_cons.mp h with h1 | h1
      · exact Or.inl (h1 ▸ List.mem_cons_self _ _)
      · rcases ih h1 with h2 | ⟨l0, h2, h3⟩
        · exact Or.inl (List.mem_cons_of_mem _ h2)
        · exact Or.inr ⟨l0, List.mem_cons_of_mem _ h2, h3⟩

theorem eraseFromLevels_nonempty {price : Int} {id : Nat} {ls : Levels}
    (hne : ∀ pl ∈ ls, pl.2 ≠ []) :
    ∀ pl ∈ eraseFromLevels price id ls, pl.2 ≠ [] := by
  induction ls with
  | nil => simp [eraseFromLevels]
  | cons pl0 rest ih =>
    rcases pl0 with ⟨p, l⟩
    intro pl hpl
    simp only [eraseFromLevels] at hpl
    by_cases hp : p = price
    · rw [if_pos hp] at hpl
      split at hpl
      · exact hne pl (List.mem_cons_of_mem _ hpl)
      · next hl =>
        rcases List.mem_cons.mp hpl with h1 | h1
        · rw [h1]
          exact hl
        · exact hne pl (List.mem_cons_of_mem _ h1)
    · rw [if_neg hp] at hpl
      rcases List.mem_cons.mp hpl with h1 | h1
      · rw [h1]
        exact hne (p, l) (List.mem_cons_self _ _)
      · exact ih (fun x hx => hne x (List.mem_cons_of_mem _ hx)) pl h1

theorem mem_levelsOrders {o : Order} {ls : Levels} :
    o ∈ levelsOrders ls ↔ ∃ pl ∈ ls, o ∈ pl.2 := by
  induction ls with
  | nil => simp [levelsOrders]
  | cons pl0 rest ih =>
    rcases pl0 with ⟨p, l⟩
    simp only [levelsOrders, List.mem_append, List.mem_cons, ih]
    constructor
    · rintro (h | ⟨pl, h1, h2⟩)
      · exact ⟨(p, l), Or.inl rfl, h⟩
      · exact ⟨pl, Or.inr h1, h2⟩
    · rintro ⟨pl, h1 | h1, h2⟩
      · exact Or.inl (by rw [h1] at h2; exact h2)
      · exact Or.inr ⟨pl, h1, h2⟩

theorem mem_eraseFromLevels_of_ne {o : Order} {ls : Levels} {price : Int} {id : Nat}
    (hm : o ∈ levelsOrders ls) (hne : o.orderId ≠ id) :
    o ∈ levelsOrders (eraseFromLevels price id ls) := by
  induction ls with
  | nil => exact absurd hm (by simp [levelsOrders])
  | cons pl0 rest ih =>
    rcases pl0 with ⟨p, l⟩
    replace hm : o ∈ l ++ levelsOrders rest := hm
    simp only [eraseFromLevels]
    by_cases hp : p = price
    · rw [if_pos hp]
      rcases List.mem_append.mp hm with h1 | h1
      · have h2 := mem_eraseFromLevel_of_ne h1 hne
        split
        · next hl =>
          rw [hl] at h2
          exact absurd h2 (by simp)
        · exact List.mem_append_left _ h2
      · split
        · exact h1
        · exact List.mem_append_right _ h1
    · rw [if_neg hp]
      rcases List.mem_append.mp hm with h1 | h1
      · exact List.mem_append_left _ h1
      · exact List.mem_append_right _ (ih h1)

theorem keys_nodup_of_sorted {ls : Levels} {R : Int → Int → Prop}
    (hirr : ∀ x, ¬R x x)
    (hs : List.Pairwise (fun x y => R x.1 y.1) ls) : (ls.map Prod.fst).Nodup := by
  have h2 : List.Pairwise (fun x y : Int × List Order => x.1 ≠ y.1) ls := by
    refine hs.imp ?_
    intro a b h heq
    rw [heq] at h
    exact hirr _ h
  exact List.pairwise_map.mpr h2

theorem not_mem_sideIds_eraseFromLevels {ls : Levels} {price : Int} {id : Nat}
    (hnd : (sideIds ls).Nodup)
    (hkeys : (ls.map Prod.fst).Nodup)
    (htarget : ∃ l0, (price, l0) ∈ ls ∧ id ∈ idsOf l0) :
    id ∉ sideIds (eraseFromLevels price id ls) := by
  induction ls with
  | nil => simp at htarget
  | cons pl0 rest ih =>
    rcases pl0 with ⟨p, l⟩
    rcases htarget with ⟨l0, hl0, hid0⟩
    simp only [sideIds, idsOf, levelsOrders, List.map_append, List.nodup_append] at hnd
    simp only [List.map_cons, List.nodup_cons] at hkeys
    simp only [eraseFromLevels]
    by_cases hp : p = price
    · rw [if_pos hp]
      have hl0l : l0 = l := by
        rcases List.mem_cons.mp hl0 with h1 | h1
        · exact (Prod.ext_iff.mp h1).2
        · exfalso
          apply hkeys.1
          rw [← hp] at h1
          exact List.mem_map.mpr ⟨(p, l0), h1, rfl⟩
      subst hl0l
      have hnotrest : id ∉ sideIds rest := by
        intro hmem
        exact hnd.2.2 (by simpa [idsOf] using hid0) (by simpa [sideIds, idsOf] using hmem)
      split
      · exact hnotrest
      · show id ∉ sideIds ((price, eraseFromLevel id l0) :: rest)
        simp only [sideIds, idsOf, levelsOrders, List.map_append, List.mem_append]
        rintro (h1 | h1)
        · exact not_mem_ids_eraseFromLevel (by simpa [idsOf] using hnd.1)
            (by simpa [idsOf] using h1)
        · exact hnotrest (by simpa [sideIds, idsOf] using h1)
    · rw [if_neg hp]
      have hl0r : (price, l0) ∈ rest := by
        rcases List.mem_cons.mp hl0 with h1 | h1
        · exact absurd (Prod.ext_iff.mp h1).1.symm hp
        · exact h1
      have hidrest : id ∈ sideIds rest := by
        simp only [sideIds, idsOf]
        rcases List.mem_map.mp hid0 with ⟨o, ho, hoe⟩
        exact List.mem_map.mpr ⟨o, mem_levelsOrders.mpr ⟨(price, l0), hl0r, ho⟩, hoe⟩
      have hnotl : id ∉ idsOf l := by
        intro hmem
        exact hnd.2.2 (by simpa [idsOf] using hmem) (by simpa [sideIds, idsOf] using hidrest)
      show id ∉ sideIds ((p, l) :: eraseFromLevels price id rest)
      simp only [sideIds, idsOf, levelsOrders, List.map_append, List.mem_append]
      rintro (h1 | h1)
      · exact hnotl (by simpa [idsOf] using h1)
      · refine ih ?_ hkeys.2 ⟨l0, hl0r, hid0⟩ (by simpa [sideIds, idsOf] using h1)
        simp only [sideIds, idsOf, levelsOrders]
        exact hnd.2.1

theorem lookupEntry_mem {idx : List (Nat × EntryInfo)} {id : Nat} {e : EntryInfo}
    (h : lookupEntry idx id = some e) : (id, e) ∈ idx := by
  induction idx with
  | nil => exact absurd h (by simp [lookupEntry])
  | cons kv rest ih =>
    simp only [lookupEntry] at h
    by_cases hk : kv.1 = id
    · rw [if_pos hk] at h
      have h2 : kv.2 = e := Option.some_inj.mp h
      exact List.mem_cons.mpr (Or.inl (by rw [← hk, ← h2]))
    · rw [if_neg hk] at h
      exact List.mem_cons_of_mem _ (ih h)

theorem mem_eraseEntry_ne {idx : List (Nat × EntryInfo)} {id : Nat} {kv : Nat × EntryInfo}
    (hnd : (idx.map Prod.fst).Nodup) (h : kv ∈ eraseEntry idx id) : kv.1 ≠ id := by
  induction idx with
  | nil => exact absurd h (by simp [eraseEntry])
  | cons kv0 rest ih =>
    simp only [List.map_cons, List.nodup_cons] at hnd
    simp only [eraseEntry] at h
    by_cases hk : kv0.1 = id
    · rw [if_pos hk] at h
      intro he
      apply hnd.1
      rw [hk, ← he]
      exact List.mem_map.mpr ⟨kv, h, rfl⟩
    · rw [if_neg hk] at h
      rcases List.mem_cons.mp h with h1 | h1
      · rw [h1]
        exact hk
      · exact ih hnd.2 h1

theorem eraseFromLevels_sorted {R : Int → Int → Prop} (price : Int) (id : Nat)
    {ls : Levels} (hs : List.Pairwise (fun x y => R x.1 y.1) ls) :
    List.Pairwise (fun x y => R x.1 y.1) (eraseFromLevels price id ls) := by
  have h1 : List.Pairwise R (ls.map Prod.fst) := List.pairwise_map.mpr hs
  have h2 := List.Pairwise.sublist (eraseFromLevels_keys_sublist price id ls) h1
  exact List.pairwise_map.mp h2

theorem cancelOrder_removes_id {b : Orderbook} {id : Nat} (hwf : WFBook b) :
    ∀ o ∈ bookOrders (cancelOrder b id), o.orderId ≠ id := by
  unfold cancelOrder
  cases he : lookupEntry b.orders id with
  | none =>
    intro o hm heq
    have := hwf.idxComplete o hm
    rw [heq, he] at this
    exact absurd this (by simp)
  | some e =>
    have hkv : (id, e) ∈ b.orders := lookupEntry_mem he
    rcases hwf.idxSound (id, e) hkv with ⟨o0, ho0, hid0, hinfo0⟩
    dsimp only at hid0 hinfo0
    dsimp only
    have hnd := hwf.idsNodup
    simp only [bookOrders, idsOf, List.map_append, List.nodup_append] at hnd
    by_cases hs : e.side = Side.sell
    · rw [if_pos hs]
      have hside0 : o0.side = Side.sell := by
        have h1 : e.side = o0.side := by rw [hinfo0]; rfl
        rw [← h1, hs]
      have ho0a : o0 ∈ levelsOrders b.asks := by
        rcases List.mem_append.mp ho0 with h1 | h1
        · exfalso
          rcases mem_levelsOrders.mp h1 with ⟨pl, hpl, hop⟩
          have h2 := (hwf.bidsSide pl hpl o0 hop).1
          rw [h2] at hside0
          exact Side.noConfusion hside0
        · exact h1
      rcases mem_levelsOrders.mp ho0a with ⟨pl, hpl, hop⟩
      have hprice : e.price = pl.1 := by
        have h1 : e.price = o0.price := by rw [hinfo0]; rfl
        rw [h1]
        exact (hwf.asksSide pl hpl o0 hop).2
      have hno : id ∉ sideIds (eraseFromLevels e.price id b.asks) := by
        apply not_mem_sideIds_eraseFromLevels
        · simpa [sideIds, idsOf] using hnd.2.1
        · exact keys_nodup_of_sorted (fun x => lt_irrefl x) hwf.asksSorted
        · refine ⟨pl.2, ?_, ?_⟩
          · rw [hprice]
            exact hpl
          · rw [← hid0]
            exact List.mem_map.mpr ⟨o0, hop, rfl⟩
      intro o hm heq
      dsimp only [bookOrders] at hm
      rcases List.mem_append.mp hm with h1 | h1
      · have hmb : id ∈ List.map (fun o => o.orderId) (levelsOrders b.bids) := by
          rw [← heq]
          exact List.mem_map.mpr ⟨o, h1, rfl⟩
        have hma : id ∈ List.map (fun o => o.orderId) (levelsOrders b.asks) := by
          rw [← hid0]
          exact List.mem_map.mpr ⟨o0, ho0a, rfl⟩
        exact hnd.2.2 hmb hma
      · apply hno
        have h2 : o.orderId ∈ sideIds (eraseFromLevels e.price id b.asks) :=
          List.mem_map.mpr ⟨o, h1, rfl⟩
        rw [heq] at h2
        exact h2
    · rw [if_neg hs]
      have hside0 : o0.side = Side.buy := by
        have h1 : e.side = o0.side := by rw [hinfo0]; rfl
        cases h2 : o0.side with
        | buy => rfl
        | sell => exact absurd (by rw [h1, h2]) hs
      have ho0b : o0 ∈ levelsOrders b.bids := by
        rcases List.mem_append.mp ho0 with h1 | h1
        · exact h1
        · exfalso
          rcases mem_levelsOrders.mp h1 with ⟨pl, hpl, hop⟩
          have h2 := (hwf.asksSide pl hpl o0 hop).1
          rw [h2] at hside0
          exact Side.noConfusion hside0
      rcases mem_levelsOrders.mp ho0b with ⟨pl, hpl, hop⟩
      have hprice : e.price = pl.1 := by
        have h1 : e.price = o0.price := by rw [hinfo0]; rfl
        rw [h1]
        exact (hwf.bidsSide pl hpl o0 hop).2
      have hno : id ∉ sideIds (eraseFromLevels e.price id b.bids) := by
        apply not_mem_sideIds_eraseFromLevels
        · simpa [sideIds, idsOf] using hnd.1
        · exact @keys_nodup_of_sorted b.bids (fun a c => c < a)
            (fun x => lt_irrefl x) hwf.bidsSorted
        · refine ⟨pl.2, ?_, ?_⟩
          · rw [hprice]
            exact hpl
          · rw [← hid0]
            exact List.mem_map.mpr ⟨o0, hop, rfl⟩
      intro o hm heq
      dsimp only [bookOrders] at hm
      rcases List.mem_append.mp hm with h1 | h1
      · apply hno
        have h2 : o.orderId ∈ sideIds (eraseFromLevels e.price id b.bids) :=
          List.mem_map.mpr ⟨o, h1, rfl⟩
        rw [heq] at h2
        exact h2
      · have hmb : id ∈ List.map (fun o => o.orderId) (levelsOrders b.bids) := by
          rw [← hid0]
          exact List.mem_map.mpr ⟨o0, ho0b, rfl⟩
        have hma : id ∈ List.map (fun o => o.orderId) (levelsOrders b.asks) := by
          rw [← heq]
          exact List.mem_map.mpr ⟨o, h1, rfl⟩
        exact hnd.2.2 hmb hma

theorem mem_cancelOrder_of_ne {b : Orderbook} {id : Nat} {o : Order}
    (hm : o ∈ bookOrders b) (hne : o.orderId ≠ id) :
    o ∈ bookOrders (cancelOrder b id) := by
  unfold cancelOrder
  cases he : lookupEntry b.orders id with
  | none => exact hm
  | some e =>
    dsimp only
    by_cases hs : e.side = Side.sell
    · rw [if_pos hs]
      dsimp only [bookOrders]
      rcases List.mem_append.mp hm with h1 | h1
      · exact List.mem_append_left _ h1
      · exact List.mem_append_right _ (mem_eraseFromLevels_of_ne h1 hne)
    · rw [if_neg hs]
      dsimp only [bookOrders]
      rcases List.mem_append.mp hm with h1 | h1
      · exact List.mem_append_left _ (mem_eraseFromLevels_of_ne h1 hne)
      · exact List.mem_append_right _ h1

theorem cancelOrder_eq_sell {b : Orderbook} {id : Nat} {e : EntryInfo}
    (he : lookupEntry b.orders id = some e) (hs : e.side = Side.sell) :
    cancelOrder b id =
      { b with orders := eraseEntry b.orders id,
               asks := eraseFromLevels e.price id b.asks } := by
  unfold cancelOrder
  rw [he]
  dsimp only
  rw [if_pos hs]

theorem cancelOrder_eq_buy {b : Orderbook} {id : Nat} {e : EntryInfo}
    (he : lookupEntry b.orders id = some e) (hs : ¬e.side = Side.sell) :
    cancelOrder b id =
      { b with orders := eraseEntry b.orders id,
               bids := eraseFromLevels e.price id b.bids } := by
  unfold cancelOrder
  rw [he]
  dsimp only
  rw [if_neg hs]

theorem cancelOrder_wf {b : Orderbook} (hwf : WFBook b) (id : Nat) :
    WFBook (cancelOrder b id) := by
  cases he : lookupEntry b.orders id with
  | none =>
    have heq : cancelOrder b id = b := by
      unfold cancelOrder
      rw [he]
    rw [heq]
    exact hwf
  | some e =>
    have hids : (idsOf (bookOrders (cancelOrder b id))).Nodup :=
      List.Nodup.sublist (cancelOrder_ids_sublist b id) hwf.idsNodup
    have hsound : ∀ kv ∈ eraseEntry b.orders id,
        ∃ o ∈ bookOrders (cancelOrder b id), o.orderId = kv.1 ∧ kv.2 = entryInfoOf o := by
      intro kv hkv
      rcases hwf.idxSound kv (eraseEntry_sub hkv) with ⟨o, ho, hi, hinfo⟩
      have hne : kv.1 ≠ id := mem_eraseEntry_ne hwf.idxKeysNodup hkv
      exact ⟨o, mem_cancelOrder_of_ne ho (by rw [hi]; exact hne), hi, hinfo⟩
    have hcomplete : ∀ o ∈ bookOrders (cancelOrder b id),
        lookupEntry (eraseEntry b.orders id) o.orderId = some (entryInfoOf o) := by
      intro o ho
      rw [lookupEntry_eraseEntry_ne b.orders id o.orderId
        (cancelOrder_removes_id hwf o ho)]
      exact hwf.idxComplete o (cancelOrder_sub ho)
    have hkeys : ((eraseEntry b.orders id).map Prod.fst).Nodup :=
      List.Nodup.sublist (eraseEntry_keys_sublist b.orders id) hwf.idxKeysNodup
    by_cases hs : e.side = Side.sell
    · have heq := cancelOrder_eq_sell he hs
      rw [heq] at hids hsound hcomplete ⊢
      refine ⟨hwf.bidsSorted, eraseFromLevels_sorted e.price id hwf.asksSorted,
        hwf.bidsNonempty, eraseFromLevels_nonempty hwf.asksNonempty,
        hwf.bidsSide, ?_, hids, hkeys, hsound, hcomplete⟩
      intro pl hpl o ho
      rcases mem_eraseFromLevels hpl with h1 | ⟨l0, h2, h3⟩
      · exact hwf.asksSide pl h1 o ho
      · have ho0 : o ∈ l0 := by
          rw [h3] at ho
          exact eraseFromLevel_sub ho
        have h4 := hwf.asksSide (e.price, l0) h2 o ho0
        refine ⟨h4.1, ?_⟩
        rw [h3]
        exact h4.2
    · have heq := cancelOrder_eq_buy he hs
      rw [heq] at hids hsound hcomplete ⊢
      refine ⟨@eraseFromLevels_sorted (fun a c => c < a) e.price id b.bids hwf.bidsSorted,
        hwf.asksSorted,
        eraseFromLevels_nonempty hwf.bidsNonempty, hwf.asksNonempty,
        ?_, hwf.asksSide, hids, hkeys, hsound, hcomplete⟩
      intro pl hpl o ho
      rcases mem_eraseFromLevels hpl with h1 | ⟨l0, h2, h3⟩
      · exact hwf.bidsSide pl h1 o ho
      · have ho0 : o ∈ l0 := by
          rw [h3] at ho
          exact eraseFromLevel_sub ho
        have h4 := hwf.bidsSide (e.price, l0) h2 o ho0
        refine ⟨h4.1, ?_⟩
        rw [h3]
        exact h4.2

/-- reducedSuffix composes: consuming further from an already consumed
queue is a consumption of the original queue. -/
theorem reducedSuffix_trans {l1 l2 l3 : List Order}
    (h12 : reducedSuffix l1 l2) (h23 : reducedSuffix l2 l3) :
    reducedSuffix l1 l3 := by
  rcases h12 with ⟨k, hk | ⟨o, rest, r, hdrop, hr, hcur⟩⟩
  · rcases h23 with ⟨k2, hk2 | ⟨o2, rest2, r2, hdrop2, hr2, hcur2⟩⟩
    · refine ⟨k + k2, Or.inl ?_⟩
      rw [hk2, hk, List.drop_drop]
    · refine ⟨k + k2, Or.inr ⟨o2, rest2, r2, ?_, hr2, hcur2⟩⟩
      rw [← List.drop_drop, ← hk]
      exact hdrop2
  · have h1 : l1.drop (k + 1) = rest := by
      rw [← List.drop_drop, hdrop]
      rfl
    rcases h23 with ⟨k2, hk2 | ⟨o2, rest2, r2, hdrop2, hr2, hcur2⟩⟩
    · cases k2 with
      | zero =>
        rw [List.drop_zero] at hk2
        exact ⟨k, Or.inr ⟨o, rest, r, hdrop, hr, by rw [hk2, hcur]⟩⟩
      | succ k2 =>
        have h2 : l3 = rest.drop k2 := by
          rw [hk2, hcur]
          rfl
        refine ⟨k + 1 + k2, Or.inl ?_⟩
        rw [h2, ← h1, List.drop_drop]
    · cases k2 with
      | zero =>
        rw [List.drop_zero, hcur] at hdrop2
        have ho2 : o2 = { o with remainingQuantity := r } :=
          ((List.cons.injEq _ _ _ _).mp hdrop2).1.symm
        have hrest2 : rest2 = rest := ((List.cons.injEq _ _ _ _).mp hdrop2).2.symm
        refine ⟨k, Or.inr ⟨o, rest, r2, hdrop, ?_, ?_⟩⟩
        · have : o2.remainingQuantity = r := by rw [ho2]
          omega
        · rw [hcur2, ho2, hrest2]
      | succ k2 =>
        have h2 : rest.drop k2 = o2 :: rest2 := by
          rw [← hdrop2, hcur]
          rfl
        have h3 : l1.drop (k + 1 + k2) = o2 :: rest2 := by
          rw [← h2, ← h1, List.drop_drop]
        exact ⟨k + 1 + k2, Or.inr ⟨o2, rest2, r2, h3, hr2, hcur2⟩⟩

/-- Every order in the consumed queue is an order of the original queue
with the same identity fields and a no-larger remaining quantity. -/
theorem reducedSuffix_mem {orig cur : List Order} (h : reducedSuffix orig cur) :
    ∀ o' ∈ cur, ∃ o ∈ orig,
      o' = { o with remainingQuantity := o'.remainingQuantity } ∧
      o'.remainingQuantity ≤ o.remainingQuantity := by
  rcases h with ⟨k, hk | ⟨o, rest, r, hdrop, hr, hcur⟩⟩
  · intro o' ho'
    rw [hk] at ho'
    exact ⟨o', (List.drop_sublist k orig).mem ho', rfl, le_refl _⟩
  · intro o' ho'
    rw [hcur] at ho'
    have hsub : List.Sublist (o :: rest) orig := by
      rw [← hdrop]
      exact List.drop_sublist k orig
    rcases List.mem_cons.mp ho' with h1 | h1
    · refine ⟨o, hsub.mem (List.mem_cons_self _ _), ?_, ?_⟩
      · rw [h1]
      · have : o'.remainingQuantity = r := by rw [h1]
        omega
    · exact ⟨o', hsub.mem (List.mem_cons_of_mem _ h1), rfl, le_refl _⟩

/-- The ids of the consumed queue are a tail of the ids of the original
queue. -/
theorem reducedSuffix_ids {orig cur : List Order} (h : reducedSuffix orig cur) :
    ∃ k, idsOf cur = (idsOf orig).drop k := by
  rcases h with ⟨k, hk | ⟨o, rest, r, hdrop, hr, hcur⟩⟩
  · refine ⟨k, ?_⟩
    rw [hk]
    simp [idsOf, List.map_drop]
  · refine ⟨k, ?_⟩
    rw [hcur]
    have h1 : (idsOf orig).drop k = idsOf (orig.drop k) := by
      simp [idsOf, List.map_drop]
    rw [h1, hdrop]
    simp [idsOf]

theorem reducedSuffix_ids_sublist {orig cur : List Order} (h : reducedSuffix orig cur) :
    List.Sublist (idsOf cur) (idsOf orig) := by
  rcases reducedSuffix_ids h with ⟨k, hk⟩
  rw [hk]
  exact List.drop_sublist k (idsOf orig)

/-- Evolution of one side of the book across the outer crossing loop: some
number of whole levels are consumed from the front, and the level that
ends up at the front may have had its queue partially consumed. -/
def levelEvol (ls ls' : Levels) : Prop :=
  ∃ n, ls' = ls.drop n ∨
    ∃ p q q' rest, ls.drop n = (p, q) :: rest ∧ reducedSuffix q q' ∧
      ls' = (p, q') :: rest

theorem levelEvol_refl (ls : Levels) : levelEvol ls ls :=
  ⟨0, Or.inl rfl⟩

theorem levelEvol_drop1 {rest X : Levels} (h : levelEvol rest X) (pl : Level) :
    levelEvol (pl :: rest) X := by
  rcases h with ⟨n, hn | ⟨p, q, q', r, hdrop, hrs, hX⟩⟩
  · exact ⟨n + 1, Or.inl (by simpa using hn)⟩
  · exact ⟨n + 1, Or.inr ⟨p, q, q', r, by simpa using hdrop, hrs, hX⟩⟩

theorem levelEvol_head {p : Int} {q q' : List Order} {rest X : Levels}
    (hrs : reducedSuffix q q') (h : levelEvol ((p, q') :: rest) X) :
    levelEvol ((p, q) :: rest) X := by
  rcases h with ⟨n, hn | ⟨p2, q2, q2', r2, hdrop, hrs2, hX⟩⟩
  · cases n with
    | zero =>
      rw [List.drop_zero] at hn
      exact ⟨0, Or.inr ⟨p, q, q', rest, rfl, hrs, hn⟩⟩
    | succ n =>
      exact ⟨n + 1, Or.inl (by simpa using hn)⟩
  · cases n with
    | zero =>
      rw [List.drop_zero] at hdrop
      obtain ⟨hpq, hr2⟩ := (List.cons.injEq _ _ _ _).mp hdrop
      obtain ⟨hp2, hq2⟩ := (Prod.mk.injEq _ _ _ _).mp hpq
      refine ⟨0, Or.inr ⟨p, q, q2', rest, rfl, ?_, ?_⟩⟩
      · refine reducedSuffix_trans hrs ?_
        rw [hq2]
        exact hrs2
      · rw [hX, ← hp2, ← hr2]
    | succ n =>
      exact ⟨n + 1, Or.inr ⟨p2, q2, q2', r2, by simpa using hdrop, hrs2, hX⟩⟩

/-- Every level of the evolved side is either an original level or the
original level at the same price with a partially consumed queue. -/
theorem levelEvol_mem {ls ls' : Levels} (h : levelEvol ls ls') :
    ∀ pl' ∈ ls', pl' ∈ ls ∨ ∃ q, (pl'.1, q) ∈ ls ∧ reducedSuffix q pl'.2 := by
  rcases h with ⟨n, hn | ⟨p, q, q', rest, hdrop, hrs, hX⟩⟩
  · intro pl' hm
    rw [hn] at hm
    exact Or.inl ((List.drop_sublist n ls).mem hm)
  · intro pl' hm
    have hsub : List.Sublist ((p, q) :: rest) ls := by
      rw [← hdrop]
      exact List.drop_sublist n ls
    rw [hX] at hm
    rcases List.mem_cons.mp hm with h1 | h1
    · right
      refine ⟨q, ?_, ?_⟩
      · have : pl'.1 = p := by rw [h1]
        rw [this]
        exact hsub.mem (List.mem_cons_self _ _)
      · have : pl'.2 = q' := by rw [h1]
        rw [this]
        exact hrs
    · exact Or.inl (hsub.mem (List.mem_cons_of_mem _ h1))

theorem levelEvol_keys_sublist {ls ls' : Levels} (h : levelEvol ls ls') :
    List.Sublist (ls'.map Prod.fst) (ls.map Prod.fst) := by
  rcases h with ⟨n, hn | ⟨p, q, q', rest, hdrop, hrs, hX⟩⟩
  · rw [hn]
    exact (List.drop_sublist n ls).map Prod.fst
  · have h1 : ls'.map Prod.fst = ((p, q) :: rest).map Prod.fst := by
      rw [hX]
      simp
    rw [h1, ← hdrop]
    exact (List.drop_sublist n ls).map Prod.fst

theorem levelsOrders_drop_suffix (n : Nat) (ls : Levels) :
    List.IsSuffix (levelsOrders (ls.drop n)) (levelsOrders ls) := by
  induction n generalizing ls with
  | zero => exact List.suffix_refl _
  | succ n ih =>
    match ls with
    | [] => exact List.suffix_refl _
    | (p, l) :: rest =>
      have h1 : ((p, l) :: rest).drop (n + 1) = rest.drop n := rfl
      rw [h1]
      refine (ih rest).trans ?_
      show List.IsSuffix (levelsOrders rest) (l ++ levelsOrders rest)
      exact List.suffix_append _ _

theorem levelEvol_ids_sublist {ls ls' : Levels} (h : levelEvol ls ls') :
    List.Sublist (sideIds ls') (sideIds ls) := by
  rcases h with ⟨n, hn | ⟨p, q, q', rest, hdrop, hrs, hX⟩⟩
  · rw [hn]
    exact ((levelsOrders_drop_suffix n ls).map _).sublist
  · have h1 : List.Sublist (sideIds ls') (sideIds (ls.drop n)) := by
      rw [hX, hdrop]
      show List.Sublist (idsOf (q' ++ levelsOrders rest)) (idsOf (q ++ levelsOrders rest))
      simp only [idsOf, List.map_append]
      exact (reducedSuffix_ids_sublist hrs).append (List.Sublist.refl _)
    exact h1.trans ((levelsOrders_drop_suffix n ls).map _).sublist

/-- A bare book carrying just the matching state (sides and index); the
remaining fields do not participate in matching. -/
def mkBook (bids asks : Levels) (idx : List (Nat × EntryInfo)) : Orderbook :=
  { bids := bids, asks := asks, orders := idx, lastDayReset := 0 }

theorem wf_mkBook_of_wf {b : Orderbook} (h : WFBook b) :
    WFBook (mkBook b.bids b.asks b.orders) :=
  ⟨h.bidsSorted, h.asksSorted, h.bidsNonempty, h.asksNonempty, h.bidsSide,
    h.asksSide, h.idsNodup, h.idxKeysNodup, h.idxSound, h.idxComplete⟩

theorem wf_of_wf_mkBook {b : Orderbook} (h : WFBook (mkBook b.bids b.asks b.orders)) :
    WFBook b :=
  ⟨h.bidsSorted, h.asksSorted, h.bidsNonempty, h.asksNonempty, h.bidsSide,
    h.asksSide, h.idsNodup, h.idxKeysNodup, h.idxSound, h.idxComplete⟩

/-- Surviving index entries have keys outside the erased id list (keys
unique). -/
theorem mem_foldl_erase_not_mem {ids : List Nat} {idx : List (Nat × EntryInfo)}
    {kv : Nat × EntryInfo} (hnd : (idx.map Prod.fst).Nodup)
    (h : kv ∈ ids.foldl eraseEntry idx) : kv.1 ∉ ids := by
  induction ids generalizing idx with
  | nil => simp
  | cons id rest ih =>
    have h1 : kv ∈ rest.foldl eraseEntry (eraseEntry idx id) := h
    have hnd2 : ((eraseEntry idx id).map Prod.fst).Nodup :=
      List.Nodup.sublist (eraseEntry_keys_sublist idx id) hnd
    have h2 := ih hnd2 h1
    have h3 : kv.1 ≠ id := mem_eraseEntry_ne hnd (foldl_erase_sub h1)
    simp only [List.mem_cons]
    rintro (h4 | h4)
    · exact h3 h4
    · exact h2 h4

/-- A key present in the index has a binding. -/
theorem lookup_isSome_of_mem_keys {idx : List (Nat × EntryInfo)} {id : Nat}
    (h : id ∈ idx.map Prod.fst) : (lookupEntry idx id).isSome = true := by
  induction idx with
  | nil => exact absurd h (by simp)
  | cons kv rest ih =>
    simp only [lookupEntry]
    by_cases hk : kv.1 = id
    · rw [if_pos hk]
      rfl
    · rw [if_neg hk]
      rcases List.mem_cons.mp h with h1 | h1
      · exact absurd h1.symm hk
      · exact ih h1

theorem not_mem_keys_of_lookup_none {idx : List (Nat × EntryInfo)} {id : Nat}
    (h : lookupEntry idx id = none) : id ∉ idx.map Prod.fst := by
  intro hmem
  have := lookup_isSome_of_mem_keys hmem
  rw [h] at this
  exact absurd this (by simp)

/-- In a book with globally unique order ids, two resting orders with the
same id are the same order. -/
theorem bookOrders_id_inj {b : Orderbook} (hwf : WFBook b) {o1 o2 : Order}
    (h1 : o1 ∈ bookOrders b) (h2 : o2 ∈ bookOrders b)
    (hid : o1.orderId = o2.orderId) : o1 = o2 :=
  List.inj_on_of_nodup_map hwf.idsNodup h1 h2 hid

/-- findOrderInBook misses exactly the ids absent from the book. -/
theorem findOrderInBook_eq_none_iff {b : Orderbook} {id : Nat} :
    findOrderInBook b id = none ↔ id ∉ idsOf (bookOrders b) := by
  unfold findOrderInBook
  rw [List.find?_eq_none]
  constructor
  · intro h hmem
    rcases List.mem_map.mp hmem with ⟨o, ho, hoe⟩
    exact absurd (by simpa using hoe) (by simpa using h o ho)
  · intro h o ho
    simp only [beq_iff_eq]
    intro he
    exact h (List.mem_map.mpr ⟨o, ho, he⟩)

/-- find? by id on a duplicate-free order list returns the member with
that id. -/
theorem find_id_nodup {l : List Order} (hnd : (idsOf l).Nodup) {o : Order}
    (ho : o ∈ l) : l.find? (fun x => x.orderId == o.orderId) = some o := by
  induction l with
  | nil => cases ho
  | cons a rest ih =>
    simp only [idsOf, List.map_cons, List.nodup_cons] at hnd
    cases hpa : (a.orderId == o.orderId) with
    | true =>
      simp only [List.find?, hpa]
      rcases List.mem_cons.mp ho with h1 | h1
      · rw [h1]
      · exfalso
        apply hnd.1
        have : a.orderId = o.orderId := by simpa using hpa
        rw [this]
        exact List.mem_map.mpr ⟨o, h1, rfl⟩
    | false =>
      simp only [List.find?, hpa]
      rcases List.mem_cons.mp ho with h1 | h1
      · exfalso
        rw [h1] at hpa
        simp at hpa
      · exact ih hnd.2 h1

/-- findOrderInBook returns the unique resting order with the given id. -/
theorem findOrderInBook_eq_some {b : Orderbook} (hwf : WFBook b) {o : Order}
    (ho : o ∈ bookOrders b) : findOrderInBook b o.orderId = some o :=
  find_id_nodup hwf.idsNodup ho

theorem idsOf_append (l1 l2 : List Order) :
    idsOf (l1 ++ l2) = idsOf l1 ++ idsOf l2 := by
  simp [idsOf]

theorem step_side_sorted (R : Int → Int → Prop) (p : Int) (q q' : List Order)
    (rest : Levels)
    (hs : List.Pairwise (fun x y => R x.1 y.1) ((p, q) :: rest)) :
    List.Pairwise (fun x y => R x.1 y.1) (if q' = [] then rest else (p, q') :: rest) := by
  rcases List.pairwise_cons.mp hs with ⟨hhead, htail⟩
  split
  · exact htail
  · exact List.pairwise_cons.mpr ⟨hhead, htail⟩

theorem step_side_nonempty {q' : List Order} {p : Int} {rest : Levels}
    (hne : ∀ pl ∈ rest, pl.2 ≠ []) :
    ∀ pl ∈ (if q' = [] then rest else (p, q') :: rest), pl.2 ≠ [] := by
  split
  · exact hne
  · next hq' =>
    intro pl hpl
    rcases List.mem_cons.mp hpl with h1 | h1
    · rw [h1]
      exact hq'
    · exact hne pl h1

theorem step_side_side {s : Side} {p : Int} {q q' : List Order} {rest : Levels}
    (hrs : reducedSuffix q q')
    (hq : ∀ o ∈ q, o.side = s ∧ o.price = p)
    (hrest : ∀ pl ∈ rest, ∀ o ∈ pl.2, o.side = s ∧ o.price = pl.1) :
    ∀ pl ∈ (if q' = [] then rest else (p, q') :: rest),
      ∀ o ∈ pl.2, o.side = s ∧ o.price = pl.1 := by
  split
  · exact hrest
  · intro pl hpl o ho
    rcases List.mem_cons.mp hpl with h1 | h1
    · have ho2 : o ∈ q' := by
        rw [h1] at ho
        exact ho
      rcases reducedSuffix_mem hrs o ho2 with ⟨o0, ho0, heq, _⟩
      have h2 := hq o0 ho0
      constructor
      · rw [heq]
        exact h2.1
      · rw [heq, h1]
        exact h2.2
    · exact hrest pl h1 o ho

theorem step_side_ids {q' : List Order} {p : Int} {rest : Levels} {qids : List Nat}
    (hsub : List.Sublist (idsOf q') qids) :
    List.Sublist (idsOf (levelsOrders (if q' = [] then rest else (p, q') :: rest)))
      (qids ++ idsOf (levelsOrders rest)) := by
  split
  · exact List.sublist_append_right _ _
  · show List.Sublist (idsOf (q' ++ levelsOrders rest)) _
    rw [idsOf_append]
    exact hsub.append (List.Sublist.refl _)

/-- A queue member whose id survives into the consumed queue has a
representative there with the same identity and entry info. -/
theorem mem_reduced_of_id {q q' : List Order} (hrs : reducedSuffix q q')
    (hqnd : (idsOf q).Nodup) {o : Order} (ho : o ∈ q) (hid : o.orderId ∈ idsOf q') :
    ∃ o', o' ∈ q' ∧ o'.orderId = o.orderId ∧ entryInfoOf o' = entryInfoOf o := by
  rcases List.mem_map.mp hid with ⟨o', ho', hoe⟩
  rcases reducedSuffix_mem hrs o' ho' with ⟨o0, ho0, heq, _⟩
  have ho0id : o0.orderId = o.orderId := by
    rw [← hoe, heq]
  have ho0eq : o0 = o := List.inj_on_of_nodup_map hqnd ho0 ho ho0id
  refine ⟨o', ho', hoe, ?_⟩
  rw [heq, ho0eq]
  rfl

/-- One iteration of the outer crossing loop preserves well-formedness:
consuming the two front queues to lb'/la' with popped ids erased from the
index keeps the book well-formed. -/
theorem matchStep_wf {bp ap : Int} {lb la lb' la' : List Order} {pop : List Nat}
    {restB restA : Levels} {idx : List (Nat × EntryInfo)}
    (hrsB : reducedSuffix lb lb') (hrsA : reducedSuffix la la')
    (hperm : List.Perm (idsOf lb ++ idsOf la) (pop ++ (idsOf lb' ++ idsOf la')))
    (hwf : WFBook (mkBook ((bp, lb) :: restB) ((ap, la) :: restA) idx)) :
    WFBook (mkBook (if lb' = [] then restB else (bp, lb') :: restB)
                   (if la' = [] then restA else (ap, la') :: restA)
                   (pop.foldl eraseEntry idx)) := by
  have hbsorted : List.Pairwise (fun x y : Level => y.1 < x.1) ((bp, lb) :: restB) :=
    hwf.bidsSorted
  have hasorted : List.Pairwise (fun x y : Level => x.1 < y.1) ((ap, la) :: restA) :=
    hwf.asksSorted
  have hbne : ∀ pl ∈ (bp, lb) :: restB, pl.2 ≠ [] := hwf.bidsNonempty
  have hane : ∀ pl ∈ (ap, la) :: restA, pl.2 ≠ [] := hwf.asksNonempty
  have hbside : ∀ pl ∈ (bp, lb) :: restB, ∀ o ∈ pl.2, o.side = Side.buy ∧ o.price = pl.1 :=
    hwf.bidsSide
  have haside : ∀ pl ∈ (ap, la) :: restA, ∀ o ∈ pl.2, o.side = Side.sell ∧ o.price = pl.1 :=
    hwf.asksSide
  have hids : (idsOf ((lb ++ levelsOrders restB) ++ (la ++ levelsOrders restA))).Nodup :=
    hwf.idsNodup
  have hkeysnd : (idx.map Prod.fst).Nodup := hwf.idxKeysNodup
  have hsound : ∀ kv ∈ idx, ∃ o ∈ (lb ++ levelsOrders restB) ++ (la ++ levelsOrders restA),
      o.orderId = kv.1 ∧ kv.2 = entryInfoOf o := hwf.idxSound
  have hcomplete : ∀ o ∈ (lb ++ levelsOrders restB) ++ (la ++ levelsOrders restA),
      lookupEntry idx o.orderId = some (entryInfoOf o) := hwf.idxComplete
  rw [idsOf_append, idsOf_append, idsOf_append] at hids
  rcases List.nodup_append.mp hids with ⟨d1, d2, d12⟩
  rcases List.nodup_append.mp d1 with ⟨ndPB, ndRB, dBB⟩
  rcases List.nodup_append.mp d2 with ⟨ndPA, ndRA, dAA⟩
  have hPN : (idsOf lb ++ idsOf la).Nodup := by
    refine List.Nodup.sublist ?_ hids
    exact (List.sublist_append_left _ _).append (List.sublist_append_left _ _)
  have hRN : (pop ++ (idsOf lb' ++ idsOf la')).Nodup := hperm.nodup hPN
  rcases List.nodup_append.mp hRN with ⟨ndpop, hLL, dpop⟩
  rcases List.nodup_append.mp hLL with ⟨ndLB, ndLA, dLL⟩
  have hsubB : List.Sublist (idsOf lb') (idsOf lb) := reducedSuffix_ids_sublist hrsB
  have hsubA : List.Sublist (idsOf la') (idsOf la) := reducedSuffix_ids_sublist hrsA
  have hpopmem : ∀ a ∈ pop, a ∈ idsOf lb ++ idsOf la := fun a ha =>
    hperm.symm.subset (List.mem_append_left _ ha)
  have hdPA : (idsOf lb).Disjoint (idsOf la) := (List.nodup_append.mp hPN).2.2
  have hRBnotpop : ∀ a ∈ idsOf (levelsOrders restB), a ∉ pop := by
    intro a ha hpop
    rcases List.mem_append.mp (hpopmem a hpop) with h1 | h1
    · exact dBB h1 ha
    · exact d12 (List.mem_append_right _ ha) (List.mem_append_left _ h1)
  have hRAnotpop : ∀ a ∈ idsOf (levelsOrders restA), a ∉ pop := by
    intro a ha hpop
    rcases List.mem_append.mp (hpopmem a hpop) with h1 | h1
    · exact d12 (List.mem_append_left _ h1) (List.mem_append_right _ ha)
    · exact dAA h1 ha
  have hLBnotpop : ∀ a ∈ idsOf lb', a ∉ pop := fun a ha hpop =>
    dpop hpop (List.mem_append_left _ ha)
  have hLAnotpop : ∀ a ∈ idsOf la', a ∉ pop := fun a ha hpop =>
    dpop hpop (List.mem_append_right _ ha)
  have hsurvB : ∀ o ∈ lb, o.orderId ∉ pop → o.orderId ∈ idsOf lb' := by
    intro o ho hnp
    have h1 : o.orderId ∈ idsOf lb ++ idsOf la :=
      List.mem_append_left _ (List.mem_map.mpr ⟨o, ho, rfl⟩)
    rcases List.mem_append.mp (hperm.subset h1) with h3 | h3
    · exact absurd h3 hnp
    · rcases List.mem_append.mp h3 with h4 | h4
      · exact h4
      · exact absurd (hsubA.mem h4) (fun h5 => hdPA (List.mem_map.mpr ⟨o, ho, rfl⟩) h5)
  have hsurvA : ∀ o ∈ la, o.orderId ∉ pop → o.orderId ∈ idsOf la' := by
    intro o ho hnp
    have h1 : o.orderId ∈ idsOf lb ++ idsOf la :=
      List.mem_append_right _ (List.mem_map.mpr ⟨o, ho, rfl⟩)
    rcases List.mem_append.mp (hperm.subset h1) with h3 | h3
    · exact absurd h3 hnp
    · rcases List.mem_append.mp h3 with h4 | h4
      · exact absurd (hsubB.mem h4) (fun h5 => hdPA h5 (List.mem_map.mpr ⟨o, ho, rfl⟩))
      · exact h4
  refine ⟨?_, ?_, ?_, ?_, ?_, ?_, ?_, ?_, ?_, ?_⟩
  · exact step_side_sorted (fun a c => c < a) bp lb lb' restB hbsorted
  · exact step_side_sorted (fun a c => a < c) ap la la' restA hasorted
  · exact step_side_nonempty (fun pl hpl => hbne pl (List.mem_cons_of_mem _ hpl))
  · exact step_side_nonempty (fun pl hpl => hane pl (List.mem_cons_of_mem _ hpl))
  · exact step_side_side hrsB (fun o ho => hbside (bp, lb) (List.mem_cons_self _ _) o ho)
      (fun pl hpl o ho => hbside pl (List.mem_cons_of_mem _ hpl) o ho)
  · exact step_side_side hrsA (fun o ho => haside (ap, la) (List.mem_cons_self _ _) o ho)
      (fun pl hpl o ho => haside pl (List.mem_cons_of_mem _ hpl) o ho)
  · show (idsOf (levelsOrders (if lb' = [] then restB else (bp, lb') :: restB) ++
      levelsOrders (if la' = [] then restA else (ap, la') :: restA))).Nodup
    rw [idsOf_append]
    have hnew : ((idsOf lb' ++ idsOf (levelsOrders restB)) ++
        (idsOf la' ++ idsOf (levelsOrders restA))).Nodup := by
      refine List.nodup_append.mpr ⟨?_, ?_, ?_⟩
      · refine List.nodup_append.mpr ⟨ndLB, ndRB, ?_⟩
        intro a ha hb
        exact dBB (hsubB.mem ha) hb
      · refine List.nodup_append.mpr ⟨ndLA, ndRA, ?_⟩
        intro a ha hb
        exact dAA (hsubA.mem ha) hb
      · intro a ha hb
        have ha2 : a ∈ idsOf lb ++ idsOf (levelsOrders restB) := by
          rcases List.mem_append.mp ha with h1 | h1
          · exact List.mem_append_left _ (hsubB.mem h1)
          · exact List.mem_append_right _ h1
        have hb2 : a ∈ idsOf la ++ idsOf (levelsOrders restA) := by
          rcases List.mem_append.mp hb with h1 | h1
          · exact List.mem_append_left _ (hsubA.mem h1)
          · exact List.mem_append_right _ h1
        exact d12 ha2 hb2
    refine List.Nodup.sublist ?_ hnew
    exact (step_side_ids (List.Sublist.refl _)).append (step_side_ids (List.Sublist.refl _))
  · exact List.Nodup.sublist (foldl_erase_keys_sublist pop idx) hkeysnd
  · intro kv hkv
    have hkvidx : kv ∈ idx := foldl_erase_sub hkv
    have hkvnp : kv.1 ∉ pop := mem_foldl_erase_not_mem hkeysnd hkv
    rcases hsound kv hkvidx with ⟨o, ho, hid, hinfo⟩
    rcases List.mem_append.mp ho with hbo | hao
    · rcases List.mem_append.mp hbo with h1 | h1
      · have hidin : o.orderId ∈ idsOf lb' := hsurvB o h1 (by rw [hid]; exact hkvnp)
        rcases mem_reduced_of_id hrsB ndPB h1 hidin with ⟨o', ho', hoid, hinf⟩
        refine ⟨o', ?_, by rw [hoid]; exact hid, by rw [hinfo, ← hinf]⟩
        have hne : lb' ≠ [] := List.ne_nil_of_mem ho'
        show o' ∈ levelsOrders (if lb' = [] then restB else (bp, lb') :: restB) ++
          levelsOrders (if la' = [] then restA else (ap, la') :: restA)
        refine List.mem_append_left _ ?_
        rw [if_neg hne]
        exact List.mem_append_left _ ho'
      · refine ⟨o, ?_, hid, hinfo⟩
        show o ∈ levelsOrders (if lb' = [] then restB else (bp, lb') :: restB) ++
          levelsOrders (if la' = [] then restA else (ap, la') :: restA)
        refine List.mem_append_left _ ?_
        by_cases hlb : lb' = []
        · rw [if_pos hlb]
          exact h1
        · rw [if_neg hlb]
          exact List.mem_append_right _ h1
    · rcases List.mem_append.mp hao with h1 | h1
      · have hidin : o.orderId ∈ idsOf la' := hsurvA o h1 (by rw [hid]; exact hkvnp)
        rcases mem_reduced_of_id hrsA ndPA h1 hidin with ⟨o', ho', hoid, hinf⟩
        refine ⟨o', ?_, by rw [hoid]; exact hid, by rw [hinfo, ← hinf]⟩
        have hne : la' ≠ [] := List.ne_nil_of_mem ho'
        show o' ∈ levelsOrders (if lb' = [] then restB else (bp, lb') :: restB) ++
          levelsOrders (if la' = [] then restA else (ap, la') :: restA)
        refine List.mem_append_right _ ?_
        rw [if_neg hne]
        exact List.mem_append_left _ ho'
      · refine ⟨o, ?_, hid, hinfo⟩
        show o ∈ levelsOrders (if lb' = [] then restB else (bp, lb') :: restB) ++
          levelsOrders (if la' = [] then restA else (ap, la') :: restA)
        refine List.mem_append_right _ ?_
        by_cases hla : la' = []
        · rw [if_pos hla]
          exact h1
        · rw [if_neg hla]
          exact List.mem_append_right _ h1
  · intro o ho
    have ho2 : o ∈ levelsOrders (if lb' = [] then restB else (bp, lb') :: restB) ++
        levelsOrders (if la' = [] then restA else (ap, la') :: restA) := ho
    show lookupEntry (pop.foldl eraseEntry idx) o.orderId = some (entryInfoOf o)
    rcases List.mem_append.mp ho2 with hb | ha
    · by_cases hlb : lb' = []
      · rw [if_pos hlb] at hb
        have hnp : o.orderId ∉ pop := hRBnotpop _ (List.mem_map.mpr ⟨o, hb, rfl⟩)
        rw [lookupEntry_foldl_erase_ne pop idx _ hnp]
        exact hcomplete o (List.mem_append_left _ (List.mem_append_right _ hb))
      · rw [if_neg hlb] at hb
        replace hb : o ∈ lb' ++ levelsOrders restB := hb
        rcases List.mem_append.mp hb with h1 | h1
        · rcases reducedSuffix_mem hrsB o h1 with ⟨o0, ho0, heq, _⟩
          have hid0 : o.orderId = o0.orderId := by rw [heq]
          have hinfoeq : entryInfoOf o = entryInfoOf o0 := by
            rw [heq]
            rfl
          have hnp : o.orderId ∉ pop := hLBnotpop _ (List.mem_map.mpr ⟨o, h1, rfl⟩)
          rw [lookupEntry_foldl_erase_ne pop idx _ hnp, hid0, hinfoeq]
          exact hcomplete o0 (List.mem_append_left _ (List.mem_append_left _ ho0))
        · have hnp : o.orderId ∉ pop := hRBnotpop _ (List.mem_map.mpr ⟨o, h1, rfl⟩)
          rw [lookupEntry_foldl_erase_ne pop idx _ hnp]
          exact hcomplete o (List.mem_append_left _ (List.mem_append_right _ h1))
    · by_cases hla : la' = []
      · rw [if_pos hla] at ha
        have hnp : o.orderId ∉ pop := hRAnotpop _ (List.mem_map.mpr ⟨o, ha, rfl⟩)
        rw [lookupEntry_foldl_erase_ne pop idx _ hnp]
        exact hcomplete o (List.mem_append_right _ (List.mem_append_right _ ha))
      · rw [if_neg hla] at ha
        replace ha : o ∈ la' ++ levelsOrders restA := ha
        rcases List.mem_append.mp ha with h1 | h1
        · rcases reducedSuffix_mem hrsA o h1 with ⟨o0, ho0, heq, _⟩
          have hid0 : o.orderId = o0.orderId := by rw [heq]
          have hinfoeq : entryInfoOf o = entryInfoOf o0 := by
            rw [heq]
            rfl
          have hnp : o.orderId ∉ pop := hLAnotpop _ (List.mem_map.mpr ⟨o, h1, rfl⟩)
          rw [lookupEntry_foldl_erase_ne pop idx _ hnp, hid0, hinfoeq]
          exact hcomplete o0 (List.mem_append_right _ (List.mem_append_left _ ho0))
        · have hnp : o.orderId ∉ pop := hRAnotpop _ (List.mem_map.mpr ⟨o, h1, rfl⟩)
          rw [lookupEntry_foldl_erase_ne pop idx _ hnp]
          exact hcomplete o (List.mem_append_right _ (List.mem_append_right _ h1))

/-- Total remaining quantity resting on one side. -/
def levelsRemaining : Levels → Nat
  | [] => 0
  | (_, l) :: rest => totalRemaining l + levelsRemaining rest

theorem sumTradeQty_append (t1 t2 : Trades) :
    sumTradeQty (t1 ++ t2) = sumTradeQty t1 + sumTradeQty t2 := by
  induction t1 with
  | nil => simp [sumTradeQty]
  | cons t rest ih => simp [sumTradeQty, ih, Nat.add_assoc]

/-- Whether the two best levels do not cross (vacuous when a side is
empty). -/
def headsUncrossed (bids asks : Levels) : Prop :=
  match bids, asks with
  | (bp, _) :: _, (ap, _) :: _ => bp < ap
  | _, _ => True

theorem step_side_size (p : Int) (q' : List Order) (rest : Levels) :
    levelsSize (if q' = [] then rest else (p, q') :: rest) +
      (if q' = [] then rest else (p, q') :: rest).length ≤
      q'.length + levelsSize rest + rest.length + 1 := by
  split
  · omega
  · simp [levelsSize]
    omega

theorem step_side_remaining (p : Int) (q' : List Order) (rest : Levels) :
    levelsRemaining (if q' = [] then rest else (p, q') :: rest) =
      totalRemaining q' + levelsRemaining rest := by
  split
  · next hq =>
    rw [hq]
    simp [totalRemaining]
  · rfl


theorem levelEvol_step {p : Int} {q q' : List Order} {rest X : Levels}
    (hrs : reducedSuffix q q')
    (h : levelEvol (if q' = [] then rest else (p, q') :: rest) X) :
    levelEvol ((p, q) :: rest) X := by
  by_cases hq : q' = []
  · rw [if_pos hq] at h
    exact levelEvol_drop1 h _
  · rw [if_neg hq] at h
    exact levelEvol_head hrs h

/-- Main facts about the outer crossing loop, given enough fuel and a
well-formed state: the result is well-formed, its best levels do not
cross, the traded quantity accounts exactly for the decrease of each
side's resting quantity, and each side evolves by front consumption. -/
theorem matchLoop_main (fuel : Nat) (bids asks : Levels) (idx : List (Nat × EntryInfo))
    (hfuel : matchLoopFuel bids asks ≤ fuel)
    (hwf : WFBook (mkBook bids asks idx)) :
    WFBook (mkBook (matchLoop fuel bids asks idx).2.1 (matchLoop fuel bids asks idx).2.2.1
      (matchLoop fuel bids asks idx).2.2.2.1) ∧
    headsUncrossed (matchLoop fuel bids asks idx).2.1 (matchLoop fuel bids asks idx).2.2.1 ∧
    levelsRemaining bids = levelsRemaining (matchLoop fuel bids asks idx).2.1 +
      sumTradeQty (matchLoop fuel bids asks idx).1 ∧
    levelsRemaining asks = levelsRemaining (matchLoop fuel bids asks idx).2.2.1 +
      sumTradeQty (matchLoop fuel bids asks idx).1 ∧
    levelEvol bids (matchLoop fuel bids asks idx).2.1 ∧
    levelEvol asks (matchLoop fuel bids asks idx).2.2.1 := by
  induction fuel generalizing bids asks idx with
  | zero =>
    unfold matchLoopFuel at hfuel
    have hb : bids = [] := List.length_eq_zero.mp (by omega)
    have ha : asks = [] := List.length_eq_zero.mp (by omega)
    subst hb
    subst ha
    exact ⟨hwf, trivial, rfl, rfl, levelEvol_refl _, levelEvol_refl _⟩
  | succ fuel ih =>
    match bids, asks with
    | [], asks =>
      rw [matchLoop]
      exact ⟨hwf, trivial, rfl, by simp [sumTradeQty, levelsRemaining],
        levelEvol_refl _, levelEvol_refl _⟩
    | (bp, lb) :: restB, [] =>
      rw [matchLoop]
      exact ⟨hwf, trivial, by simp [sumTradeQty, levelsRemaining], rfl,
        levelEvol_refl _, levelEvol_refl _⟩
    | (bp, lb) :: restB, (ap, la) :: restA =>
      rw [matchLoop]
      dsimp only
      split
      · next hlt =>
        refine ⟨hwf, hlt, by simp [sumTradeQty], by simp [sumTradeQty],
          levelEvol_refl _, levelEvol_refl _⟩
      · next hge =>
        dsimp only
        have hevol := matchLevelLoop_evol (lb.length + la.length) lb la
        have hperm := matchLevelLoop_perm (lb.length + la.length) lb la
        have hlen := matchLevelLoop_length (lb.length + la.length) lb la
        have hlbne : lb ≠ [] := hwf.bidsNonempty (bp, lb) (List.mem_cons_self _ _)
        have hlane : la ≠ [] := hwf.asksNonempty (ap, la) (List.mem_cons_self _ _)
        have hwf2 := matchStep_wf hevol.1 hevol.2 hperm hwf
        have hstrict := hlen.2.2 hlbne hlane (le_refl _)
        have hsizeB := step_side_size bp (matchLevelLoop (lb.length + la.length) lb la).2.2.1 restB
        have hsizeA := step_side_size ap (matchLevelLoop (lb.length + la.length) lb la).2.2.2.1 restA
        have hfuel2 : matchLoopFuel
            (if (matchLevelLoop (lb.length + la.length) lb la).2.2.1 = [] then restB
             else (bp, (matchLevelLoop (lb.length + la.length) lb la).2.2.1) :: restB)
            (if (matchLevelLoop (lb.length + la.length) lb la).2.2.2.1 = [] then restA
             else (ap, (matchLevelLoop (lb.length + la.length) lb la).2.2.2.1) :: restA) ≤ fuel := by
          unfold matchLoopFuel at hfuel ⊢
          simp only [levelsSize, List.length_cons] at hfuel
          omega
        have ihr := ih _ _ _ hfuel2 hwf2
        have htotB := (matchLevelLoop_totals (lb.length + la.length) lb la (le_refl _)).1
        have htotA := (matchLevelLoop_totals (lb.length + la.length) lb la (le_refl _)).2
        have hremB := step_side_remaining bp (matchLevelLoop (lb.length + la.length) lb la).2.2.1 restB
        have hremA := step_side_remaining ap (matchLevelLoop (lb.length + la.length) lb la).2.2.2.1 restA
        refine ⟨ihr.1, ihr.2.1, ?_, ?_, ?_, ?_⟩
        · show totalRemaining lb + levelsRemaining restB = _
          rw [sumTradeQty_append]
          have h1 := ihr.2.2.1
          rw [hremB] at h1
          omega
        · show totalRemaining la + levelsRemaining restA = _
          rw [sumTradeQty_append]
          have h1 := ihr.2.2.2.1
          rw [hremA] at h1
          omega
        · exact levelEvol_step hevol.1 ihr.2.2.2.2.1
        · exact levelEvol_step hevol.2 ihr.2.2.2.2.2

theorem insertIntoLevels_nonempty {before : Int → Int → Bool} {p : Int} {o : Order}
    {ls : Levels} (hne : ∀ pl ∈ ls, pl.2 ≠ []) :
    ∀ pl ∈ insertIntoLevels before p o ls, pl.2 ≠ [] := by
  induction ls with
  | nil =>
    intro pl hpl
    simp only [insertIntoLevels, List.mem_singleton] at hpl
    rw [hpl]
    simp
  | cons ql rest ih =>
    rcases ql with ⟨q, l⟩
    intro pl hpl
    simp only [insertIntoLevels] at hpl
    by_cases hp : p = q
    · rw [if_pos hp] at hpl
      rcases List.mem_cons.mp hpl with h1 | h1
      · rw [h1]
        simp
      · exact hne pl (List.mem_cons_of_mem _ h1)
    · rw [if_neg hp] at hpl
      by_cases hb : before p q
      · rw [if_pos hb] at hpl
        rcases List.mem_cons.mp hpl with h1 | h1
        · rw [h1]
          simp
        · exact hne pl h1
      · rw [if_neg hb] at hpl
        rcases List.mem_cons.mp hpl with h1 | h1
        · rw [h1]
          exact hne (q, l) (List.mem_cons_self _ _)
        · exact ih (fun x hx => hne x (List.mem_cons_of_mem _ hx)) pl h1

theorem mem_insertIntoLevels {before : Int → Int → Bool} {p : Int} {o : Order}
    {ls : Levels} :
    ∀ pl ∈ insertIntoLevels before p o ls,
      pl ∈ ls ∨ pl = (p, [o]) ∨ ∃ l, (p, l) ∈ ls ∧ pl = (p, l ++ [o]) := by
  induction ls with
  | nil =>
    intro pl hpl
    simp only [insertIntoLevels, List.mem_singleton] at hpl
    exact Or.inr (Or.inl hpl)
  | cons ql rest ih =>
    rcases ql with ⟨q, l⟩
    intro pl hpl
    simp only [insertIntoLevels] at hpl
    by_cases hp : p = q
    · rw [if_pos hp] at hpl
      rcases List.mem_cons.mp hpl with h1 | h1
      · subst hp
        exact Or.inr (Or.inr ⟨l, List.mem_cons_self _ _, h1⟩)
      · exact Or.inl (List.mem_cons_of_mem _ h1)
    · rw [if_neg hp] at hpl
      by_cases hb : before p q
      · rw [if_pos hb] at hpl
        rcases List.mem_cons.mp hpl with h1 | h1
        · exact Or.inr (Or.inl h1)
        · exact Or.inl h1
      · rw [if_neg hb] at hpl
        rcases List.mem_cons.mp hpl with h1 | h1
        · exact Or.inl (by rw [h1]; exact List.mem_cons_self _ _)
        · rcases ih pl h1 with h2 | h2 | ⟨l2, h2, h3⟩
          · exact Or.inl (List.mem_cons_of_mem _ h2)
          · exact Or.inr (Or.inl h2)
          · exact Or.inr (Or.inr ⟨l2, List.mem_cons_of_mem _ h2, h3⟩)

/-- Inserting a fresh order keeps the book well-formed. -/
theorem insertOrder_wf {b : Orderbook} {o : Order} (hwf : WFBook b)
    (hfresh : lookupEntry b.orders o.orderId = none) :
    WFBook (insertOrder b o) := by
  have hnotin : o.orderId ∉ idsOf (bookOrders b) := by
    intro hmem
    rcases List.mem_map.mp hmem with ⟨o0, ho0, he⟩
    have h1 := hwf.idxComplete o0 ho0
    rw [he, hfresh] at h1
    exact absurd h1 (by simp)
  have hkeynotin : o.orderId ∉ b.orders.map Prod.fst := not_mem_keys_of_lookup_none hfresh
  have htotalB : ∀ x y : Int, x ≠ y →
      (fun x y : Int => decide (y < x)) x y = true ∨
      (fun x y : Int => decide (y < x)) y x = true := by
    intro x y h
    rcases lt_or_gt_of_ne h with h1 | h1
    · exact Or.inr (by simpa using h1)
    · exact Or.inl (by simpa using h1)
  have htotalA : ∀ x y : Int, x ≠ y →
      (fun x y : Int => decide (x < y)) x y = true ∨
      (fun x y : Int => decide (x < y)) y x = true := by
    intro x y h
    rcases lt_or_gt_of_ne h with h1 | h1
    · exact Or.inl (by simpa using h1)
    · exact Or.inr (by simpa using h1)
  unfold insertOrder
  by_cases hside : o.side = Side.buy
  · rw [if_pos hside]
    have hperm : List.Perm (levelsOrders (insertIntoLevels (fun x y => decide (y < x)) o.price o b.bids))
        (o :: levelsOrders b.bids) :=
      insertIntoLevels_orders_perm _ o.price o b.bids
    refine ⟨?_, hwf.asksSorted, ?_, hwf.asksNonempty, ?_, hwf.asksSide, ?_, ?_, ?_, ?_⟩
    · exact insertIntoLevels_sorted (fun a c => c < a) (fun x y => decide (y < x))
        (fun x y h => of_decide_eq_true h) htotalB
        (fun x y z h1 h2 => lt_trans h2 h1) o.price o b.bids hwf.bidsSorted
    · exact insertIntoLevels_nonempty hwf.bidsNonempty
    · intro pl hpl o' ho'
      rcases mem_insertIntoLevels pl hpl with h1 | h1 | ⟨l, h1, h2⟩
      · exact hwf.bidsSide pl h1 o' ho'
      · rw [h1] at ho'
        rcases List.mem_singleton.mp ho' with h2
        rw [h2, h1]
        exact ⟨hside, rfl⟩
      · rw [h2] at ho'
        rcases List.mem_append.mp ho' with h3 | h3
        · have h4 := hwf.bidsSide (o.price, l) h1 o' h3
          rw [h2]
          exact h4
        · rcases List.mem_singleton.mp h3 with h4
          rw [h4, h2]
          exact ⟨hside, rfl⟩
    · show (idsOf (levelsOrders (insertIntoLevels (fun x y => decide (y < x)) o.price o b.bids) ++
        levelsOrders b.asks)).Nodup
      have hp2 : List.Perm
          (idsOf (levelsOrders (insertIntoLevels (fun x y => decide (y < x)) o.price o b.bids) ++
            levelsOrders b.asks))
          (o.orderId :: idsOf (levelsOrders b.bids ++ levelsOrders b.asks)) := by
        rw [idsOf_append, idsOf_append]
        exact ((hperm.map _).append_right _).trans (List.Perm.refl _)
      refine hp2.nodup_iff.mpr ?_
      exact List.nodup_cons.mpr ⟨hnotin, hwf.idsNodup⟩
    · show ((((o.orderId, entryInfoOf o)) :: b.orders).map Prod.fst).Nodup
      exact List.nodup_cons.mpr ⟨hkeynotin, hwf.idxKeysNodup⟩
    · intro kv hkv
      rcases List.mem_cons.mp hkv with h1 | h1
      · refine ⟨o, ?_, by rw [h1], by rw [h1]⟩
        show o ∈ levelsOrders (insertIntoLevels (fun x y => decide (y < x)) o.price o b.bids) ++
          levelsOrders b.asks
        exact List.mem_append_left _ (hperm.symm.subset (List.mem_cons_self _ _))
      · rcases hwf.idxSound kv h1 with ⟨o0, ho0, hid, hinfo⟩
        refine ⟨o0, ?_, hid, hinfo⟩
        show o0 ∈ levelsOrders (insertIntoLevels (fun x y => decide (y < x)) o.price o b.bids) ++
          levelsOrders b.asks
        rcases List.mem_append.mp ho0 with h2 | h2
        · exact List.mem_append_left _ (hperm.symm.subset (List.mem_cons_of_mem _ h2))
        · exact List.mem_append_right _ h2
    · intro o' ho'
      have ho2 : o' ∈ levelsOrders (insertIntoLevels (fun x y => decide (y < x)) o.price o b.bids) ++
          levelsOrders b.asks := ho'
      show lookupEntry ((o.orderId, entryInfoOf o) :: b.orders) o'.orderId =
        some (entryInfoOf o')
      rcases List.mem_append.mp ho2 with h2 | h2
      · rcases List.mem_cons.mp (hperm.subset h2) with h3 | h3
        · rw [h3]
          simp [lookupEntry]
        · have hne : o.orderId ≠ o'.orderId := by
            intro he
            apply hnotin
            rw [he]
            exact List.mem_map.mpr ⟨o', List.mem_append_left _ h3, rfl⟩
          simp only [lookupEntry]
          rw [if_neg hne]
          exact hwf.idxComplete o' (List.mem_append_left _ h3)
      · have hne : o.orderId ≠ o'.orderId := by
          intro he
          apply hnotin
          rw [he]
          exact List.mem_map.mpr ⟨o', List.mem_append_right _ h2, rfl⟩
        simp only [lookupEntry]
        rw [if_neg hne]
        exact hwf.idxComplete o' (List.mem_append_right _ h2)
  · rw [if_neg hside]
    have hperm : List.Perm (levelsOrders (insertIntoLevels (fun x y => decide (x < y)) o.price o b.asks))
        (o :: levelsOrders b.asks) :=
      insertIntoLevels_orders_perm _ o.price o b.asks
    have hsell : o.side = Side.sell := by
      cases h : o.side with
      | buy => exact absurd h hside
      | sell => rfl
    refine ⟨hwf.bidsSorted, ?_, hwf.bidsNonempty, ?_, hwf.bidsSide, ?_, ?_, ?_, ?_, ?_⟩
    · exact insertIntoLevels_sorted (fun a c => a < c) (fun x y => decide (x < y))
        (fun x y h => of_decide_eq_true h) htotalA
        (fun x y z h1 h2 => lt_trans h1 h2) o.price o b.asks hwf.asksSorted
    · exact insertIntoLevels_nonempty hwf.asksNonempty
    · intro pl hpl o' ho'
      rcases mem_insertIntoLevels pl hpl with h1 | h1 | ⟨l, h1, h2⟩
      · exact hwf.asksSide pl h1 o' ho'
      · rw [h1] at ho'
        rcases List.mem_singleton.mp ho' with h2
        rw [h2, h1]
        exact ⟨hsell, rfl⟩
      · rw [h2] at ho'
        rcases List.mem_append.mp ho' with h3 | h3
        · have h4 := hwf.asksSide (o.price, l) h1 o' h3
          rw [h2]
          exact h4
        · rcases List.mem_singleton.mp h3 with h4
          rw [h4, h2]
          exact ⟨hsell, rfl⟩
    · show (idsOf (levelsOrders b.bids ++
        levelsOrders (insertIntoLevels (fun x y => decide (x < y)) o.price o b.asks))).Nodup
      have hp2 : List.Perm
          (idsOf (levelsOrders b.bids ++
            levelsOrders (insertIntoLevels (fun x y => decide (x < y)) o.price o b.asks)))
          (o.orderId :: idsOf (levelsOrders b.bids ++ levelsOrders b.asks)) := by
        rw [idsOf_append, idsOf_append]
        refine ((hperm.map _).append_left _).trans ?_
        show List.Perm (idsOf (levelsOrders b.bids) ++ (o.orderId :: idsOf (levelsOrders b.asks))) _
        exact (List.perm_middle).trans (List.Perm.refl _)
      refine hp2.nodup_iff.mpr ?_
      exact List.nodup_cons.mpr ⟨hnotin, hwf.idsNodup⟩
    · show ((((o.orderId, entryInfoOf o)) :: b.orders).map Prod.fst).Nodup
      exact List.nodup_cons.mpr ⟨hkeynotin, hwf.idxKeysNodup⟩
    · intro kv hkv
      rcases List.mem_cons.mp hkv with h1 | h1
      · refine ⟨o, ?_, by rw [h1], by rw [h1]⟩
        show o ∈ levelsOrders b.bids ++
          levelsOrders (insertIntoLevels (fun x y => decide (x < y)) o.price o b.asks)
        exact List.mem_append_right _ (hperm.symm.subset (List.mem_cons_self _ _))
      · rcases hwf.idxSound kv h1 with ⟨o0, ho0, hid, hinfo⟩
        refine ⟨o0, ?_, hid, hinfo⟩
        show o0 ∈ levelsOrders b.bids ++
          levelsOrders (insertIntoLevels (fun x y => decide (x < y)) o.price o b.asks)
        rcases List.mem_append.mp ho0 with h2 | h2
        · exact List.mem_append_left _ h2
        · exact List.mem_append_right _ (hperm.symm.subset (List.mem_cons_of_mem _ h2))
    · intro o' ho'
      have ho2 : o' ∈ levelsOrders b.bids ++
          levelsOrders (insertIntoLevels (fun x y => decide (x < y)) o.price o b.asks) := ho'
      show lookupEntry ((o.orderId, entryInfoOf o) :: b.orders) o'.orderId =
        some (entryInfoOf o')
      rcases List.mem_append.mp ho2 with h2 | h2
      · have hne : o.orderId ≠ o'.orderId := by
          intro he
          apply hnotin
          rw [he]
          exact List.mem_map.mpr ⟨o', List.mem_append_left _ h2, rfl⟩
        simp only [lookupEntry]
        rw [if_neg hne]
        exact hwf.idxComplete o' (List.mem_append_left _ h2)
      · rcases List.mem_cons.mp (hperm.subset h2) with h3 | h3
        · rw [h3]
          simp [lookupEntry]
        · have hne : o.orderId ≠ o'.orderId := by
            intro he
            apply hnotin
            rw [he]
            exact List.mem_map.mpr ⟨o', List.mem_append_right _ h3, rfl⟩
          simp only [lookupEntry]
          rw [if_neg hne]
          exact hwf.idxComplete o' (List.mem_append_right _ h3)

/-- Well-formedness only concerns the sides and the index. -/
theorem wf_of_eq_state {b b' : Orderbook} (hwf : WFBook b) (hb : b'.bids = b.bids)
    (ha : b'.asks = b.asks) (ho : b'.orders = b.orders) : WFBook b' := by
  refine ⟨?_, ?_, ?_, ?_, ?_, ?_, ?_, ?_, ?_, ?_⟩
  · rw [hb]
    exact hwf.bidsSorted
  · rw [ha]
    exact hwf.asksSorted
  · rw [hb]
    exact hwf.bidsNonempty
  · rw [ha]
    exact hwf.asksNonempty
  · rw [hb]
    exact hwf.bidsSide
  · rw [ha]
    exact hwf.asksSide
  · show (idsOf (levelsOrders b'.bids ++ levelsOrders b'.asks)).Nodup
    rw [hb, ha]
    exact hwf.idsNodup
  · rw [ho]
    exact hwf.idxKeysNodup
  · intro kv hkv
    rw [ho] at hkv
    rcases hwf.idxSound kv hkv with ⟨o, hom, hid, hinfo⟩
    refine ⟨o, ?_, hid, hinfo⟩
    show o ∈ levelsOrders b'.bids ++ levelsOrders b'.asks
    rw [hb, ha]
    exact hom
  · intro o ho2
    have ho3 : o ∈ levelsOrders b'.bids ++ levelsOrders b'.asks := ho2
    rw [hb, ha] at ho3
    rw [ho]
    exact hwf.idxComplete o ho3

theorem foldl_cancelOrder_wf (L : List Nat) {b : Orderbook} (hwf : WFBook b) :
    WFBook (L.foldl cancelOrder b) := by
  induction L generalizing b with
  | nil => exact hwf
  | cons id rest ih => exact ih (cancelOrder_wf hwf id)

theorem cancelGoodForDayOrders_wf {b : Orderbook} (hwf : WFBook b) :
    WFBook (cancelGoodForDayOrders b) :=
  foldl_cancelOrder_wf _ hwf

theorem checkAndResetDay_wf {b : Orderbook} (now : Nat) (hwf : WFBook b) :
    WFBook (checkAndResetDay b now) := by
  unfold checkAndResetDay
  split
  · exact wf_of_eq_state (cancelGoodForDayOrders_wf hwf) rfl rfl rfl
  · exact hwf

theorem cancelIocOrders_wf {b : Orderbook} (hwf : WFBook b) :
    WFBook (cancelIocOrders b) :=
  foldl_cancelOrder_wf _ hwf

/-- After cancelling every id in a list, none of them rests in the book. -/
theorem foldl_cancelOrder_not_mem (L : List Nat) {b : Orderbook} (hwf : WFBook b) :
    ∀ o ∈ bookOrders (L.foldl cancelOrder b), o.orderId ∉ L := by
  induction L generalizing b with
  | nil => simp
  | cons id rest ih =>
    intro o ho
    have h1 : o ∈ bookOrders (cancelOrder b id) := foldl_cancelOrder_sub ho
    simp only [List.mem_cons]
    rintro (h2 | h2)
    · exact cancelOrder_removes_id hwf o h1 h2
    · exact ih (cancelOrder_wf hwf id) o ho h2

/-- The IOC sweep leaves no resting ImmediateOrCancel order behind. -/
theorem cancelIocOrders_no_ioc {b : Orderbook} (hwf : WFBook b) :
    ∀ o ∈ bookOrders (cancelIocOrders b),
      o.orderType ≠ OrderType.immediateOrCancel := by
  intro o ho htype
  have hsub : o ∈ bookOrders b := foldl_cancelOrder_sub ho
  have hlk := hwf.idxComplete o hsub
  have hkv : (o.orderId, entryInfoOf o) ∈ b.orders := lookupEntry_mem hlk
  have hmemL : o.orderId ∈
      (b.orders.filter fun kv => kv.2.orderType == OrderType.immediateOrCancel).map
        Prod.fst := by
    refine List.mem_map.mpr ⟨(o.orderId, entryInfoOf o), ?_, rfl⟩
    refine List.mem_filter.mpr ⟨hkv, ?_⟩
    simp [entryInfoOf, htype]
  exact foldl_cancelOrder_not_mem _ hwf o ho hmemL

/-- With no ImmediateOrCancel entries in the index the sweep is the
identity. -/
theorem cancelIocOrders_eq_self {b : Orderbook}
    (h : ∀ kv ∈ b.orders, kv.2.orderType ≠ OrderType.immediateOrCancel) :
    cancelIocOrders b = b := by
  unfold cancelIocOrders
  have hfil : b.orders.filter (fun kv => kv.2.orderType == OrderType.immediateOrCancel) = [] := by
    rw [List.filter_eq_nil_iff]
    intro kv hkv
    simpa using h kv hkv
  rw [hfil]
  rfl

/-- The book is uncrossed: every resting bid price is strictly below every
resting ask price. -/
def allUncrossed (b : Orderbook) : Prop :=
  ∀ p ∈ bidPriceKeys b, ∀ q ∈ askPriceKeys b, p < q

theorem allUncrossed_mono {b b' : Orderbook}
    (hb : ∀ p ∈ bidPriceKeys b', p ∈ bidPriceKeys b)
    (ha : ∀ q ∈ askPriceKeys b', q ∈ askPriceKeys b)
    (h : allUncrossed b) : allUncrossed b' :=
  fun p hp q hq => h p (hb p hp) q (ha q hq)

theorem cancelOrder_bid_keys (b : Orderbook) (id : Nat) :
    ∀ p ∈ bidPriceKeys (cancelOrder b id), p ∈ bidPriceKeys b := by
  unfold cancelOrder
  cases lookupEntry b.orders id with
  | none => exact fun p hp => hp
  | some e =>
    dsimp only
    split
    · exact fun p hp => hp
    · intro p hp
      exact ((eraseFromLevels_keys_sublist e.price id b.bids).subset) hp

theorem cancelOrder_ask_keys (b : Orderbook) (id : Nat) :
    ∀ p ∈ askPriceKeys (cancelOrder b id), p ∈ askPriceKeys b := by
  unfold cancelOrder
  cases lookupEntry b.orders id with
  | none => exact fun p hp => hp
  | some e =>
    dsimp only
    split
    · intro p hp
      exact ((eraseFromLevels_keys_sublist e.price id b.asks).subset) hp
    · exact fun p hp => hp

theorem cancelOrder_uncrossed {b : Orderbook} (id : Nat) (h : allUncrossed b) :
    allUncrossed (cancelOrder b id) :=
  allUncrossed_mono (cancelOrder_bid_keys b id) (cancelOrder_ask_keys b id) h

theorem foldl_cancelOrder_uncrossed (L : List Nat) {b : Orderbook}
    (h : allUncrossed b) : allUncrossed (L.foldl cancelOrder b) := by
  induction L generalizing b with
  | nil => exact h
  | cons id rest ih => exact ih (cancelOrder_uncrossed id h)

theorem allUncrossed_of_eq_sides {b b' : Orderbook} (hb : b'.bids = b.bids)
    (ha : b'.asks = b.asks) (h : allUncrossed b) : allUncrossed b' := by
  intro p hp q hq
  refine h p ?_ q ?_
  · show p ∈ b.bids.map Prod.fst
    rw [← hb]
    exact hp
  · show q ∈ b.asks.map Prod.fst
    rw [← ha]
    exact hq

theorem checkAndResetDay_uncrossed {b : Orderbook} (now : Nat)
    (h : allUncrossed b) : allUncrossed (checkAndResetDay b now) := by
  unfold checkAndResetDay
  split
  · exact allUncrossed_of_eq_sides rfl rfl (foldl_cancelOrder_uncrossed _ h)
  · exact h

theorem cancelIocOrders_uncrossed {b : Orderbook} (h : allUncrossed b) :
    allUncrossed (cancelIocOrders b) :=
  foldl_cancelOrder_uncrossed _ h

/-- Sorted sides whose best levels do not cross are fully uncrossed. -/
theorem allUncrossed_of_heads {b : Orderbook} (hwf : WFBook b)
    (h : headsUncrossed b.bids b.asks) : allUncrossed b := by
  intro p hp q hq
  cases hbids : b.bids with
  | nil =>
    rw [show bidPriceKeys b = b.bids.map Prod.fst from rfl, hbids] at hp
    simp at hp
  | cons hd tl =>
    cases hasks : b.asks with
    | nil =>
      rw [show askPriceKeys b = b.asks.map Prod.fst from rfl, hasks] at hq
      simp at hq
    | cons hd2 tl2 =>
      rcases hd with ⟨bp, lb⟩
      rcases hd2 with ⟨ap, la⟩
      have hh : bp < ap := by
        rw [hbids, hasks] at h
        exact h
      have hsb := hwf.bidsSorted
      have hsa := hwf.asksSorted
      rw [hbids] at hsb
      rw [hasks] at hsa
      have hple : p ≤ bp := by
        rw [show bidPriceKeys b = b.bids.map Prod.fst from rfl, hbids] at hp
        simp only [List.map_cons, List.mem_cons] at hp
        rcases hp with h1 | h1
        · rw [h1]
        · rcases List.mem_map.mp h1 with ⟨pl, hpl, hpe⟩
          have h2 := (List.pairwise_cons.mp hsb).1 pl hpl
          rw [← hpe]
          exact le_of_lt h2
      have hqge : ap ≤ q := by
        rw [show askPriceKeys b = b.asks.map Prod.fst from rfl, hasks] at hq
        simp only [List.map_cons, List.mem_cons] at hq
        rcases hq with h1 | h1
        · rw [h1]
        · rcases List.mem_map.mp h1 with ⟨pl, hpl, hpe⟩
          have h2 := (List.pairwise_cons.mp hsa).1 pl hpl
          rw [← hpe]
          exact le_of_lt h2
      exact lt_of_le_of_lt hple (lt_of_lt_of_le hh hqge)

theorem entryInfoOf_fill (o : Order) (q : Nat) :
    entryInfoOf (o.fill q).1 = entryInfoOf o := by
  rw [Order.fill_eq_update]
  rfl

theorem fillInLevel_ids (id q : Nat) (l : List Order) :
    idsOf (fillInLevel id q l).1 = idsOf l := by
  induction l with
  | nil => rfl
  | cons o rest ih =>
    simp only [fillInLevel]
    split
    · simp only [idsOf, List.map_cons, Order.fill_orderId]
    · simp only [idsOf, List.map_cons] at ih ⊢
      rw [ih]

theorem fillInLevel_not_found {id : Nat} (q : Nat) {l : List Order}
    (h : id ∉ idsOf l) : fillInLevel id q l = (l, none) := by
  induction l with
  | nil => rfl
  | cons o rest ih =>
    simp only [idsOf, List.map_cons, List.mem_cons] at h
    push_neg at h
    simp only [fillInLevel]
    rw [if_neg (fun he => h.1 he.symm), ih (by simpa [idsOf] using h.2)]

theorem fillInLevel_some_mem {id q : Nat} {l : List Order}
    (h : (fillInLevel id q l).2 ≠ none) : id ∈ idsOf l := by
  by_contra hmem
  rw [fillInLevel_not_found q hmem] at h
  exact h rfl

theorem fillInLevel_mem_to (id q : Nat) (l : List Order) :
    ∀ o' ∈ (fillInLevel id q l).1,
      o' ∈ l ∨ ∃ o ∈ l, o.orderId = id ∧ o' = (o.fill q).1 := by
  induction l with
  | nil => simp [fillInLevel]
  | cons o rest ih =>
    intro o' ho'
    simp only [fillInLevel] at ho'
    by_cases hid : o.orderId = id
    · rw [if_pos hid] at ho'
      rcases List.mem_cons.mp ho' with h1 | h1
      · exact Or.inr ⟨o, List.mem_cons_self _ _, hid, h1⟩
      · exact Or.inl (List.mem_cons_of_mem _ h1)
    · rw [if_neg hid] at ho'
      rcases List.mem_cons.mp ho' with h1 | h1
      · exact Or.inl (by rw [h1]; exact List.mem_cons_self _ _)
      · rcases ih o' h1 with h2 | ⟨o0, h2, h3, h4⟩
        · exact Or.inl (List.mem_cons_of_mem _ h2)
        · exact Or.inr ⟨o0, List.mem_cons_of_mem _ h2, h3, h4⟩

theorem fillInLevel_mem_from (id q : Nat) (l : List Order) :
    ∀ o ∈ l, o ∈ (fillInLevel id q l).1 ∨
      (o.orderId = id ∧ (o.fill q).1 ∈ (fillInLevel id q l).1) := by
  induction l with
  | nil => simp
  | cons o0 rest ih =>
    intro o ho
    simp only [fillInLevel]
    by_cases hid : o0.orderId = id
    · rw [if_pos hid]
      rcases List.mem_cons.mp ho with h1 | h1
      · right
        subst h1
        exact ⟨hid, List.mem_cons_self _ _⟩
      · exact Or.inl (List.mem_cons_of_mem _ h1)
    · rw [if_neg hid]
      rcases List.mem_cons.mp ho with h1 | h1
      · exact Or.inl (by rw [h1]; exact List.mem_cons_self _ _)
      · rcases ih o h1 with h2 | ⟨h2, h3⟩
        · exact Or.inl (List.mem_cons_of_mem _ h2)
        · exact Or.inr ⟨h2, List.mem_cons_of_mem _ h3⟩

theorem fillInLevel_found_spec (q : Nat) {l : List Order} {m : Order}
    (hnd : (idsOf l).Nodup) (hm : m ∈ l) :
    (fillInLevel m.orderId q l).2 = some (m.fill q).2 := by
  induction l with
  | nil => cases hm
  | cons o rest ih =>
    simp only [idsOf, List.map_cons, List.nodup_cons] at hnd
    simp only [fillInLevel]
    by_cases hid : o.orderId = m.orderId
    · rw [if_pos hid]
      have hom : o = m := by
        rcases List.mem_cons.mp hm with h1 | h1
        · exact h1.symm
        · exact absurd (by rw [hid]; exact List.mem_map.mpr ⟨m, h1, rfl⟩) hnd.1
      rw [hom]
    · rw [if_neg hid]
      rcases List.mem_cons.mp hm with h1 | h1
      · exact absurd (by rw [h1]) hid
      · exact ih (by simpa [idsOf] using hnd.2) h1

theorem fillInLevels_keys (id q : Nat) (ls : Levels) :
    (fillInLevels id q ls).1.map Prod.fst = ls.map Prod.fst := by
  induction ls with
  | nil => rfl
  | cons pl rest ih =>
    rcases pl with ⟨p, l⟩
    simp only [fillInLevels]
    cases (fillInLevel id q l).2 with
    | some ok => simp
    | none =>
      simp only [List.map_cons]
      rw [ih]

theorem fillInLevels_not_found {id : Nat} (q : Nat) {ls : Levels}
    (h : id ∉ sideIds ls) : fillInLevels id q ls = (ls, none) := by
  induction ls with
  | nil => rfl
  | cons pl rest ih =>
    rcases pl with ⟨p, l⟩
    have h2 : id ∉ idsOf l ++ sideIds rest := by
      intro hmem
      apply h
      show id ∈ idsOf (l ++ levelsOrders rest)
      rw [idsOf_append]
      exact hmem
    have hl : id ∉ idsOf l := fun hm => h2 (List.mem_append_left _ hm)
    have hrest : id ∉ sideIds rest := fun hm => h2 (List.mem_append_right _ hm)
    simp only [fillInLevels]
    rw [fillInLevel_not_found q hl]
    dsimp only
    rw [ih hrest]

theorem fillInLevels_mem_to (id q : Nat) (ls : Levels) :
    ∀ pl' ∈ (fillInLevels id q ls).1,
      pl' ∈ ls ∨ ∃ pl ∈ ls, pl'.1 = pl.1 ∧ pl'.2 = (fillInLevel id q pl.2).1 := by
  induction ls with
  | nil => simp [fillInLevels]
  | cons pl0 rest ih =>
    rcases pl0 with ⟨p, l⟩
    intro pl' hpl'
    simp only [fillInLevels] at hpl'
    cases hfl : (fillInLevel id q l).2 with
    | some ok =>
      rw [hfl] at hpl'
      rcases List.mem_cons.mp hpl' with h1 | h1
      · exact Or.inr ⟨(p, l), List.mem_cons_self _ _, by rw [h1], by rw [h1]⟩
      · exact Or.inl (List.mem_cons_of_mem _ h1)
    | none =>
      rw [hfl] at hpl'
      rcases List.mem_cons.mp hpl' with h1 | h1
      · exact Or.inl (by rw [h1]; exact List.mem_cons_self _ _)
      · rcases ih pl' h1 with h2 | ⟨pl, h2, h3⟩
        · exact Or.inl (List.mem_cons_of_mem _ h2)
        · exact Or.inr ⟨pl, List.mem_cons_of_mem _ h2, h3⟩

theorem fillInLevels_mem_from (id q : Nat) (ls : Levels) :
    ∀ pl ∈ ls, pl ∈ (fillInLevels id q ls).1 ∨
      (pl.1, (fillInLevel id q pl.2).1) ∈ (fillInLevels id q ls).1 := by
  induction ls with
  | nil => simp
  | cons pl0 rest ih =>
    rcases pl0 with ⟨p, l⟩
    intro pl hpl
    simp only [fillInLevels]
    cases hfl : (fillInLevel id q l).2 with
    | some ok =>
      rcases List.mem_cons.mp hpl with h1 | h1
      · right
        rw [h1]
        exact List.mem_cons_self _ _
      · exact Or.inl (List.mem_cons_of_mem _ h1)
    | none =>
      rcases List.mem_cons.mp hpl with h1 | h1
      · exact Or.inl (by rw [h1]; exact List.mem_cons_self _ _)
      · rcases ih pl h1 with h2 | h2
        · exact Or.inl (List.mem_cons_of_mem _ h2)
        · exact Or.inr (List.mem_cons_of_mem _ h2)

theorem fillInLevels_ids (id q : Nat) (ls : Levels) :
    idsOf (levelsOrders (fillInLevels id q ls).1) = idsOf (levelsOrders ls) := by
  induction ls with
  | nil => rfl
  | cons pl rest ih =>
    rcases pl with ⟨p, l⟩
    simp only [fillInLevels]
    cases (fillInLevel id q l).2 with
    | some ok =>
      show idsOf ((fillInLevel id q l).1 ++ levelsOrders rest) =
        idsOf (l ++ levelsOrders rest)
      rw [idsOf_append, idsOf_append, fillInLevel_ids]
    | none =>
      show idsOf (l ++ levelsOrders (fillInLevels id q rest).1) =
        idsOf (l ++ levelsOrders rest)
      rw [idsOf_append, idsOf_append, ih]

theorem fillInLevels_found_spec (q : Nat) {ls : Levels} {m : Order}
    (hnd : (sideIds ls).Nodup) (hm : m ∈ levelsOrders ls) :
    (fillInLevels m.orderId q ls).2 = some (m.fill q).2 := by
  induction ls with
  | nil => cases hm
  | cons pl0 rest ih =>
    rcases pl0 with ⟨p, l⟩
    have hnd2 : (idsOf l ++ sideIds rest).Nodup := by
      simpa [sideIds, idsOf, levelsOrders] using hnd
    rcases List.nodup_append.mp hnd2 with ⟨hndl, hndr, hdis⟩
    replace hm : m ∈ l ++ levelsOrders rest := hm
    simp only [fillInLevels]
    rcases List.mem_append.mp hm with h1 | h1
    · rw [fillInLevel_found_spec q hndl h1]
    · have hnotl : m.orderId ∉ idsOf l := by
        intro hmem
        exact hdis hmem (List.mem_map.mpr ⟨m, h1, rfl⟩)
      rw [fillInLevel_not_found q hnotl]
      exact ih hndr h1

theorem fillInLevel_length (id q : Nat) (l : List Order) :
    (fillInLevel id q l).1.length = l.length := by
  have h := congrArg List.length (fillInLevel_ids id q l)
  simpa [idsOf] using h

theorem fillInLevels_order_to (id q : Nat) (ls : Levels) :
    ∀ o' ∈ levelsOrders (fillInLevels id q ls).1, ∃ o ∈ levelsOrders ls,
      o'.orderId = o.orderId ∧ entryInfoOf o' = entryInfoOf o ∧
      (o' = o ∨ o' = (o.fill q).1) := by
  intro o' ho'
  rcases mem_levelsOrders.mp ho' with ⟨pl', hpl', hmem⟩
  rcases fillInLevels_mem_to id q ls pl' hpl' with h1 | ⟨pl, h1, h2, h3⟩
  · exact ⟨o', mem_levelsOrders.mpr ⟨pl', h1, hmem⟩, rfl, rfl, Or.inl rfl⟩
  · rw [h3] at hmem
    rcases fillInLevel_mem_to id q pl.2 o' hmem with h4 | ⟨o, h4, h5, h6⟩
    · exact ⟨o', mem_levelsOrders.mpr ⟨pl, h1, h4⟩, rfl, rfl, Or.inl rfl⟩
    · refine ⟨o, mem_levelsOrders.mpr ⟨pl, h1, h4⟩, ?_, ?_, Or.inr h6⟩
      · rw [h6, Order.fill_orderId]
      · rw [h6, entryInfoOf_fill]

theorem fillInLevels_order_from (id q : Nat) (ls : Levels) :
    ∀ o ∈ levelsOrders ls, ∃ o' ∈ levelsOrders (fillInLevels id q ls).1,
      o'.orderId = o.orderId ∧ entryInfoOf o' = entryInfoOf o := by
  intro o ho
  rcases mem_levelsOrders.mp ho with ⟨pl, hpl, hmem⟩
  rcases fillInLevels_mem_from id q ls pl hpl with h1 | h1
  · exact ⟨o, mem_levelsOrders.mpr ⟨pl, h1, hmem⟩, rfl, rfl⟩
  · rcases fillInLevel_mem_from id q pl.2 o hmem with h2 | ⟨h2, h3⟩
    · exact ⟨o, mem_levelsOrders.mpr ⟨(pl.1, (fillInLevel id q pl.2).1), h1, h2⟩, rfl, rfl⟩
    · exact ⟨(o.fill q).1,
        mem_levelsOrders.mpr ⟨(pl.1, (fillInLevel id q pl.2).1), h1, h3⟩,
        Order.fill_orderId o q, entryInfoOf_fill o q⟩

theorem fillInLevels_mem_order_ne {id q : Nat} {ls : Levels} {m : Order}
    (hm : m ∈ levelsOrders ls) (hne : m.orderId ≠ id) :
    m ∈ levelsOrders (fillInLevels id q ls).1 := by
  rcases mem_levelsOrders.mp hm with ⟨pl, hpl, hmem⟩
  rcases fillInLevels_mem_from id q ls pl hpl with h1 | h1
  · exact mem_levelsOrders.mpr ⟨pl, h1, hmem⟩
  · rcases fillInLevel_mem_from id q pl.2 m hmem with h2 | ⟨h2, _⟩
    · exact mem_levelsOrders.mpr ⟨(pl.1, (fillInLevel id q pl.2).1), h1, h2⟩
    · exact absurd h2 hne

/-- Filling one resting order in place keeps the book well-formed. -/
theorem fillOrderInBook_wf {b : Orderbook} (hwf : WFBook b) (id q : Nat) :
    WFBook (fillOrderInBook b id q).1 := by
  have hsideWf : ∀ (ls : Levels) (R : Int → Int → Prop),
      List.Pairwise (fun x y => R x.1 y.1) ls →
      List.Pairwise (fun x y => R x.1 y.1) (fillInLevels id q ls).1 := by
    intro ls R hs
    refine List.pairwise_map.mp ?_
    rw [fillInLevels_keys]
    exact List.pairwise_map.mpr hs
  have hsideNe : ∀ ls : Levels, (∀ pl ∈ ls, pl.2 ≠ []) →
      ∀ pl' ∈ (fillInLevels id q ls).1, pl'.2 ≠ [] := by
    intro ls hne pl' hpl'
    rcases fillInLevels_mem_to id q ls pl' hpl' with h1 | ⟨pl, h1, h2, h3⟩
    · exact hne pl' h1
    · intro hnil
      have h4 := fillInLevel_length id q pl.2
      rw [← h3, hnil] at h4
      exact hne pl h1 (List.length_eq_zero.mp h4.symm)
  have hsideSide : ∀ (ls : Levels) (s : Side),
      (∀ pl ∈ ls, ∀ o ∈ pl.2, o.side = s ∧ o.price = pl.1) →
      ∀ pl' ∈ (fillInLevels id q ls).1, ∀ o' ∈ pl'.2,
        o'.side = s ∧ o'.price = pl'.1 := by
    intro ls s hs pl' hpl' o' ho'
    rcases fillInLevels_mem_to id q ls pl' hpl' with h1 | ⟨pl, h1, h2, h3⟩
    · exact hs pl' h1 o' ho'
    · rw [h3] at ho'
      rcases fillInLevel_mem_to id q pl.2 o' ho' with h4 | ⟨o, h4, h5, h6⟩
      · have h7 := hs pl h1 o' h4
        rw [h2]
        exact h7
      · have h7 := hs pl h1 o h4
        rw [h6, h2]
        exact ⟨by rw [Order.fill_side]; exact h7.1, by rw [Order.fill_price]; exact h7.2⟩
  unfold fillOrderInBook
  cases hb : (fillInLevels id q b.bids).2 with
  | some ok =>
    dsimp only
    refine ⟨hsideWf b.bids (fun a c => c < a) hwf.bidsSorted, hwf.asksSorted,
      hsideNe b.bids hwf.bidsNonempty, hwf.asksNonempty,
      hsideSide b.bids Side.buy hwf.bidsSide, hwf.asksSide, ?_, hwf.idxKeysNodup, ?_, ?_⟩
    · show (idsOf (levelsOrders (fillInLevels id q b.bids).1 ++ levelsOrders b.asks)).Nodup
      rw [idsOf_append, fillInLevels_ids]
      rw [← idsOf_append]
      exact hwf.idsNodup
    · intro kv hkv
      rcases hwf.idxSound kv hkv with ⟨o, ho, hid, hinfo⟩
      rcases List.mem_append.mp ho with h1 | h1
      · rcases fillInLevels_order_from id q b.bids o h1 with ⟨o', ho', hid2, hinfo2⟩
        refine ⟨o', ?_, by rw [hid2]; exact hid, by rw [hinfo, ← hinfo2]⟩
        exact List.mem_append_left _ ho'
      · exact ⟨o, List.mem_append_right _ h1, hid, hinfo⟩
    · intro o' ho'
      have ho2 : o' ∈ levelsOrders (fillInLevels id q b.bids).1 ++ levelsOrders b.asks := ho'
      rcases List.mem_append.mp ho2 with h1 | h1
      · rcases fillInLevels_order_to id q b.bids o' h1 with ⟨o, ho, hid2, hinfo2, _⟩
        show lookupEntry b.orders o'.orderId = some (entryInfoOf o')
        rw [hid2, hinfo2]
        exact hwf.idxComplete o (List.mem_append_left _ ho)
      · exact hwf.idxComplete o' (List.mem_append_right _ h1)
  | none =>
    cases ha : (fillInLevels id q b.asks).2 with
    | some ok =>
      dsimp only
      refine ⟨hwf.bidsSorted, hsideWf b.asks (fun a c => a < c) hwf.asksSorted,
        hwf.bidsNonempty, hsideNe b.asks hwf.asksNonempty,
        hwf.bidsSide, hsideSide b.asks Side.sell hwf.asksSide, ?_, hwf.idxKeysNodup, ?_, ?_⟩
      · show (idsOf (levelsOrders b.bids ++ levelsOrders (fillInLevels id q b.asks).1)).Nodup
        rw [idsOf_append, fillInLevels_ids]
        rw [← idsOf_append]
        exact hwf.idsNodup
      · intro kv hkv
        rcases hwf.idxSound kv hkv with ⟨o, ho, hid, hinfo⟩
        rcases List.mem_append.mp ho with h1 | h1
        · exact ⟨o, List.mem_append_left _ h1, hid, hinfo⟩
        · rcases fillInLevels_order_from id q b.asks o h1 with ⟨o', ho', hid2, hinfo2⟩
          refine ⟨o', ?_, by rw [hid2]; exact hid, by rw [hinfo, ← hinfo2]⟩
          exact List.mem_append_right _ ho'
      · intro o' ho'
        have ho2 : o' ∈ levelsOrders b.bids ++ levelsOrders (fillInLevels id q b.asks).1 := ho'
        rcases List.mem_append.mp ho2 with h1 | h1
        · exact hwf.idxComplete o' (List.mem_append_left _ h1)
        · rcases fillInLevels_order_to id q b.asks o' h1 with ⟨o, ho, hid2, hinfo2, _⟩
          show lookupEntry b.orders o'.orderId = some (entryInfoOf o')
          rw [hid2, hinfo2]
          exact hwf.idxComplete o (List.mem_append_right _ ho)
    | none =>
      dsimp only
      exact hwf

theorem fillOrderInBook_mem_of_ne {b : Orderbook} {id q : Nat} {m : Order}
    (hm : m ∈ bookOrders b) (hne : m.orderId ≠ id) :
    m ∈ bookOrders (fillOrderInBook b id q).1 := by
  unfold fillOrderInBook
  cases hb : (fillInLevels id q b.bids).2 with
  | some ok =>
    dsimp only
    show m ∈ levelsOrders (fillInLevels id q b.bids).1 ++ levelsOrders b.asks
    rcases List.mem_append.mp hm with h1 | h1
    · exact List.mem_append_left _ (fillInLevels_mem_order_ne h1 hne)
    · exact List.mem_append_right _ h1
  | none =>
    cases ha : (fillInLevels id q b.asks).2 with
    | some ok =>
      dsimp only
      show m ∈ levelsOrders b.bids ++ levelsOrders (fillInLevels id q b.asks).1
      rcases List.mem_append.mp hm with h1 | h1
      · exact List.mem_append_left _ h1
      · exact List.mem_append_right _ (fillInLevels_mem_order_ne h1 hne)
    | none =>
      dsimp only
      exact hm

theorem fillOrderInBook_ok {b : Orderbook} (hwf : WFBook b) {m : Order} (q : Nat)
    (hm : m ∈ bookOrders b) :
    (fillOrderInBook b m.orderId q).2 = (m.fill q).2 := by
  have hids := hwf.idsNodup
  rw [show bookOrders b = levelsOrders b.bids ++ levelsOrders b.asks from rfl,
    idsOf_append] at hids
  rcases List.nodup_append.mp hids with ⟨hndb, hnda, hdis⟩
  unfold fillOrderInBook
  rcases List.mem_append.mp hm with h1 | h1
  · rw [fillInLevels_found_spec q hndb h1]
  · have hnotb : m.orderId ∉ sideIds b.bids := by
      intro hmem
      exact hdis hmem (List.mem_map.mpr ⟨m, h1, rfl⟩)
    rw [fillInLevels_not_found q hnotb]
    dsimp only
    rw [fillInLevels_found_spec q hnda h1]

theorem fillOrderInBook_keys (b : Orderbook) (id q : Nat) :
    (fillOrderInBook b id q).1.bids.map Prod.fst = b.bids.map Prod.fst ∧
    (fillOrderInBook b id q).1.asks.map Prod.fst = b.asks.map Prod.fst := by
  unfold fillOrderInBook
  cases hb : (fillInLevels id q b.bids).2 with
  | some ok =>
    dsimp only
    exact ⟨fillInLevels_keys id q b.bids, rfl⟩
  | none =>
    cases ha : (fillInLevels id q b.asks).2 with
    | some ok =>
      dsimp only
      exact ⟨rfl, fillInLevels_keys id q b.asks⟩
    | none =>
      dsimp only
      exact ⟨rfl, rfl⟩

/-- Sum of the match quantities of collected (order, quantity) pairs. -/
def pairSum : List (Order × Nat) → Nat
  | [] => 0
  | pr :: rest => pr.2 + pairSum rest

theorem collectLevel_fst_sublist (r : Nat) (l : List Order) :
    List.Sublist ((collectLevel r l).1.map Prod.fst) l := by
  induction l generalizing r with
  | nil => simp [collectLevel]
  | cons o rest ih =>
    simp only [collectLevel]
    split
    · simp
    · simpa using ih (r - min r o.remainingQuantity)

theorem collectLevel_qty (r : Nat) (l : List Order) :
    ∀ pr ∈ (collectLevel r l).1, pr.2 ≤ pr.1.remainingQuantity := by
  induction l generalizing r with
  | nil => simp [collectLevel]
  | cons o rest ih =>
    intro pr hpr
    simp only [collectLevel] at hpr
    split at hpr
    · rcases List.mem_singleton.mp hpr with h1
      rw [h1]
      simp
    · rcases List.mem_cons.mp hpr with h1 | h1
      · rw [h1]
        simp
      · exact ih (r - min r o.remainingQuantity) pr h1

theorem collectLevel_sum (r : Nat) (l : List Order) :
    pairSum (collectLevel r l).1 + (collectLevel r l).2 = r := by
  induction l generalizing r with
  | nil => simp [collectLevel, pairSum]
  | cons o rest ih =>
    simp only [collectLevel]
    split
    · next hz =>
      simp only [pairSum]
      omega
    · next hz =>
      have h1 := ih (r - min r o.remainingQuantity)
      simp only [pairSum]
      omega

theorem collectLevels_fst_sublist (cross : Int → Bool) (r : Nat) (ls : Levels) :
    List.Sublist ((collectLevels cross r ls).1.map Prod.fst) (levelsOrders ls) := by
  induction ls generalizing r with
  | nil => simp [collectLevels]
  | cons pl rest ih =>
    rcases pl with ⟨p, l⟩
    simp only [collectLevels]
    split
    · simp
    · split
      · show List.Sublist ((collectLevel r l).1.map Prod.fst) (l ++ levelsOrders rest)
        exact (collectLevel_fst_sublist r l).trans (List.sublist_append_left _ _)
      · show List.Sublist (((collectLevel r l).1 ++
          (collectLevels cross (collectLevel r l).2 rest).1).map Prod.fst)
          (l ++ levelsOrders rest)
        rw [List.map_append]
        exact (collectLevel_fst_sublist r l).append (ih (collectLevel r l).2)

theorem collectLevels_qty (cross : Int → Bool) (r : Nat) (ls : Levels) :
    ∀ pr ∈ (collectLevels cross r ls).1, pr.2 ≤ pr.1.remainingQuantity := by
  induction ls generalizing r with
  | nil => simp [collectLevels]
  | cons pl rest ih =>
    rcases pl with ⟨p, l⟩
    intro pr hpr
    simp only [collectLevels] at hpr
    split at hpr
    · simp at hpr
    · split at hpr
      · exact collectLevel_qty r l pr hpr
      · rcases List.mem_append.mp hpr with h1 | h1
        · exact collectLevel_qty r l pr h1
        · exact ih (collectLevel r l).2 pr h1

theorem pairSum_append (P1 P2 : List (Order × Nat)) :
    pairSum (P1 ++ P2) = pairSum P1 + pairSum P2 := by
  induction P1 with
  | nil => simp [pairSum]
  | cons pr rest ih => simp [pairSum, ih, Nat.add_assoc]

theorem collectLevels_sum (cross : Int → Bool) (r : Nat) (ls : Levels) :
    pairSum (collectLevels cross r ls).1 + (collectLevels cross r ls).2 = r := by
  induction ls generalizing r with
  | nil => simp [collectLevels, pairSum]
  | cons pl rest ih =>
    rcases pl with ⟨p, l⟩
    simp only [collectLevels]
    split
    · simp [pairSum]
    · split
      · next hz =>
        dsimp only
        have h1 := collectLevel_sum r l
        omega
      · next hz =>
        dsimp only
        have h1 := collectLevel_sum r l
        have h2 := ih (collectLevel r l).2
        rw [pairSum_append]
        omega

theorem fillOrderInBook_order_to (b : Orderbook) (id q : Nat) :
    ∀ o' ∈ bookOrders (fillOrderInBook b id q).1, ∃ o0 ∈ bookOrders b,
      o'.orderId = o0.orderId ∧ o'.orderType = o0.orderType := by
  unfold fillOrderInBook
  cases hb : (fillInLevels id q b.bids).2 with
  | some ok =>
    dsimp only
    intro o' ho'
    have ho2 : o' ∈ levelsOrders (fillInLevels id q b.bids).1 ++ levelsOrders b.asks := ho'
    rcases List.mem_append.mp ho2 with h1 | h1
    · rcases fillInLevels_order_to id q b.bids o' h1 with ⟨o0, h2, h3, h4, _⟩
      exact ⟨o0, List.mem_append_left _ h2, h3, congrArg EntryInfo.orderType h4⟩
    · exact ⟨o', List.mem_append_right _ h1, rfl, rfl⟩
  | none =>
    cases ha : (fillInLevels id q b.asks).2 with
    | some ok =>
      dsimp only
      intro o' ho'
      have ho2 : o' ∈ levelsOrders b.bids ++ levelsOrders (fillInLevels id q b.asks).1 := ho'
      rcases List.mem_append.mp ho2 with h1 | h1
      · exact ⟨o', List.mem_append_left _ h1, rfl, rfl⟩
      · rcases fillInLevels_order_to id q b.asks o' h1 with ⟨o0, h2, h3, h4, _⟩
        exact ⟨o0, List.mem_append_right _ h2, h3, congrArg EntryInfo.orderType h4⟩
    | none =>
      dsimp only
      intro o' ho'
      exact ⟨o', ho', rfl, rfl⟩

theorem executeMatches_wf (P : List (Order × Nat)) {b : Orderbook} (o : Order)
    (hwf : WFBook b) :
    WFBook (executeMatchesForFillOrKill o b P).2.2.1 := by
  induction P generalizing o b with
  | nil => exact hwf
  | cons pr rest ih =>
    rcases pr with ⟨mo, q⟩
    simp only [executeMatchesForFillOrKill]
    split
    · exact ih _ (cancelOrder_wf (fillOrderInBook_wf hwf _ _) _)
    · exact ih _ (fillOrderInBook_wf hwf _ _)

theorem executeMatches_order_to (P : List (Order × Nat)) (o : Order) (b : Orderbook) :
    ∀ o' ∈ bookOrders (executeMatchesForFillOrKill o b P).2.2.1,
      ∃ o0 ∈ bookOrders b, o'.orderId = o0.orderId ∧ o'.orderType = o0.orderType := by
  induction P generalizing o b with
  | nil => exact fun o' ho' => ⟨o', ho', rfl, rfl⟩
  | cons pr rest ih =>
    rcases pr with ⟨mo, q⟩
    simp only [executeMatchesForFillOrKill]
    intro o' ho'
    split at ho'
    · rcases ih _ _ o' ho' with ⟨o1, h1, hid1, hty1⟩
      rcases fillOrderInBook_order_to b mo.orderId q o1 (cancelOrder_sub h1) with
        ⟨o0, h2, hid2, hty2⟩
      exact ⟨o0, h2, by rw [hid1, hid2], by rw [hty1, hty2]⟩
    · rcases ih _ _ o' ho' with ⟨o1, h1, hid1, hty1⟩
      rcases fillOrderInBook_order_to b mo.orderId q o1 h1 with ⟨o0, h2, hid2, hty2⟩
      exact ⟨o0, h2, by rw [hid1, hid2], by rw [hty1, hty2]⟩

theorem executeMatches_keys (P : List (Order × Nat)) (o : Order) (b : Orderbook) :
    (∀ p ∈ (executeMatchesForFillOrKill o b P).2.2.1.bids.map Prod.fst,
      p ∈ b.bids.map Prod.fst) ∧
    (∀ p ∈ (executeMatchesForFillOrKill o b P).2.2.1.asks.map Prod.fst,
      p ∈ b.asks.map Prod.fst) := by
  induction P generalizing o b with
  | nil => exact ⟨fun p hp => hp, fun p hp => hp⟩
  | cons pr rest ih =>
    rcases pr with ⟨mo, q⟩
    simp only [executeMatchesForFillOrKill]
    have hkeys := fillOrderInBook_keys b mo.orderId q
    constructor
    · intro p hp
      split at hp
      · have h1 := (ih _ _).1 p hp
        have h2 := cancelOrder_bid_keys (fillOrderInBook b mo.orderId q).1 mo.orderId p h1
        rw [← hkeys.1]
        exact h2
      · have h1 := (ih _ _).1 p hp
        rw [← hkeys.1]
        exact h1
    · intro p hp
      split at hp
      · have h1 := (ih _ _).2 p hp
        have h2 := cancelOrder_ask_keys (fillOrderInBook b mo.orderId q).1 mo.orderId p h1
        rw [← hkeys.2]
        exact h2
      · have h1 := (ih _ _).2 p hp
        rw [← hkeys.2]
        exact h1

/-- Every Fill performed in the FillOrKill execution phase succeeds: the
collected quantities never exceed the remaining quantities at execution
time. -/
theorem executeMatches_ok (P : List (Order × Nat)) {b : Orderbook} {o : Order}
    (hwf : WFBook b)
    (hfind : ∀ pr ∈ P, pr.1 ∈ bookOrders b)
    (hq : ∀ pr ∈ P, pr.2 ≤ pr.1.remainingQuantity)
    (hnd : (P.map (fun pr => pr.1.orderId)).Nodup)
    (hsum : pairSum P ≤ o.remainingQuantity) :
    (executeMatchesForFillOrKill o b P).2.2.2 = true := by
  induction P generalizing o b with
  | nil => rfl
  | cons pr rest ih =>
    rcases pr with ⟨mo, q⟩
    have hmo : mo ∈ bookOrders b := hfind (mo, q) (List.mem_cons_self _ _)
    have hqmo : q ≤ mo.remainingQuantity := hq (mo, q) (List.mem_cons_self _ _)
    have hsum0 : q + pairSum rest ≤ o.remainingQuantity := by
      have h0 : pairSum ((mo, q) :: rest) = q + pairSum rest := rfl
      omega
    simp only [List.map_cons, List.nodup_cons] at hnd
    have hne : ∀ pr ∈ rest, pr.1.orderId ≠ mo.orderId := by
      intro pr hpr he
      exact hnd.1 (by rw [← he]; exact List.mem_map.mpr ⟨pr, hpr, rfl⟩)
    have hwfF : WFBook (fillOrderInBook b mo.orderId q).1 := fillOrderInBook_wf hwf _ _
    have hmemF : ∀ pr ∈ rest, pr.1 ∈ bookOrders (fillOrderInBook b mo.orderId q).1 :=
      fun pr hpr =>
        fillOrderInBook_mem_of_ne (hfind pr (List.mem_cons_of_mem _ hpr)) (hne pr hpr)
    have hq2 : ∀ pr ∈ rest, pr.2 ≤ pr.1.remainingQuantity :=
      fun pr hpr => hq pr (List.mem_cons_of_mem _ hpr)
    have hrem : (o.fill q).1.remainingQuantity = o.remainingQuantity - q :=
      Order.fill_remaining_of_le o q (by omega)
    have hsum2 : pairSum rest ≤ (o.fill q).1.remainingQuantity := by
      rw [hrem]
      omega
    have h1 : (o.fill q).2 = true := (Order.fill_ok_iff o q).mpr (by omega)
    have h2 : (fillOrderInBook b mo.orderId q).2 = (mo.fill q).2 :=
      fillOrderInBook_ok hwf q hmo
    have h3 : (mo.fill q).2 = true := (Order.fill_ok_iff mo q).mpr hqmo
    simp only [executeMatchesForFillOrKill]
    rw [h1, h2, h3]
    simp only [Bool.true_and]
    split
    · exact ih (cancelOrder_wf hwfF mo.orderId)
        (fun pr hpr => mem_cancelOrder_of_ne (hmemF pr hpr) (hne pr hpr))
        hq2 hnd.2 hsum2
    · exact ih hwfF hmemF hq2 hnd.2 hsum2

theorem collectMatches_mem {o : Order} {b : Orderbook} :
    ∀ pr ∈ (collectMatchesForFillOrKill o b).1, pr.1 ∈ bookOrders b := by
  unfold collectMatchesForFillOrKill
  split
  · intro pr hpr
    have h1 := (collectLevels_fst_sublist _ o.remainingQuantity b.asks).mem
      (List.mem_map.mpr ⟨pr, hpr, rfl⟩)
    exact List.mem_append_right _ h1
  · intro pr hpr
    have h1 := (collectLevels_fst_sublist _ o.remainingQuantity b.bids).mem
      (List.mem_map.mpr ⟨pr, hpr, rfl⟩)
    exact List.mem_append_left _ h1

theorem collectMatches_qty {o : Order} {b : Orderbook} :
    ∀ pr ∈ (collectMatchesForFillOrKill o b).1, pr.2 ≤ pr.1.remainingQuantity := by
  unfold collectMatchesForFillOrKill
  split
  · exact collectLevels_qty _ _ _
  · exact collectLevels_qty _ _ _

theorem collectMatches_nodup {o : Order} {b : Orderbook} (hwf : WFBook b) :
    ((collectMatchesForFillOrKill o b).1.map (fun pr => pr.1.orderId)).Nodup := by
  have hids := hwf.idsNodup
  rw [show bookOrders b = levelsOrders b.bids ++ levelsOrders b.asks from rfl,
    idsOf_append] at hids
  rcases List.nodup_append.mp hids with ⟨hndb, hnda, _⟩
  unfold collectMatchesForFillOrKill
  split
  · have hsub := collectLevels_fst_sublist (fun askPrice => askPrice ≤ o.price)
      o.remainingQuantity b.asks
    have h3 := hsub.map (fun x => x.orderId)
    rw [List.map_map] at h3
    exact List.Nodup.sublist h3 hnda
  · have hsub := collectLevels_fst_sublist (fun bidPrice => o.price ≤ bidPrice)
      o.remainingQuantity b.bids
    have h3 := hsub.map (fun x => x.orderId)
    rw [List.map_map] at h3
    exact List.Nodup.sublist h3 hndb

theorem collectMatches_sum (o : Order) (b : Orderbook) :
    pairSum (collectMatchesForFillOrKill o b).1 +
      (collectMatchesForFillOrKill o b).2 = o.remainingQuantity := by
  unfold collectMatchesForFillOrKill
  split
  · exact collectLevels_sum _ _ _
  · exact collectLevels_sum _ _ _

theorem matchFillOrKill_wf {o : Order} {b : Orderbook} (hwf : WFBook b) :
    WFBook (matchFillOrKill o b).book := by
  unfold matchFillOrKill
  dsimp only
  split
  · exact hwf
  · exact executeMatches_wf _ _ hwf

theorem matchFillOrKill_order_to (o : Order) (b : Orderbook) :
    ∀ o' ∈ bookOrders (matchFillOrKill o b).book,
      ∃ o0 ∈ bookOrders b, o'.orderId = o0.orderId ∧ o'.orderType = o0.orderType := by
  unfold matchFillOrKill
  dsimp only
  split
  · exact fun o' ho' => ⟨o', ho', rfl, rfl⟩
  · exact executeMatches_order_to _ _ _

theorem matchFillOrKill_keys (o : Order) (b : Orderbook) :
    (∀ p ∈ (matchFillOrKill o b).book.bids.map Prod.fst, p ∈ b.bids.map Prod.fst) ∧
    (∀ p ∈ (matchFillOrKill o b).book.asks.map Prod.fst, p ∈ b.asks.map Prod.fst) := by
  unfold matchFillOrKill
  dsimp only
  split
  · exact ⟨fun p hp => hp, fun p hp => hp⟩
  · exact executeMatches_keys _ _ _

/-- Every discarded Fill result in the FillOrKill path is true. -/
theorem matchFillOrKill_ok {o : Order} {b : Orderbook} (hwf : WFBook b) :
    (matchFillOrKill o b).fillsOk = true := by
  unfold matchFillOrKill
  dsimp only
  split
  · rfl
  · next hc =>
    have hsum := collectMatches_sum o b
    refine executeMatches_ok _ hwf collectMatches_mem collectMatches_qty
      (collectMatches_nodup hwf) ?_
    omega

theorem matchLoop_ok (fuel : Nat) (bids asks : Levels) (idx : List (Nat × EntryInfo)) :
    (matchLoop fuel bids asks idx).2.2.2.2 = true := by
  induction fuel generalizing bids asks idx with
  | zero => rfl
  | succ fuel ih =>
    match bids, asks with
    | [], asks => rfl
    | (bp, lb) :: restB, [] => rfl
    | (bp, lb) :: restB, (ap, la) :: restA =>
      rw [matchLoop]
      dsimp only
      split
      · rfl
      · rw [matchLevelLoop_ok, ih]
        rfl

theorem checkAndResetDay_orders_sub {b : Orderbook} {now : Nat} :
    ∀ o ∈ bookOrders (checkAndResetDay b now), o ∈ bookOrders b := by
  unfold checkAndResetDay
  split
  · intro o ho
    have ho2 : o ∈ bookOrders (cancelGoodForDayOrders b) := ho
    exact foldl_cancelOrder_sub ho2
  · exact fun o ho => ho

theorem lookup_none_of_valid {b : Orderbook} {o : Order}
    (h : (validateOrder b o).isValid = true) :
    lookupEntry b.orders o.orderId = none := by
  unfold validateOrder at h
  by_cases hs : (lookupEntry b.orders o.orderId).isSome
  · rw [if_pos hs] at h
    exact absurd h (by simp [OrderValidation.reject])
  · exact Option.not_isSome_iff_eq_none.mp hs

/-- The four claim-bearing facts about every AddOrder call on a
well-formed book: the result is well-formed, every discarded Fill result
was true, uncrossedness is preserved, and absence of resting
ImmediateOrCancel orders is preserved. -/
theorem addOrder_facts (o : Order) (now : Nat) {b : Orderbook} (hwf : WFBook b) :
    WFBook (addOrder o now b).book ∧
    (addOrder o now b).fillsOk = true ∧
    (allUncrossed b → allUncrossed (addOrder o now b).book) ∧
    ((∀ x ∈ bookOrders b, x.orderType ≠ OrderType.immediateOrCancel) →
      ∀ x ∈ bookOrders (addOrder o now b).book,
        x.orderType ≠ OrderType.immediateOrCancel) := by
  have hwf0 : WFBook (checkAndResetDay b now) := checkAndResetDay_wf now hwf
  have hu0 : allUncrossed b → allUncrossed (checkAndResetDay b now) :=
    checkAndResetDay_uncrossed now
  have hioc0 : (∀ x ∈ bookOrders b, x.orderType ≠ OrderType.immediateOrCancel) →
      ∀ x ∈ bookOrders (checkAndResetDay b now),
        x.orderType ≠ OrderType.immediateOrCancel :=
    fun h x hx => h x (checkAndResetDay_orders_sub x hx)
  unfold addOrder
  dsimp only
  split
  · exact ⟨hwf0, rfl, hu0, hioc0⟩
  · next order1 heq =>
    split
    · exact ⟨hwf0, rfl, hu0, hioc0⟩
    · next hvalid0 =>
      split
      · exact ⟨hwf0, rfl, hu0, hioc0⟩
      · split
        · refine ⟨matchFillOrKill_wf hwf0, matchFillOrKill_ok hwf0, ?_, ?_⟩
          · intro hu
            refine allUncrossed_mono ?_ ?_ (hu0 hu)
            · exact (matchFillOrKill_keys order1 (checkAndResetDay b now)).1
            · exact (matchFillOrKill_keys order1 (checkAndResetDay b now)).2
          · intro hpre x hx hty
            rcases matchFillOrKill_order_to order1 (checkAndResetDay b now) x hx with
              ⟨x0, hx0, _, hty0⟩
            exact hioc0 hpre x0 hx0 (by rw [← hty0, ← hty])
        · have hvalid : (validateOrder (checkAndResetDay b now) order1).isValid = true :=
            Bool.of_not_eq_false (fun hne => hvalid0 (by simp [hne]))
          have hfresh := lookup_none_of_valid hvalid
          have hwf3 : WFBook (insertOrder (checkAndResetDay b now) order1) :=
            insertOrder_wf hwf0 hfresh
          have hm := matchLoop_main
            (matchLoopFuel (insertOrder (checkAndResetDay b now) order1).bids
              (insertOrder (checkAndResetDay b now) order1).asks)
            (insertOrder (checkAndResetDay b now) order1).bids
            (insertOrder (checkAndResetDay b now) order1).asks
            (insertOrder (checkAndResetDay b now) order1).orders
            (le_refl _) (wf_mkBook_of_wf hwf3)
          have hwf4 : WFBook
              { insertOrder (checkAndResetDay b now) order1 with
                bids := (matchLoop
                  (matchLoopFuel (insertOrder (checkAndResetDay b now) order1).bids
                    (insertOrder (checkAndResetDay b now) order1).asks)
                  (insertOrder (checkAndResetDay b now) order1).bids
                  (insertOrder (checkAndResetDay b now) order1).asks
                  (insertOrder (checkAndResetDay b now) order1).orders).2.1,
                asks := (matchLoop
                  (matchLoopFuel (insertOrder (checkAndResetDay b now) order1).bids
                    (insertOrder (checkAndResetDay b now) order1).asks)
                  (insertOrder (checkAndResetDay b now) order1).bids
                  (insertOrder (checkAndResetDay b now) order1).asks
                  (insertOrder (checkAndResetDay b now) order1).orders).2.2.1,
                orders := (matchLoop
                  (matchLoopFuel (insertOrder (checkAndResetDay b now) order1).bids
                    (insertOrder (checkAndResetDay b now) order1).asks)
                  (insertOrder (checkAndResetDay b now) order1).bids
                  (insertOrder (checkAndResetDay b now) order1).asks
                  (insertOrder (checkAndResetDay b now) order1).orders).2.2.2.1 } :=
            wf_of_wf_mkBook hm.1
          refine ⟨cancelIocOrders_wf hwf4, matchLoop_ok _ _ _ _, ?_, ?_⟩
          · intro hu
            exact cancelIocOrders_uncrossed (allUncrossed_of_heads hwf4 hm.2.1)
          · intro hpre
            exact cancelIocOrders_no_ioc hwf4

/-- A book with cleared sides and index is well-formed. -/
theorem wf_empty_sides {b : Orderbook} (hb : b.bids = []) (ha : b.asks = [])
    (ho : b.orders = []) : WFBook b := by
  refine ⟨?_, ?_, ?_, ?_, ?_, ?_, ?_, ?_, ?_, ?_⟩
  · rw [hb]
    exact List.Pairwise.nil
  · rw [ha]
    exact List.Pairwise.nil
  · rw [hb]
    simp
  · rw [ha]
    simp
  · rw [hb]
    simp
  · rw [ha]
    simp
  · show (idsOf (levelsOrders b.bids ++ levelsOrders b.asks)).Nodup
    rw [hb, ha]
    simp [levelsOrders, idsOf]
  · rw [ho]
    simp
  · intro kv hkv
    rw [ho] at hkv
    cases hkv
  · intro o ho2
    have ho3 : o ∈ levelsOrders b.bids ++ levelsOrders b.asks := ho2
    rw [hb, ha] at ho3
    cases ho3

theorem lookup_none_of_ids_lt {b : Orderbook} {n : Nat} (hwf : WFBook b)
    (hids : ∀ id ∈ idsOf (bookOrders b), id < n) :
    lookupEntry b.orders n = none := by
  cases h : lookupEntry b.orders n with
  | none => rfl
  | some e =>
    exfalso
    rcases hwf.idxSound (n, e) (lookupEntry_mem h) with ⟨o, ho, hid, _⟩
    have h2 := hids o.orderId (List.mem_map.mpr ⟨o, ho, rfl⟩)
    rw [hid] at h2
    exact lt_irrefl _ h2

theorem insertOrder_ids (b : Orderbook) (o : Order) :
    ∀ id ∈ idsOf (bookOrders (insertOrder b o)),
      id = o.orderId ∨ id ∈ idsOf (bookOrders b) := by
  unfold insertOrder
  split
  · intro id hid
    rcases List.mem_map.mp hid with ⟨o', ho', he⟩
    have ho2 : o' ∈ levelsOrders (insertIntoLevels (fun x y => decide (y < x)) o.price o b.bids) ++
        levelsOrders b.asks := ho'
    rcases List.mem_append.mp ho2 with h1 | h1
    · rcases List.mem_cons.mp ((insertIntoLevels_orders_perm _ o.price o b.bids).subset h1) with
        h2 | h2
      · left
        rw [← he, h2]
      · right
        rw [← he]
        exact List.mem_map.mpr ⟨o', List.mem_append_left _ h2, rfl⟩
    · right
      rw [← he]
      exact List.mem_map.mpr ⟨o', List.mem_append_right _ h1, rfl⟩
  · intro id hid
    rcases List.mem_map.mp hid with ⟨o', ho', he⟩
    have ho2 : o' ∈ levelsOrders b.bids ++
        levelsOrders (insertIntoLevels (fun x y => decide (x < y)) o.price o b.asks) := ho'
    rcases List.mem_append.mp ho2 with h1 | h1
    · right
      rw [← he]
      exact List.mem_map.mpr ⟨o', List.mem_append_left _ h1, rfl⟩
    · rcases List.mem_cons.mp ((insertIntoLevels_orders_perm _ o.price o b.asks).subset h1) with
        h2 | h2
      · left
        rw [← he, h2]
      · right
        rw [← he]
        exact List.mem_map.mpr ⟨o', List.mem_append_right _ h2, rfl⟩

theorem insertOrder_keys_buy {b : Orderbook} {o : Order} (hs : o.side = Side.buy) :
    (insertOrder b o).asks = b.asks ∧
    (∀ p ∈ (insertOrder b o).bids.map Prod.fst, p = o.price ∨ p ∈ b.bids.map Prod.fst) := by
  unfold insertOrder
  rw [if_pos hs]
  exact ⟨rfl, insertIntoLevels_keys _ o.price o b.bids⟩

theorem insertOrder_keys_sell {b : Orderbook} {o : Order} (hs : ¬o.side = Side.buy) :
    (insertOrder b o).bids = b.bids ∧
    (∀ p ∈ (insertOrder b o).asks.map Prod.fst, p = o.price ∨ p ∈ b.asks.map Prod.fst) := by
  unfold insertOrder
  rw [if_neg hs]
  exact ⟨rfl, insertIntoLevels_keys _ o.price o b.asks⟩

/-- Invariants carried through one snapshot rebuild phase: well-formedness,
the synthetic id bound, the untouched opposite side, and the origin of
every price key on the rebuilt side. -/
theorem foldl_snapshotInsert_facts (side : Side) (levels : List SnapshotLevel)
    (acc : Orderbook × Nat) (hwf : WFBook acc.1)
    (hids : ∀ id ∈ idsOf (bookOrders acc.1), id < acc.2) :
    WFBook (levels.foldl (snapshotInsert side) acc).1 ∧
    (∀ id ∈ idsOf (bookOrders (levels.foldl (snapshotInsert side) acc).1),
      id < (levels.foldl (snapshotInsert side) acc).2) ∧
    (side = Side.buy → (levels.foldl (snapshotInsert side) acc).1.asks = acc.1.asks) ∧
    (side = Side.sell → (levels.foldl (snapshotInsert side) acc).1.bids = acc.1.bids) ∧
    (∀ p ∈ (levels.foldl (snapshotInsert side) acc).1.bids.map Prod.fst,
      p ∈ acc.1.bids.map Prod.fst ∨
        (side = Side.buy ∧ ∃ l ∈ levels, l.quantity ≠ 0 ∧ p = l.price)) ∧
    (∀ p ∈ (levels.foldl (snapshotInsert side) acc).1.asks.map Prod.fst,
      p ∈ acc.1.asks.map Prod.fst ∨
        (side = Side.sell ∧ ∃ l ∈ levels, l.quantity ≠ 0 ∧ p = l.price)) := by
  induction levels generalizing acc with
  | nil =>
    exact ⟨hwf, hids, fun _ => rfl, fun _ => rfl, fun p hp => Or.inl hp,
      fun p hp => Or.inl hp⟩
  | cons lv rest ih =>
    rw [List.foldl_cons]
    by_cases hz : lv.quantity = 0
    · have hstep : snapshotInsert side acc lv = acc := by
        unfold snapshotInsert
        rw [if_pos hz]
      rw [hstep]
      rcases ih acc hwf hids with ⟨w1, w2, w3, w4, w5, w6⟩
      refine ⟨w1, w2, w3, w4, ?_, ?_⟩
      · intro p hp
        rcases w5 p hp with h1 | ⟨h1, l, h2, h3⟩
        · exact Or.inl h1
        · exact Or.inr ⟨h1, l, List.mem_cons_of_mem _ h2, h3⟩
      · intro p hp
        rcases w6 p hp with h1 | ⟨h1, l, h2, h3⟩
        · exact Or.inl h1
        · exact Or.inr ⟨h1, l, List.mem_cons_of_mem _ h2, h3⟩
    · have hstep : snapshotInsert side acc lv =
          (insertOrder acc.1 ⟨OrderType.goodTillCancel, acc.2, side, lv.price,
            lv.quantity, lv.quantity⟩, acc.2 + 1) := by
        unfold snapshotInsert
        rw [if_neg hz]
      rw [hstep]
      have hfresh : lookupEntry acc.1.orders acc.2 = none :=
        lookup_none_of_ids_lt hwf hids
      have hwf2 : WFBook (insertOrder acc.1 ⟨OrderType.goodTillCancel, acc.2, side,
          lv.price, lv.quantity, lv.quantity⟩) := insertOrder_wf hwf hfresh
      have hids2 : ∀ id ∈ idsOf (bookOrders (insertOrder acc.1
          ⟨OrderType.goodTillCancel, acc.2, side, lv.price, lv.quantity, lv.quantity⟩)),
          id < acc.2 + 1 := by
        intro id hid
        rcases insertOrder_ids acc.1 _ id hid with h1 | h1
        · dsimp only at h1
          omega
        · have := hids id h1
          omega
      rcases ih (insertOrder acc.1 ⟨OrderType.goodTillCancel, acc.2, side, lv.price,
          lv.quantity, lv.quantity⟩, acc.2 + 1) hwf2 hids2 with ⟨w1, w2, w3, w4, w5, w6⟩
      cases side with
      | buy =>
        rcases insertOrder_keys_buy (b := acc.1)
          (o := ⟨OrderType.goodTillCancel, acc.2, Side.buy, lv.price, lv.quantity,
            lv.quantity⟩) rfl with ⟨hk1, hk2⟩
        refine ⟨w1, w2, ?_, ?_, ?_, ?_⟩
        · intro hs
          rw [w3 hs, hk1]
        · intro hs
          cases hs
        · intro p hp
          rcases w5 p hp with h1 | ⟨_, l, h2, h3⟩
          · rcases hk2 p h1 with h4 | h4
            · exact Or.inr ⟨rfl, lv, List.mem_cons_self _ _, hz, h4⟩
            · exact Or.inl h4
          · exact Or.inr ⟨rfl, l, List.mem_cons_of_mem _ h2, h3⟩
        · intro p hp
          rcases w6 p hp with h1 | ⟨h1, _⟩
          · rw [hk1] at h1
            exact Or.inl h1
          · cases h1
      | sell =>
        rcases insertOrder_keys_sell (b := acc.1)
          (o := ⟨OrderType.goodTillCancel, acc.2, Side.sell, lv.price, lv.quantity,
            lv.quantity⟩) (by simp) with ⟨hk1, hk2⟩
        refine ⟨w1, w2, ?_, ?_, ?_, ?_⟩
        · intro hs
          cases hs
        · intro hs
          rw [w4 hs, hk1]
        · intro p hp
          rcases w5 p hp with h1 | ⟨h1, _⟩
          · rw [hk1] at h1
            exact Or.inl h1
          · cases h1
        · intro p hp
          rcases w6 p hp with h1 | ⟨_, l, h2, h3⟩
          · rcases hk2 p h1 with h4 | h4
            · exact Or.inr ⟨rfl, lv, List.mem_cons_self _ _, hz, h4⟩
            · exact Or.inl h4
          · exact Or.inr ⟨rfl, l, List.mem_cons_of_mem _ h2, h3⟩

/-- A snapshot whose (nonzero) bid levels all price strictly below its
(nonzero) ask levels. -/
def snapshotUncrossed (msg : BookSnapshotMessage) : Prop :=
  ∀ bl ∈ msg.bids, ∀ al ∈ msg.asks,
    bl.quantity ≠ 0 → al.quantity ≠ 0 → bl.price < al.price

theorem processSnapshot_wf (msg : BookSnapshotMessage) (b : Orderbook) :
    WFBook (processSnapshot msg b) := by
  unfold processSnapshot
  dsimp only
  have hwf1 : WFBook { b with bids := [], asks := [], orders := [] } :=
    wf_empty_sides rfl rfl rfl
  have h1 := foldl_snapshotInsert_facts Side.buy msg.bids
    ({ b with bids := [], asks := [], orders := [] }, syntheticIdBase) hwf1
    (by intro id hid; simp [bookOrders, levelsOrders, idsOf] at hid)
  have h2 := foldl_snapshotInsert_facts Side.sell msg.asks
    (msg.bids.foldl (snapshotInsert Side.buy)
      ({ b with bids := [], asks := [], orders := [] }, syntheticIdBase)) h1.1 h1.2.1
  exact wf_of_eq_state h2.1 rfl rfl rfl

theorem processSnapshot_uncrossed (msg : BookSnapshotMessage) (b : Orderbook)
    (hmsg : snapshotUncrossed msg) : allUncrossed (processSnapshot msg b) := by
  unfold processSnapshot
  dsimp only
  have hwf1 : WFBook { b with bids := [], asks := [], orders := [] } :=
    wf_empty_sides rfl rfl rfl
  have h1 := foldl_snapshotInsert_facts Side.buy msg.bids
    ({ b with bids := [], asks := [], orders := [] }, syntheticIdBase) hwf1
    (by intro id hid; simp [bookOrders, levelsOrders, idsOf] at hid)
  have h2 := foldl_snapshotInsert_facts Side.sell msg.asks
    (msg.bids.foldl (snapshotInsert Side.buy)
      ({ b with bids := [], asks := [], orders := [] }, syntheticIdBase)) h1.1 h1.2.1
  intro p hp q hq
  have hp2 : p ∈ (msg.asks.foldl (snapshotInsert Side.sell)
      (msg.bids.foldl (snapshotInsert Side.buy)
        ({ b with bids := [], asks := [], orders := [] }, syntheticIdBase))).1.bids.map
        Prod.fst := hp
  have hq2 : q ∈ (msg.asks.foldl (snapshotInsert Side.sell)
      (msg.bids.foldl (snapshotInsert Side.buy)
        ({ b with bids := [], asks := [], orders := [] }, syntheticIdBase))).1.asks.map
        Prod.fst := hq
  rw [h2.2.2.2.1 rfl] at hp2
  rcases h1.2.2.2.2.1 p hp2 with h3 | ⟨_, bl, h3, h4, h5⟩
  · simp at h3
  · rcases h2.2.2.2.2.2 q hq2 with h6 | ⟨_, al, h6, h7, h8⟩
    · rw [h1.2.2.1 rfl] at h6
      simp at h6
    · rw [h5, h8]
      exact hmsg bl h3 al h6 h4 h7

theorem matchOrder_facts (m : OrderModify) (now : Nat) {b : Orderbook}
    (hwf : WFBook b) :
    WFBook (matchOrder m now b).2 ∧
    (allUncrossed b → allUncrossed (matchOrder m now b).2) := by
  have hwf0 : WFBook (checkAndResetDay b now) := checkAndResetDay_wf now hwf
  unfold matchOrder
  dsimp only
  split
  · exact ⟨hwf0, checkAndResetDay_uncrossed now⟩
  · next e heq =>
    have hwf1 : WFBook (cancelOrder (checkAndResetDay b now) m.orderId) :=
      cancelOrder_wf hwf0 _
    have hfacts := addOrder_facts (m.toOrder e.orderType) now hwf1
    refine ⟨hfacts.1, ?_⟩
    intro hu
    exact hfacts.2.2.1 (cancelOrder_uncrossed _ (checkAndResetDay_uncrossed now hu))

theorem processMarketData_facts (msg : MarketDataMessage) (now : Nat) {b : Orderbook}
    (hwf : WFBook b) :
    WFBook (processMarketData msg now b).2 ∧
    (allUncrossed b →
      (∀ m, msg = MarketDataMessage.bookSnapshotMsg m → snapshotUncrossed m) →
      allUncrossed (processMarketData msg now b).2) := by
  unfold processMarketData
  cases msg with
  | newOrderMsg m =>
    dsimp only
    have hfacts := addOrder_facts ⟨m.orderType, m.orderId, m.side, m.price,
      m.quantity, m.quantity⟩ now hwf
    constructor
    · refine wf_of_eq_state (wf_of_eq_state hfacts.1 rfl rfl rfl) rfl rfl rfl
    · intro hu _
      refine allUncrossed_of_eq_sides rfl rfl
        (allUncrossed_of_eq_sides rfl rfl (hfacts.2.2.1 hu))
  | cancelOrderMsg m =>
    dsimp only
    constructor
    · exact wf_of_eq_state (wf_of_eq_state (cancelOrder_wf hwf m.orderId) rfl rfl rfl)
        rfl rfl rfl
    · intro hu _
      exact allUncrossed_of_eq_sides rfl rfl
        (allUncrossed_of_eq_sides rfl rfl (cancelOrder_uncrossed m.orderId hu))
  | modifyOrderMsg m =>
    dsimp only
    have hfacts := matchOrder_facts ⟨m.orderId, m.newPrice, m.side, m.newQuantity⟩ now hwf
    constructor
    · exact wf_of_eq_state (wf_of_eq_state hfacts.1 rfl rfl rfl) rfl rfl rfl
    · intro hu _
      exact allUncrossed_of_eq_sides rfl rfl
        (allUncrossed_of_eq_sides rfl rfl (hfacts.2 hu))
  | tradeMsg m =>
    dsimp only
    constructor
    · exact wf_of_eq_state (wf_of_eq_state hwf rfl rfl rfl) rfl rfl rfl
    · intro hu _
      exact allUncrossed_of_eq_sides rfl rfl (allUncrossed_of_eq_sides rfl rfl hu)
  | bookSnapshotMsg m =>
    dsimp only
    constructor
    · exact wf_of_eq_state (processSnapshot_wf m b) rfl rfl rfl
    · intro _ hsnap
      exact allUncrossed_of_eq_sides rfl rfl
        (processSnapshot_uncrossed m b (hsnap m rfl))

/-- Book states reachable from a fresh book through the public operations,
with every ingested snapshot itself uncrossed. -/
inductive ReachableU : Orderbook → Prop where
  | init (now : Nat) : ReachableU (initialBook now)
  | add (o : Order) (now : Nat) {b : Orderbook} :
      ReachableU b → ReachableU (addOrder o now b).book
  | cancel (id : Nat) {b : Orderbook} :
      ReachableU b → ReachableU (cancelOrder b id)
  | modify (m : OrderModify) (now : Nat) {b : Orderbook} :
      ReachableU b → ReachableU (matchOrder m now b).2
  | market (msg : MarketDataMessage) (now : Nat) {b : Orderbook}
      (hsnap : ∀ m, msg = MarketDataMessage.bookSnapshotMsg m → snapshotUncrossed m) :
      ReachableU b → ReachableU (processMarketData msg now b).2

/-- Every reachable book (with uncrossed snapshots) is well-formed and
uncrossed. -/
theorem reachableU_wf_uncrossed {b : Orderbook} (h : ReachableU b) :
    WFBook b ∧ allUncrossed b := by
  induction h with
  | init now =>
    refine ⟨wf_empty_sides rfl rfl rfl, ?_⟩
    intro p hp
    simp [bidPriceKeys, initialBook] at hp
  | add o now hr ih =>
    have hfacts := addOrder_facts o now ih.1
    exact ⟨hfacts.1, hfacts.2.2.1 ih.2⟩
  | cancel id hr ih =>
    exact ⟨cancelOrder_wf ih.1 id, cancelOrder_uncrossed id ih.2⟩
  | modify m now hr ih =>
    have hfacts := matchOrder_facts m now ih.1
    exact ⟨hfacts.1, hfacts.2 ih.2⟩
  | market msg now hsnap hr ih =>
    have hfacts := processMarketData_facts msg now ih.1
    exact ⟨hfacts.1, hfacts.2 ih.2 hsnap⟩

theorem sellBook_wf : WFBook sellBook :=
  ⟨by decide, by decide, by decide, by decide, by decide, by decide, by decide,
    by decide, by decide, by decide⟩

/-- C10: every Order::Fill performed by the matching paths of an AddOrder
call on a well-formed book is within the remaining quantity, so the
discarded Fill results (collected as the conjunction fillsOk) are all
true. -/
theorem c10_fills_always_ok (o : Order) (now : Nat) (b : Orderbook)
    (hwf : WFBook b) : (addOrder o now b).fillsOk = true :=
  (addOrder_facts o now hwf).2.1

/-- C10 witness: a GoodTillCancel buy crossing a resting sell fills within
remaining quantities. -/
theorem c10_fills_always_ok_witness :
    (addOrder ⟨OrderType.goodTillCancel, 2, Side.buy, 100, 3, 3⟩ 0 sellBook).fillsOk =
      true :=
  c10_fills_always_ok ⟨OrderType.goodTillCancel, 2, Side.buy, 100, 3, 3⟩ 0 sellBook
    sellBook_wf

/-- C5: if no resting order of a well-formed book has type
ImmediateOrCancel, the same holds after any AddOrder call: a non-matching
IOC is rejected without insertion, and IOC residue after the crossing
loop is removed by the sweep. -/
theorem c5_no_resting_ioc (o : Order) (now : Nat) (b : Orderbook)
    (hwf : WFBook b)
    (hpre : ∀ x ∈ bookOrders b, x.orderType ≠ OrderType.immediateOrCancel) :
    ∀ x ∈ bookOrders (addOrder o now b).book,
      x.orderType ≠ OrderType.immediateOrCancel :=
  (addOrder_facts o now hwf).2.2.2 hpre

/-- C5 witness: an IOC buy that partially fills against the resting sell
leaves no resting IOC behind (its residue is swept). -/
theorem c5_no_resting_ioc_witness :
    (bookOrders (addOrder ⟨OrderType.immediateOrCancel, 2, Side.buy, 100, 9, 9⟩ 0
      sellBook).book).filter
        (fun x => x.orderType == OrderType.immediateOrCancel) = [] := by
  have h := c5_no_resting_ioc ⟨OrderType.immediateOrCancel, 2, Side.buy, 100, 9, 9⟩ 0
    sellBook sellBook_wf (by decide)
  rw [List.filter_eq_nil_iff]
  intro x hx
  simpa using h x hx

/-- C1 (amended): every book reached from a fresh book by public
operations whose ingested snapshots are themselves uncrossed has every
bid price strictly below every ask price. -/
theorem c1_no_crossed_book (b : Orderbook) (h : ReachableU b) :
    ∀ p ∈ bidPriceKeys b, ∀ q ∈ askPriceKeys b, p < q :=
  (reachableU_wf_uncrossed h).2

/-- C1 witness: after adding a bid and an ask that do not cross, the
reachable book is uncrossed. -/
theorem c1_no_crossed_book_witness :
    (bidPriceKeys (addOrder ⟨OrderType.goodTillCancel, 2, Side.buy, 95, 5, 5⟩ 0
        sellBook).book).all
      (fun p => (askPriceKeys (addOrder ⟨OrderType.goodTillCancel, 2, Side.buy, 95, 5, 5⟩ 0
        sellBook).book).all (fun q => decide (p < q))) = true := by
  have h := c1_no_crossed_book _
    (ReachableU.add ⟨OrderType.goodTillCancel, 2, Side.buy, 95, 5, 5⟩ 0
      (ReachableU.add ⟨OrderType.goodTillCancel, 1, Side.sell, 100, 5, 5⟩ 0
        (ReachableU.init 0)))
  refine List.all_eq_true.mpr ?_
  intro p hp
  refine List.all_eq_true.mpr ?_
  intro q hq
  exact decide_eq_true (h p hp q hq)

/-- A crossed snapshot message: a bid level at 105 above an ask level at
100. -/
def crossedSnapshotMsg : BookSnapshotMessage :=
  ⟨[⟨105, 10, 1⟩], [⟨100, 10, 1⟩], 1⟩

/-- The book produced by feeding the crossed snapshot through
ProcessMarketData. -/
def crossedSnapBook : Orderbook :=
  (processMarketData (MarketDataMessage.bookSnapshotMsg crossedSnapshotMsg) 0
    (initialBook 0)).2

/-- C1 counterexample: ProcessMarketData installs a crossed snapshot
verbatim, so a book reachable by public operations (without the amended
snapshot restriction) has a bid price at or above an ask price. -/
theorem c1_counterexample :
    105 ∈ bidPriceKeys crossedSnapBook ∧ 100 ∈ askPriceKeys crossedSnapBook ∧
      ¬(105 < 100) := by
  refine ⟨by decide, by decide, by decide⟩

theorem matchLevelLoop_nil_left (fuel : Nat) (la : List Order) :
    matchLevelLoop fuel [] la = ([], [], [], la, true) := by
  cases fuel <;> rfl

/-- The inner crossing loop with a single (aggressor) order on the bid
side: either the aggressor is fully consumed and popped, or the ask queue
is exhausted and the aggressor survives with its remaining quantity
reduced by exactly the traded total. -/
theorem matchLevelLoop_single (fuel : Nat) (agg : Order) (la : List Order)
    (hfuel : 1 + la.length ≤ fuel) :
    ((matchLevelLoop fuel [agg] la).2.2.1 = [] ∧
      sumTradeQty (matchLevelLoop fuel [agg] la).1 = agg.remainingQuantity) ∨
    ((matchLevelLoop fuel [agg] la).2.2.1 =
        [{ agg with remainingQuantity :=
            agg.remainingQuantity - sumTradeQty (matchLevelLoop fuel [agg] la).1 }] ∧
      (matchLevelLoop fuel [agg] la).2.2.2.1 = [] ∧
      sumTradeQty (matchLevelLoop fuel [agg] la).1 ≤ agg.remainingQuantity) := by
  induction fuel generalizing agg la with
  | zero => omega
  | succ fuel ih =>
    match la with
    | [] =>
      right
      refine ⟨?_, rfl, ?_⟩
      · show [agg] = [{ agg with remainingQuantity := agg.remainingQuantity - sumTradeQty [] }]
        simp [sumTradeQty]
      · show sumTradeQty [] ≤ agg.remainingQuantity
        simp [sumTradeQty]
    | ask :: restA =>
      rw [matchLevelLoop]
      dsimp only
      have hmin : min agg.remainingQuantity ask.remainingQuantity ≤ agg.remainingQuantity :=
        Nat.min_le_left _ _
      have hbrem : (agg.fill (min agg.remainingQuantity ask.remainingQuantity)).1.remainingQuantity =
          agg.remainingQuantity - min agg.remainingQuantity ask.remainingQuantity :=
        Order.fill_remaining_of_le _ _ hmin
      split
      · next hbz =>
        split
        · left
          rw [matchLevelLoop_nil_left]
          dsimp only
          constructor
          · rfl
          · show min agg.remainingQuantity ask.remainingQuantity + sumTradeQty [] =
              agg.remainingQuantity
            simp only [sumTradeQty]
            omega
        · left
          rw [matchLevelLoop_nil_left]
          dsimp only
          constructor
          · rfl
          · show min agg.remainingQuantity ask.remainingQuantity + sumTradeQty [] =
              agg.remainingQuantity
            simp only [sumTradeQty]
            omega
      · next hbz =>
        have hb : (agg.fill (min agg.remainingQuantity ask.remainingQuantity)).1 =
            { agg with remainingQuantity :=
                agg.remainingQuantity - min agg.remainingQuantity ask.remainingQuantity } := by
          rw [Order.fill_eq_update, hbrem]
        have hlt : min agg.remainingQuantity ask.remainingQuantity < agg.remainingQuantity := by
          omega
        rw [hb]
        have hih := ih { agg with remainingQuantity :=
            agg.remainingQuantity - min agg.remainingQuantity ask.remainingQuantity } restA
          (by simp only [List.length_cons] at hfuel; omega)
        rcases hih with ⟨h1, h2⟩ | ⟨h1, h2, h3⟩
        · left
          dsimp only at h2
          refine ⟨h1, ?_⟩
          show min agg.remainingQuantity ask.remainingQuantity +
            sumTradeQty (matchLevelLoop fuel
              [{ agg with remainingQuantity :=
                  agg.remainingQuantity - min agg.remainingQuantity ask.remainingQuantity }]
              restA).1 = agg.remainingQuantity
          rw [h2]
          omega
        · right
          dsimp only at h1 h3
          refine ⟨?_, h2, ?_⟩
          · show (matchLevelLoop fuel
              [{ agg with remainingQuantity :=
                  agg.remainingQuantity - min agg.remainingQuantity ask.remainingQuantity }]
              restA).2.2.1 = _
            rw [h1]
            have harith : agg.remainingQuantity -
                min agg.remainingQuantity ask.remainingQuantity -
                sumTradeQty (matchLevelLoop fuel
                  [{ agg with remainingQuantity :=
                      agg.remainingQuantity - min agg.remainingQuantity ask.remainingQuantity }]
                  restA).1 =
                agg.remainingQuantity - (min agg.remainingQuantity ask.remainingQuantity +
                  sumTradeQty (matchLevelLoop fuel
                    [{ agg with remainingQuantity :=
                        agg.remainingQuantity - min agg.remainingQuantity ask.remainingQuantity }]
                    restA).1) := by
              omega
            rw [harith]
            rfl
          · show min agg.remainingQuantity ask.remainingQuantity +
              sumTradeQty (matchLevelLoop fuel
                [{ agg with remainingQuantity :=
                    agg.remainingQuantity - min agg.remainingQuantity ask.remainingQuantity }]
                restA).1 ≤ agg.remainingQuantity
            omega

/-- The outer loop does nothing when every bid price is below every ask
price. -/
theorem matchLoop_stop (fuel : Nat) (bids asks : Levels) (idx : List (Nat × EntryInfo))
    (h : ∀ kb ∈ bids.map Prod.fst, ∀ ka ∈ asks.map Prod.fst, kb < ka) :
    matchLoop fuel bids asks idx = ([], bids, asks, idx, true) := by
  cases fuel with
  | zero => rfl
  | succ fuel =>
    match bids, asks with
    | [], asks => rw [matchLoop]
    | (bp, lb) :: restB, [] => rw [matchLoop]
    | (bp, lb) :: restB, (ap, la) :: restA =>
      rw [matchLoop]
      have hlt : bp < ap := h bp (by simp) ap (by simp)
      rw [if_pos hlt]

/-- The crossing loop run right after inserting an aggressor that sits
alone at a strictly best bid level: either the aggressor is fully
consumed and its level dropped, or it survives at its level reduced by
exactly the traded total; in both cases the rest of the bid side is
untouched. -/
theorem matchLoop_aggr (fuel : Nat) (p : Int) (agg : Order) (restB asks : Levels)
    (idx : List (Nat × EntryInfo))
    (hfuel : matchLoopFuel ((p, [agg]) :: restB) asks ≤ fuel)
    (hwf : WFBook (mkBook ((p, [agg]) :: restB) asks idx))
    (hkeys : ∀ kb ∈ restB.map Prod.fst, ∀ ka ∈ asks.map Prod.fst, kb < ka) :
    ((matchLoop fuel ((p, [agg]) :: restB) asks idx).2.1 = restB ∧
      sumTradeQty (matchLoop fuel ((p, [agg]) :: restB) asks idx).1 =
        agg.remainingQuantity) ∨
    ((matchLoop fuel ((p, [agg]) :: restB) asks idx).2.1 =
        (p, [{ agg with remainingQuantity := agg.remainingQuantity - sumTradeQty (matchLoop fuel ((p, [agg]) :: restB) asks idx).1 }]) :: restB ∧
      sumTradeQty (matchLoop fuel ((p, [agg]) :: restB) asks idx).1 ≤
        agg.remainingQuantity) := by
  induction fuel generalizing agg asks idx with
  | zero =>
    unfold matchLoopFuel at hfuel
    simp [levelsSize] at hfuel
  | succ fuel ih =>
    match asks, hfuel, hwf, hkeys with
    | [], hfuel, hwf, hkeys =>
      rw [matchLoop]
      right
      constructor
      · show (p, [agg]) :: restB = (p, [{ agg with remainingQuantity := agg.remainingQuantity - sumTradeQty [] }]) :: restB
        simp [sumTradeQty]
      · show sumTradeQty [] ≤ agg.remainingQuantity
        simp [sumTradeQty]
    | (ap, la) :: restA, hfuel, hwf, hkeys =>
      rw [matchLoop]
      dsimp only
      split
      · right
        constructor
        · show (p, [agg]) :: restB = (p, [{ agg with remainingQuantity := agg.remainingQuantity - sumTradeQty [] }]) :: restB
          simp [sumTradeQty]
        · show sumTradeQty [] ≤ agg.remainingQuantity
          simp [sumTradeQty]
      · next hge =>
        have hevol := matchLevelLoop_evol ([agg].length + la.length) [agg] la
        have hperm := matchLevelLoop_perm ([agg].length + la.length) [agg] la
        have hsingle := matchLevelLoop_single ([agg].length + la.length) agg la (by simp)
        have hlane : la ≠ [] := hwf.asksNonempty (ap, la) (List.mem_cons_self _ _)
        have hlalen : 1 ≤ la.length := List.length_pos.mpr hlane
        rcases hsingle with ⟨hpop, hsum⟩ | ⟨hrest, hla, hle⟩
        · rw [if_pos hpop]
          have hcond : ∀ kb ∈ restB.map Prod.fst,
              ∀ ka ∈ (if (matchLevelLoop ([agg].length + la.length) [agg] la).2.2.2.1 = []
               then restA
               else (ap, (matchLevelLoop ([agg].length + la.length) [agg] la).2.2.2.1) ::
                 restA).map Prod.fst, kb < ka := by
            intro kb hkb ka hka
            refine hkeys kb hkb ka ?_
            split at hka
            · exact List.mem_cons_of_mem _ hka
            · simp only [List.map_cons, List.mem_cons] at hka
              rcases hka with h1 | h1
              · rw [h1]
                simp
              · exact List.mem_cons_of_mem _ h1
          rw [matchLoop_stop fuel restB
            (if (matchLevelLoop ([agg].length + la.length) [agg] la).2.2.2.1 = []
             then restA
             else (ap, (matchLevelLoop ([agg].length + la.length) [agg] la).2.2.2.1) :: restA)
            ((matchLevelLoop ([agg].length + la.length) [agg] la).2.1.foldl eraseEntry idx)
            hcond]
          left
          constructor
          · rfl
          · show sumTradeQty ((matchLevelLoop ([agg].length + la.length) [agg] la).1 ++ []) =
              agg.remainingQuantity
            rw [sumTradeQty_append]
            simp only [sumTradeQty]
            omega
        · have e1 : (if (matchLevelLoop ([agg].length + la.length) [agg] la).2.2.1 = []
              then restB
              else (p, (matchLevelLoop ([agg].length + la.length) [agg] la).2.2.1) :: restB) =
              (p, [{ agg with remainingQuantity := agg.remainingQuantity - sumTradeQty (matchLevelLoop ([agg].length + la.length) [agg] la).1 }]) :: restB := by
            rw [hrest]
            simp
          have e2 : (if (matchLevelLoop ([agg].length + la.length) [agg] la).2.2.2.1 = []
              then restA
              else (ap, (matchLevelLoop ([agg].length + la.length) [agg] la).2.2.2.1) :: restA) =
              restA := by
            rw [hla]
            simp
          rw [e1, e2]
          have hwf2 := matchStep_wf hevol.1 hevol.2 hperm hwf
          rw [e1, e2] at hwf2
          have hfuel2 : matchLoopFuel
              ((p, [{ agg with remainingQuantity := agg.remainingQuantity - sumTradeQty (matchLevelLoop ([agg].length + la.length) [agg] la).1 }]) :: restB)
              restA ≤ fuel := by
            unfold matchLoopFuel at hfuel ⊢
            simp only [levelsSize, List.length_cons, List.length_singleton] at hfuel ⊢
            omega
          have hkeys2 : ∀ kb ∈ restB.map Prod.fst, ∀ ka ∈ restA.map Prod.fst, kb < ka :=
            fun kb hkb ka hka => hkeys kb hkb ka (List.mem_cons_of_mem _ hka)
          have hih := ih { agg with remainingQuantity := agg.remainingQuantity - sumTradeQty (matchLevelLoop ([agg].length + la.length) [agg] la).1 }
            restA
            ((matchLevelLoop ([agg].length + la.length) [agg] la).2.1.foldl eraseEntry idx)
            hfuel2 hwf2 hkeys2
          rcases hih with ⟨h1, h2⟩ | ⟨h1, h2⟩
          · left
            dsimp only at h2
            refine ⟨h1, ?_⟩
            rw [sumTradeQty_append, h2]
            omega
          · right
            dsimp only at h1 h2
            constructor
            · rw [h1, sumTradeQty_append]
              have harith : agg.remainingQuantity -
                  sumTradeQty (matchLevelLoop ([agg].length + la.length) [agg] la).1 -
                  sumTradeQty (matchLoop fuel
                    ((p, [{ agg with remainingQuantity := agg.remainingQuantity - sumTradeQty (matchLevelLoop ([agg].length + la.length) [agg] la).1 }]) :: restB)
                    restA
                    ((matchLevelLoop ([agg].length + la.length) [agg] la).2.1.foldl eraseEntry idx)).1 =
                  agg.remainingQuantity -
                  (sumTradeQty (matchLevelLoop ([agg].length + la.length) [agg] la).1 +
                    sumTradeQty (matchLoop fuel
                      ((p, [{ agg with remainingQuantity := agg.remainingQuantity - sumTradeQty (matchLevelLoop ([agg].length + la.length) [agg] la).1 }]) :: restB)
                      restA
                      ((matchLevelLoop ([agg].length + la.length) [agg] la).2.1.foldl eraseEntry idx)).1) := by
                omega
              rw [harith]
            · rw [sumTradeQty_append]
              omega

theorem matchLevelLoop_nil_right (fuel : Nat) (lb : List Order) :
    matchLevelLoop fuel lb [] = ([], [], lb, [], true) := by
  cases fuel with
  | zero => rfl
  | succ fuel => cases lb <;> rfl

/-- Mirror of matchLevelLoop_single for a single (aggressor) order on the
ask side. -/
theorem matchLevelLoop_single_ask (fuel : Nat) (lb : List Order) (agg : Order)
    (hfuel : lb.length + 1 ≤ fuel) :
    ((matchLevelLoop fuel lb [agg]).2.2.2.1 = [] ∧
      sumTradeQty (matchLevelLoop fuel lb [agg]).1 = agg.remainingQuantity) ∨
    ((matchLevelLoop fuel lb [agg]).2.2.2.1 =
        [{ agg with remainingQuantity := agg.remainingQuantity - sumTradeQty (matchLevelLoop fuel lb [agg]).1 }] ∧
      (matchLevelLoop fuel lb [agg]).2.2.1 = [] ∧
      sumTradeQty (matchLevelLoop fuel lb [agg]).1 ≤ agg.remainingQuantity) := by
  induction fuel generalizing lb agg with
  | zero => omega
  | succ fuel ih =>
    match lb with
    | [] =>
      right
      refine ⟨?_, rfl, ?_⟩
      · show [agg] = [{ agg with remainingQuantity := agg.remainingQuantity - sumTradeQty [] }]
        simp [sumTradeQty]
      · show sumTradeQty [] ≤ agg.remainingQuantity
        simp [sumTradeQty]
    | bid :: restB =>
      rw [matchLevelLoop]
      dsimp only
      have hmin : min bid.remainingQuantity agg.remainingQuantity ≤ agg.remainingQuantity :=
        Nat.min_le_right _ _
      have harem : (agg.fill (min bid.remainingQuantity agg.remainingQuantity)).1.remainingQuantity =
          agg.remainingQuantity - min bid.remainingQuantity agg.remainingQuantity :=
        Order.fill_remaining_of_le _ _ hmin
      split
      · split
        · next haz =>
          left
          rw [matchLevelLoop_nil_right]
          dsimp only
          constructor
          · rfl
          · show min bid.remainingQuantity agg.remainingQuantity + sumTradeQty [] =
              agg.remainingQuantity
            simp only [sumTradeQty]
            omega
        · next haz =>
          have ha : (agg.fill (min bid.remainingQuantity agg.remainingQuantity)).1 =
              { agg with remainingQuantity := agg.remainingQuantity - min bid.remainingQuantity agg.remainingQuantity } := by
            rw [Order.fill_eq_update, harem]
          have hlt : min bid.remainingQuantity agg.remainingQuantity < agg.remainingQuantity := by
            omega
          rw [ha]
          have hih := ih restB { agg with remainingQuantity := agg.remainingQuantity - min bid.remainingQuantity agg.remainingQuantity }
            (by simp only [List.length_cons] at hfuel; omega)
          rcases hih with ⟨h1, h2⟩ | ⟨h1, h2, h3⟩
          · left
            dsimp only at h2
            refine ⟨h1, ?_⟩
            show min bid.remainingQuantity agg.remainingQuantity +
              sumTradeQty (matchLevelLoop fuel restB
                [{ agg with remainingQuantity := agg.remainingQuantity - min bid.remainingQuantity agg.remainingQuantity }]).1 =
              agg.remainingQuantity
            rw [h2]
            omega
          · right
            dsimp only at h1 h3
            refine ⟨?_, h2, ?_⟩
            · show (matchLevelLoop fuel restB
                [{ agg with remainingQuantity := agg.remainingQuantity - min bid.remainingQuantity agg.remainingQuantity }]).2.2.2.1 = _
              rw [h1]
              have harith : agg.remainingQuantity -
                  min bid.remainingQuantity agg.remainingQuantity -
                  sumTradeQty (matchLevelLoop fuel restB
                    [{ agg with remainingQuantity := agg.remainingQuantity - min bid.remainingQuantity agg.remainingQuantity }]).1 =
                  agg.remainingQuantity - (min bid.remainingQuantity agg.remainingQuantity +
                    sumTradeQty (matchLevelLoop fuel restB
                      [{ agg with remainingQuantity := agg.remainingQuantity - min bid.remainingQuantity agg.remainingQuantity }]).1) := by
                omega
              rw [harith]
              rfl
            · show min bid.remainingQuantity agg.remainingQuantity +
                sumTradeQty (matchLevelLoop fuel restB
                  [{ agg with remainingQuantity := agg.remainingQuantity - min bid.remainingQuantity agg.remainingQuantity }]).1 ≤
                agg.remainingQuantity
              omega
      · next hbz =>
        have haz : (agg.fill (min bid.remainingQuantity agg.remainingQuantity)).1.remainingQuantity = 0 := by
          rcases fill_min_one_filled bid agg with h | h
          · exact absurd h hbz
          · exact h
        left
        rw [matchLevelLoop_nil_right]
        dsimp only
        constructor
        · rfl
        · show min bid.remainingQuantity agg.remainingQuantity + sumTradeQty [] =
            agg.remainingQuantity
          simp only [sumTradeQty]
          omega

/-- Mirror of matchLoop_aggr for a sell aggressor sitting alone at the
strictly best ask level. -/
theorem matchLoop_aggr_ask (fuel : Nat) (p : Int) (agg : Order) (bids restA : Levels)
    (idx : List (Nat × EntryInfo))
    (hfuel : matchLoopFuel bids ((p, [agg]) :: restA) ≤ fuel)
    (hwf : WFBook (mkBook bids ((p, [agg]) :: restA) idx))
    (hkeys : ∀ kb ∈ bids.map Prod.fst, ∀ ka ∈ restA.map Prod.fst, kb < ka) :
    ((matchLoop fuel bids ((p, [agg]) :: restA) idx).2.2.1 = restA ∧
      sumTradeQty (matchLoop fuel bids ((p, [agg]) :: restA) idx).1 =
        agg.remainingQuantity) ∨
    ((matchLoop fuel bids ((p, [agg]) :: restA) idx).2.2.1 =
        (p, [{ agg with remainingQuantity := agg.remainingQuantity - sumTradeQty (matchLoop fuel bids ((p, [agg]) :: restA) idx).1 }]) :: restA ∧
      sumTradeQty (matchLoop fuel bids ((p, [agg]) :: restA) idx).1 ≤
        agg.remainingQuantity) := by
  induction fuel generalizing agg bids idx with
  | zero =>
    unfold matchLoopFuel at hfuel
    simp [levelsSize] at hfuel
  | succ fuel ih =>
    match bids, hfuel, hwf, hkeys with
    | [], hfuel, hwf, hkeys =>
      rw [matchLoop]
      right
      constructor
      · show (p, [agg]) :: restA = (p, [{ agg with remainingQuantity := agg.remainingQuantity - sumTradeQty [] }]) :: restA
        simp [sumTradeQty]
      · show sumTradeQty [] ≤ agg.remainingQuantity
        simp [sumTradeQty]
    | (bp, lb) :: restB, hfuel, hwf, hkeys =>
      rw [matchLoop]
      dsimp only
      split
      · right
        constructor
        · show (p, [agg]) :: restA = (p, [{ agg with remainingQuantity := agg.remainingQuantity - sumTradeQty [] }]) :: restA
          simp [sumTradeQty]
        · show sumTradeQty [] ≤ agg.remainingQuantity
          simp [sumTradeQty]
      · next hge =>
        have hevol := matchLevelLoop_evol (lb.length + [agg].length) lb [agg]
        have hperm := matchLevelLoop_perm (lb.length + [agg].length) lb [agg]
        have hsingle := matchLevelLoop_single_ask (lb.length + [agg].length) lb agg (by simp)
        have hlbne : lb ≠ [] := hwf.bidsNonempty (bp, lb) (List.mem_cons_self _ _)
        have hlblen : 1 ≤ lb.length := List.length_pos.mpr hlbne
        rcases hsingle with ⟨hpop, hsum⟩ | ⟨hrest, hlb, hle⟩
        · have e2 : (if (matchLevelLoop (lb.length + [agg].length) lb [agg]).2.2.2.1 = []
              then restA
              else (p, (matchLevelLoop (lb.length + [agg].length) lb [agg]).2.2.2.1) :: restA) =
              restA := by
            rw [hpop]
            simp
          rw [e2]
          have hcond : ∀ kb ∈ (if (matchLevelLoop (lb.length + [agg].length) lb [agg]).2.2.1 = []
              then restB
              else (bp, (matchLevelLoop (lb.length + [agg].length) lb [agg]).2.2.1) ::
                restB).map Prod.fst, ∀ ka ∈ restA.map Prod.fst, kb < ka := by
            intro kb hkb ka hka
            refine hkeys kb ?_ ka hka
            split at hkb
            · exact List.mem_cons_of_mem _ hkb
            · simp only [List.map_cons, List.mem_cons] at hkb
              rcases hkb with h1 | h1
              · rw [h1]
                simp
              · exact List.mem_cons_of_mem _ h1
          rw [matchLoop_stop fuel
            (if (matchLevelLoop (lb.length + [agg].length) lb [agg]).2.2.1 = []
             then restB
             else (bp, (matchLevelLoop (lb.length + [agg].length) lb [agg]).2.2.1) :: restB)
            restA
            ((matchLevelLoop (lb.length + [agg].length) lb [agg]).2.1.foldl eraseEntry idx)
            hcond]
          left
          constructor
          · rfl
          · show sumTradeQty ((matchLevelLoop (lb.length + [agg].length) lb [agg]).1 ++ []) =
              agg.remainingQuantity
            rw [sumTradeQty_append]
            simp only [sumTradeQty]
            omega
        · have e1 : (if (matchLevelLoop (lb.length + [agg].length) lb [agg]).2.2.1 = []
              then restB
              else (bp, (matchLevelLoop (lb.length + [agg].length) lb [agg]).2.2.1) :: restB) =
              restB := by
            rw [hlb]
            simp
          have e2 : (if (matchLevelLoop (lb.length + [agg].length) lb [agg]).2.2.2.1 = []
              then restA
              else (p, (matchLevelLoop (lb.length + [agg].length) lb [agg]).2.2.2.1) :: restA) =
              (p, [{ agg with remainingQuantity := agg.remainingQuantity - sumTradeQty (matchLevelLoop (lb.length + [agg].length) lb [agg]).1 }]) :: restA := by
            rw [hrest]
            simp
          rw [e1, e2]
          have hwf2 := matchStep_wf hevol.1 hevol.2 hperm hwf
          rw [e1, e2] at hwf2
          have hfuel2 : matchLoopFuel restB
              ((p, [{ agg with remainingQuantity := agg.remainingQuantity - sumTradeQty (matchLevelLoop (lb.length + [agg].length) lb [agg]).1 }]) :: restA) ≤ fuel := by
            unfold matchLoopFuel at hfuel ⊢
            simp only [levelsSize, List.length_cons, List.length_singleton] at hfuel ⊢
            omega
          have hkeys2 : ∀ kb ∈ restB.map Prod.fst, ∀ ka ∈ restA.map Prod.fst, kb < ka :=
            fun kb hkb ka hka => hkeys kb (List.mem_cons_of_mem _ hkb) ka hka
          have hih := ih { agg with remainingQuantity := agg.remainingQuantity - sumTradeQty (matchLevelLoop (lb.length + [agg].length) lb [agg]).1 }
            restB
            ((matchLevelLoop (lb.length + [agg].length) lb [agg]).2.1.foldl eraseEntry idx)
            hfuel2 hwf2 hkeys2
          rcases hih with ⟨h1, h2⟩ | ⟨h1, h2⟩
          · left
            dsimp only at h2
            refine ⟨h1, ?_⟩
            rw [sumTradeQty_append, h2]
            omega
          · right
            dsimp only at h1 h2
            constructor
            · rw [h1, sumTradeQty_append]
              have harith : agg.remainingQuantity -
                  sumTradeQty (matchLevelLoop (lb.length + [agg].length) lb [agg]).1 -
                  sumTradeQty (matchLoop fuel restB
                    ((p, [{ agg with remainingQuantity := agg.remainingQuantity - sumTradeQty (matchLevelLoop (lb.length + [agg].length) lb [agg]).1 }]) :: restA)
                    ((matchLevelLoop (lb.length + [agg].length) lb [agg]).2.1.foldl eraseEntry idx)).1 =
                  agg.remainingQuantity -
                  (sumTradeQty (matchLevelLoop (lb.length + [agg].length) lb [agg]).1 +
                    sumTradeQty (matchLoop fuel restB
                      ((p, [{ agg with remainingQuantity := agg.remainingQuantity - sumTradeQty (matchLevelLoop (lb.length + [agg].length) lb [agg]).1 }]) :: restA)
                      ((matchLevelLoop (lb.length + [agg].length) lb [agg]).2.1.foldl eraseEntry idx)).1) := by
                omega
              rw [harith]
            · rw [sumTradeQty_append]
              omega

theorem insertIntoLevels_front_buy {pr : Int} {o : Order} {ls : Levels}
    (h : ∀ k ∈ ls.map Prod.fst, k < pr) :
    insertIntoLevels (fun x y => decide (y < x)) pr o ls = (pr, [o]) :: ls := by
  cases ls with
  | nil => rfl
  | cons pl rest =>
    rcases pl with ⟨q, l⟩
    have hq : q < pr := h q (by simp)
    simp only [insertIntoLevels]
    rw [if_neg (by omega : ¬pr = q), if_pos (by simpa using hq)]

theorem insertIntoLevels_front_sell {pr : Int} {o : Order} {ls : Levels}
    (h : ∀ k ∈ ls.map Prod.fst, pr < k) :
    insertIntoLevels (fun x y => decide (x < y)) pr o ls = (pr, [o]) :: ls := by
  cases ls with
  | nil => rfl
  | cons pl rest =>
    rcases pl with ⟨q, l⟩
    have hq : pr < q := h q (by simp)
    simp only [insertIntoLevels]
    rw [if_neg (by omega : ¬pr = q), if_pos (by simpa using hq)]

theorem matchLoop_idx_sub (fuel : Nat) (bids asks : Levels)
    (idx : List (Nat × EntryInfo)) :
    ∀ kv ∈ (matchLoop fuel bids asks idx).2.2.2.1, kv ∈ idx := by
  induction fuel generalizing bids asks idx with
  | zero => exact fun kv h => h
  | succ fuel ih =>
    match bids, asks with
    | [], asks => exact fun kv h => h
    | (bp, lb) :: restB, [] => exact fun kv h => h
    | (bp, lb) :: restB, (ap, la) :: restA =>
      rw [matchLoop]
      dsimp only
      split
      · exact fun kv h => h
      · intro kv h
        exact foldl_erase_sub (ih _ _ _ kv h)

theorem entries_no_ioc {b : Orderbook} (hwf : WFBook b)
    (hnoioc : ∀ x ∈ bookOrders b, x.orderType ≠ OrderType.immediateOrCancel) :
    ∀ kv ∈ b.orders, kv.2.orderType ≠ OrderType.immediateOrCancel := by
  intro kv hkv
  rcases hwf.idxSound kv hkv with ⟨o, ho, _, hinfo⟩
  rw [hinfo]
  exact hnoioc o ho

theorem not_mem_ids_of_lookup_none {b : Orderbook} {n : Nat} (hwf : WFBook b)
    (h : lookupEntry b.orders n = none) : n ∉ idsOf (bookOrders b) := by
  intro hmem
  rcases List.mem_map.mp hmem with ⟨o, ho, he⟩
  have h1 := hwf.idxComplete o ho
  rw [he, h] at h1
  exact absurd h1 (by simp)


/-- A crossed book reached through a crossed snapshot: bid 105 for 10
(id 1) above ask 100 for 10 (id 2). -/
def c3crossedBook : Orderbook :=
  (processMarketData (MarketDataMessage.bookSnapshotMsg ⟨[⟨105, 10, 1⟩], [⟨100, 10, 2⟩], 1⟩)
    0 (initialBook 0)).2

/-- A far-away buy order that cannot trade at the crossed market. -/
def c3farOrder : Order := ⟨OrderType.goodTillCancel, 3, Side.buy, 50, 4, 4⟩

/-- C3 counterexample: on the crossed snapshot book, AddOrder of an order
whose price cannot trade still emits the trade that sweeps the crossed
resting levels, so the trade-quantity sum (10) differs from the
aggressor's consumed quantity (0). -/
theorem c3_counterexample :
    sumTradeQty (addOrder c3farOrder 0 c3crossedBook).trades ≠
      c3farOrder.initialQuantity -
        (addOrder c3farOrder 0 c3crossedBook).aggressor.remainingQuantity := by
  decide

/-! FIFO time priority: the crossing loop consumes a level queue strictly
from the front, so an order deeper in the queue is touched only after
every earlier order has been fully consumed and removed. -/

/-- In a duplicate-free order list, the decomposition around a given
element is unique. -/
theorem ids_unique_decomp {B : Order} :
    ∀ {s : List Order} {s' t t' : List Order}, (idsOf (s ++ B :: t)).Nodup →
      s ++ B :: t = s' ++ B :: t' → s = s' ∧ t = t' := by
  intro s
  induction s with
  | nil =>
    intro s' t t' hnd heq
    match s' with
    | [] =>
      refine ⟨rfl, ?_⟩
      simpa using heq
    | x :: s2 =>
      exfalso
      rw [List.nil_append, List.cons_append] at heq
      obtain ⟨hBx, ht⟩ := (List.cons.injEq _ _ _ _).mp heq
      simp only [List.nil_append, idsOf, List.map_cons, List.nodup_cons] at hnd
      apply hnd.1
      rw [ht]
      refine List.mem_map.mpr ⟨B, ?_, rfl⟩
      exact List.mem_append_right _ (List.mem_cons_self _ _)
  | cons a s2 ih =>
    intro s' t t' hnd heq
    match s' with
    | [] =>
      exfalso
      rw [List.nil_append, List.cons_append] at heq
      obtain ⟨haB, ht'⟩ := (List.cons.injEq _ _ _ _).mp heq
      simp only [List.cons_append, idsOf, List.map_cons, List.nodup_cons] at hnd
      apply hnd.1
      rw [haB]
      refine List.mem_map.mpr ⟨B, ?_, rfl⟩
      exact List.mem_append_right _ (List.mem_cons_self _ _)
    | x :: s2' =>
      rw [List.cons_append, List.cons_append] at heq
      obtain ⟨hax, heq2⟩ := (List.cons.injEq _ _ _ _).mp heq
      simp only [List.cons_append, idsOf, List.map_cons, List.nodup_cons] at hnd
      obtain ⟨h1, h2⟩ := ih hnd.2 heq2
      exact ⟨by rw [hax, h1], h2⟩

/-- Front-consumption FIFO: if a queue decomposes as l1 ++ A :: l2 ++ B :: l3
and the consumed queue holds B with a strictly smaller remaining quantity,
then every order before B, in particular A, has been dropped. -/
theorem reducedSuffix_fifo {Q cur : List Order} {l1 l2 l3 : List Order} {A B : Order}
    (hrs : reducedSuffix Q cur)
    (hnd : (idsOf Q).Nodup)
    (hQ : Q = l1 ++ A :: l2 ++ B :: l3)
    {B' : Order} (hB' : B' ∈ cur) (hid : B'.orderId = B.orderId)
    (hlt : B'.remainingQuantity < B.remainingQuantity) :
    A.orderId ∉ idsOf cur := by
  have hBQ : B ∈ Q := by
    rw [hQ]
    exact List.mem_append_right _ (List.mem_cons_self _ _)
  have hndQ : (idsOf (l1 ++ A :: l2) ++ idsOf (B :: l3)).Nodup := by
    rw [← idsOf_append, ← hQ]
    exact hnd
  have hdis := (List.nodup_append.mp hndQ).2.2
  have hAleft : A.orderId ∈ idsOf (l1 ++ A :: l2) := by
    rw [idsOf_append]
    exact List.mem_append_right _ (by simp [idsOf])
  have hAright : A.orderId ∉ idsOf (B :: l3) := fun h => hdis hAleft h
  have hAB : A.orderId ≠ B.orderId := fun h => hAright (by rw [h]; simp [idsOf])
  have hAl3 : A.orderId ∉ idsOf l3 := fun h =>
    hAright (by simp only [idsOf, List.map_cons]; exact List.mem_cons_of_mem _ (by simpa [idsOf] using h))
  rcases hrs with ⟨k, hk | ⟨o, rest, r, hdrop, hr, hcur⟩⟩
  · exfalso
    rw [hk] at hB'
    have hB'Q : B' ∈ Q := (List.drop_sublist k Q).mem hB'
    have : B' = B := List.inj_on_of_nodup_map hnd hB'Q hBQ hid
    rw [this] at hlt
    omega
  · rcases List.mem_cons.mp (hcur ▸ hB') with h1 | h1
    · have hoid : o.orderId = B.orderId := by
        have : B'.orderId = o.orderId := by rw [h1]
        rw [← this, hid]
      have hoQ : o ∈ Q := by
        have : o ∈ Q.drop k := by rw [hdrop]; exact List.mem_cons_self _ _
        exact (List.drop_sublist k Q).mem this
      have hoB : o = B := List.inj_on_of_nodup_map hnd hoQ hBQ hoid
      rw [hoB] at hdrop hcur
      have hsplit : l1 ++ A :: l2 ++ B :: l3 = Q.take k ++ B :: rest := by
        rw [← hQ, ← hdrop, List.take_append_drop]
      have hnd2 : (idsOf (l1 ++ A :: l2 ++ B :: l3)).Nodup := by
        rw [← hQ]
        exact hnd
      obtain ⟨-, hrest⟩ := ids_unique_decomp hnd2 hsplit
      rw [hcur, ← hrest]
      intro hmem
      simp only [idsOf, List.map_cons] at hmem
      rcases List.mem_cons.mp hmem with h2 | h2
      · exact hAB (by simpa using h2)
      · exact hAl3 (by simpa [idsOf] using h2)
    · exfalso
      have hB'Q : B' ∈ Q := by
        have h2 : B' ∈ Q.drop k := by
          rw [hdrop]
          exact List.mem_cons_of_mem _ h1
        exact (List.drop_sublist k Q).mem h2
      have : B' = B := List.inj_on_of_nodup_map hnd hB'Q hBQ hid
      rw [this] at hlt
      omega

/-- Two member levels holding orders with a common id are the same level
(ids are globally unique on a side). -/
theorem level_unique {ls : Levels} :
    (idsOf (levelsOrders ls)).Nodup →
    ∀ {p1 p2 : Int} {q1 q2 : List Order}, (p1, q1) ∈ ls → (p2, q2) ∈ ls →
    ∀ {x1 x2 : Order}, x1 ∈ q1 → x2 ∈ q2 → x1.orderId = x2.orderId →
    p1 = p2 ∧ q1 = q2 := by
  induction ls with
  | nil =>
    intro _ _ _ _ _ h1
    cases h1
  | cons pl t ih =>
    rcases pl with ⟨ph, qh⟩
    intro hnd p1 p2 q1 q2 h1 h2 x1 x2 hx1 hx2 hid
    have hnd2 : (idsOf qh ++ idsOf (levelsOrders t)).Nodup := by
      rw [← idsOf_append]
      exact hnd
    rcases List.nodup_append.mp hnd2 with ⟨hndh, hndt, hdis⟩
    rcases List.mem_cons.mp h1 with e1 | m1 <;> rcases List.mem_cons.mp h2 with e2 | m2
    · obtain ⟨hp1, hq1⟩ := (Prod.mk.injEq _ _ _ _).mp e1
      obtain ⟨hp2, hq2⟩ := (Prod.mk.injEq _ _ _ _).mp e2
      exact ⟨by rw [hp1, hp2], by rw [hq1, hq2]⟩
    · exfalso
      have hq1 : q1 = qh := ((Prod.mk.injEq _ _ _ _).mp e1).2
      have hl : x1.orderId ∈ idsOf qh := by
        rw [← hq1]
        exact List.mem_map.mpr ⟨x1, hx1, rfl⟩
      have hr : x1.orderId ∈ idsOf (levelsOrders t) := by
        rw [hid]
        exact List.mem_map.mpr ⟨x2, mem_levelsOrders.mpr ⟨(p2, q2), m2, hx2⟩, rfl⟩
      exact hdis hl hr
    · exfalso
      have hq2 : q2 = qh := ((Prod.mk.injEq _ _ _ _).mp e2).2
      have hl : x2.orderId ∈ idsOf qh := by
        rw [← hq2]
        exact List.mem_map.mpr ⟨x2, hx2, rfl⟩
      have hr : x2.orderId ∈ idsOf (levelsOrders t) := by
        rw [← hid]
        exact List.mem_map.mpr ⟨x1, mem_levelsOrders.mpr ⟨(p1, q1), m1, hx1⟩, rfl⟩
      exact hdis hl hr
    · exact ih hndt m1 m2 hx1 hx2 hid

/-- FIFO on one evolved side: if the crossing loop left B (an order that
had another order A queued in front of it at the same price) with a
strictly smaller remaining quantity, then A is gone from the side. -/
theorem sideEvol_fifo {ls ls' : Levels}
    (hevol : levelEvol ls ls')
    (hnd : (idsOf (levelsOrders ls)).Nodup)
    {p : Int} {l1 l2 l3 : List Order} {A B : Order}
    (hlev : (p, l1 ++ A :: l2 ++ B :: l3) ∈ ls)
    {B' : Order} (hB' : B' ∈ levelsOrders ls')
    (hid : B'.orderId = B.orderId)
    (hlt : B'.remainingQuantity < B.remainingQuantity) :
    A.orderId ∉ idsOf (levelsOrders ls') := by
  have hBQ : B ∈ l1 ++ A :: l2 ++ B :: l3 :=
    List.mem_append_right _ (List.mem_cons_self _ _)
  have hAQ : A ∈ l1 ++ A :: l2 ++ B :: l3 :=
    List.mem_append_left _ (List.mem_append_right _ (List.mem_cons_self _ _))
  have hBls : B ∈ levelsOrders ls := mem_levelsOrders.mpr ⟨_, hlev, hBQ⟩
  rcases hevol with ⟨n, hn | ⟨p0, q0, q0', rest0, hdrop, hrs, hX⟩⟩
  · exfalso
    rw [hn] at hB'
    have h2 : B' ∈ levelsOrders ls := by
      rcases mem_levelsOrders.mp hB' with ⟨pl, hpl, hm⟩
      exact mem_levelsOrders.mpr ⟨pl, (List.drop_sublist n ls).mem hpl, hm⟩
    have : B' = B := List.inj_on_of_nodup_map hnd h2 hBls hid
    rw [this] at hlt
    omega
  · have hlo : levelsOrders (ls.drop n) = q0 ++ levelsOrders rest0 := by
      rw [hdrop]
      rfl
    have hndrop : (idsOf (q0 ++ levelsOrders rest0)).Nodup := by
      rw [← hlo]
      exact hnd.sublist ((levelsOrders_drop_suffix n ls).sublist.map _)
    have hndrop2 : (idsOf q0 ++ idsOf (levelsOrders rest0)).Nodup := by
      rw [← idsOf_append]
      exact hndrop
    rcases List.nodup_append.mp hndrop2 with ⟨hndq0, hndrest0, hdis0⟩
    have hrestls : ∀ x ∈ levelsOrders rest0, x ∈ levelsOrders ls := by
      intro x hx
      have h2 : x ∈ levelsOrders (ls.drop n) := by
        rw [hlo]
        exact List.mem_append_right _ hx
      exact ((levelsOrders_drop_suffix n ls).sublist).mem h2
    have hq0ls : ∀ x ∈ q0, x ∈ levelsOrders ls := by
      intro x hx
      have h2 : x ∈ levelsOrders (ls.drop n) := by
        rw [hlo]
        exact List.mem_append_left _ hx
      exact ((levelsOrders_drop_suffix n ls).sublist).mem h2
    rw [hX] at hB' ⊢
    have hB'2 : B' ∈ q0' ++ levelsOrders rest0 := hB'
    rcases List.mem_append.mp hB'2 with hb1 | hb2
    · rcases reducedSuffix_mem hrs B' hb1 with ⟨x, hxq0, hxeq, hxle⟩
      have hxid : x.orderId = B.orderId := by
        have h3 : B'.orderId = x.orderId := by rw [hxeq]
        rw [← h3, hid]
      have hxB : x = B := List.inj_on_of_nodup_map hnd (hq0ls x hxq0) hBls hxid
      have hBq0 : B ∈ q0 := by
        rw [← hxB]
        exact hxq0
      have hp0ls : (p0, q0) ∈ ls := by
        have h3 : (p0, q0) ∈ ls.drop n := by
          rw [hdrop]
          exact List.mem_cons_self _ _
        exact (List.drop_sublist n ls).mem h3
      obtain ⟨hpp, hQq0⟩ := level_unique hnd hlev hp0ls hBQ hBq0 rfl
      have hAfifo : A.orderId ∉ idsOf q0' :=
        reducedSuffix_fifo hrs hndq0 hQq0.symm hb1 hid hlt
      have hAq0 : A.orderId ∈ idsOf q0 := by
        rw [← hQq0]
        exact List.mem_map.mpr ⟨A, hAQ, rfl⟩
      have hArest : A.orderId ∉ idsOf (levelsOrders rest0) := fun h => hdis0 hAq0 h
      show A.orderId ∉ idsOf (q0' ++ levelsOrders rest0)
      rw [idsOf_append]
      intro hmem
      rcases List.mem_append.mp hmem with h3 | h3
      · exact hAfifo h3
      · exact hArest h3
    · exfalso
      have h2 : B' ∈ levelsOrders ls := hrestls B' hb2
      have : B' = B := List.inj_on_of_nodup_map hnd h2 hBls hid
      rw [this] at hlt
      omega

/-- A level survives an insertion either untouched or (at the inserted
price) with the new order appended at the back of its queue. -/
theorem insertIntoLevels_level_of_mem (before : Int → Int → Bool) (pr : Int) (o : Order)
    {ls : Levels} {p : Int} {q : List Order} (h : (p, q) ∈ ls) :
    (p, q) ∈ insertIntoLevels before pr o ls ∨
      (pr = p ∧ (p, q ++ [o]) ∈ insertIntoLevels before pr o ls) := by
  induction ls with
  | nil => cases h
  | cons pl t ih =>
    rcases pl with ⟨ph, qh⟩
    simp only [insertIntoLevels]
    rcases List.mem_cons.mp h with e1 | m1
    · obtain ⟨hp, hq⟩ := (Prod.mk.injEq _ _ _ _).mp e1
      by_cases hpp : pr = ph
      · rw [if_pos hpp]
        right
        refine ⟨by rw [hpp, hp], ?_⟩
        rw [← hp, ← hq]
        exact List.mem_cons_self _ _
      · rw [if_neg hpp]
        by_cases hb : before pr ph = true
        · rw [if_pos hb]
          left
          exact List.mem_cons_of_mem _ (by rw [← e1]; exact List.mem_cons_self _ _)
        · rw [if_neg hb]
          left
          rw [← e1]
          exact List.mem_cons_self _ _
    · by_cases hpp : pr = ph
      · rw [if_pos hpp]
        left
        exact List.mem_cons_of_mem _ m1
      · rw [if_neg hpp]
        by_cases hb : before pr ph = true
        · rw [if_pos hb]
          left
          exact List.mem_cons_of_mem _ (List.mem_cons_of_mem _ m1)
        · rw [if_neg hb]
          rcases ih m1 with h2 | ⟨h2, h3⟩
          · exact Or.inl (List.mem_cons_of_mem _ h2)
          · exact Or.inr ⟨h2, List.mem_cons_of_mem _ h3⟩

/-- The IOC sweep only removes orders. -/
theorem cancelIocOrders_sub {b : Orderbook} {o : Order}
    (h : o ∈ bookOrders (cancelIocOrders b)) : o ∈ bookOrders b :=
  foldl_cancelOrder_sub h

/-- FIFO through the crossing loop and the IOC sweep: on a well-formed
book holding a level where A is queued in front of B, if the
loop-plus-sweep output still holds B with a strictly smaller remaining
quantity, then A is no longer found. -/
theorem matchSweep_fifo (M : Trades × Levels × Levels × List (Nat × EntryInfo) × Bool)
    {bb : Orderbook} (hwf3 : WFBook bb)
    (hM : M = matchLoop (matchLoopFuel bb.bids bb.asks) bb.bids bb.asks bb.orders)
    {p : Int} {l1 l2 l3 : List Order} {A B : Order}
    (hlev : (p, l1 ++ A :: l2 ++ B :: l3) ∈ bb.bids ∨
      (p, l1 ++ A :: l2 ++ B :: l3) ∈ bb.asks)
    {B' : Order}
    (hB' : B' ∈ bookOrders (cancelIocOrders
      { bb with bids := M.2.1, asks := M.2.2.1, orders := M.2.2.2.1 }))
    (hid : B'.orderId = B.orderId)
    (hlt : B'.remainingQuantity < B.remainingQuantity) :
    findOrderInBook (cancelIocOrders
      { bb with bids := M.2.1, asks := M.2.2.1, orders := M.2.2.2.1 }) A.orderId = none := by
  have hmain := matchLoop_main (matchLoopFuel bb.bids bb.asks) bb.bids bb.asks bb.orders
    (le_refl _) (wf_mkBook_of_wf hwf3)
  rw [← hM] at hmain
  have hevolB : levelEvol bb.bids M.2.1 := hmain.2.2.2.2.1
  have hevolA : levelEvol bb.asks M.2.2.1 := hmain.2.2.2.2.2
  have hnd2 : (idsOf (levelsOrders bb.bids) ++ idsOf (levelsOrders bb.asks)).Nodup := by
    rw [← idsOf_append]
    exact hwf3.idsNodup
  rcases List.nodup_append.mp hnd2 with ⟨hndb, hnda, hdis⟩
  have hBQ : B ∈ l1 ++ A :: l2 ++ B :: l3 :=
    List.mem_append_right _ (List.mem_cons_self _ _)
  have hAQ : A ∈ l1 ++ A :: l2 ++ B :: l3 :=
    List.mem_append_left _ (List.mem_append_right _ (List.mem_cons_self _ _))
  have hB'4 : B' ∈ bookOrders { bb with bids := M.2.1, asks := M.2.2.1, orders := M.2.2.2.1 } :=
    cancelIocOrders_sub hB'
  have hB'44 : B' ∈ levelsOrders M.2.1 ++ levelsOrders M.2.2.1 := hB'4
  have hAout : A.orderId ∉ idsOf (levelsOrders M.2.1) ++ idsOf (levelsOrders M.2.2.1) := by
    rcases hlev with hlevb | hleva
    · have hAbid : A.orderId ∈ idsOf (levelsOrders bb.bids) :=
        List.mem_map.mpr ⟨A, mem_levelsOrders.mpr ⟨_, hlevb, hAQ⟩, rfl⟩
      have hBbid : B.orderId ∈ idsOf (levelsOrders bb.bids) :=
        List.mem_map.mpr ⟨B, mem_levelsOrders.mpr ⟨_, hlevb, hBQ⟩, rfl⟩
      have hB'side : B' ∈ levelsOrders M.2.1 := by
        rcases List.mem_append.mp hB'44 with h1 | h1
        · exact h1
        · exfalso
          have h2 : B'.orderId ∈ idsOf (levelsOrders M.2.2.1) :=
            List.mem_map.mpr ⟨B', h1, rfl⟩
          have h3 : B'.orderId ∈ idsOf (levelsOrders bb.asks) :=
            (levelEvol_ids_sublist hevolA).mem h2
          rw [hid] at h3
          exact hdis hBbid h3
      have hAb : A.orderId ∉ idsOf (levelsOrders M.2.1) :=
        sideEvol_fifo hevolB hndb hlevb hB'side hid hlt
      have hAa : A.orderId ∉ idsOf (levelsOrders M.2.2.1) := by
        intro h1
        exact hdis hAbid ((levelEvol_ids_sublist hevolA).mem h1)
      intro h1
      rcases List.mem_append.mp h1 with h2 | h2
      · exact hAb h2
      · exact hAa h2
    · have hAask : A.orderId ∈ idsOf (levelsOrders bb.asks) :=
        List.mem_map.mpr ⟨A, mem_levelsOrders.mpr ⟨_, hleva, hAQ⟩, rfl⟩
      have hBask : B.orderId ∈ idsOf (levelsOrders bb.asks) :=
        List.mem_map.mpr ⟨B, mem_levelsOrders.mpr ⟨_, hleva, hBQ⟩, rfl⟩
      have hB'side : B' ∈ levelsOrders M.2.2.1 := by
        rcases List.mem_append.mp hB'44 with h1 | h1
        · exfalso
          have h2 : B'.orderId ∈ idsOf (levelsOrders M.2.1) :=
            List.mem_map.mpr ⟨B', h1, rfl⟩
          have h3 : B'.orderId ∈ idsOf (levelsOrders bb.bids) :=
            (levelEvol_ids_sublist hevolB).mem h2
          rw [hid] at h3
          exact hdis h3 hBask
        · exact h1
      have hAa : A.orderId ∉ idsOf (levelsOrders M.2.2.1) :=
        sideEvol_fifo hevolA hnda hleva hB'side hid hlt
      have hAb : A.orderId ∉ idsOf (levelsOrders M.2.1) := by
        intro h1
        exact hdis ((levelEvol_ids_sublist hevolB).mem h1) hAask
      intro h1
      rcases List.mem_append.mp h1 with h2 | h2
      · exact hAb h2
      · exact hAa h2
  refine findOrderInBook_eq_none_iff.mpr ?_
  intro hmem
  rcases List.mem_map.mp hmem with ⟨x, hx, hxe⟩
  have hx4 : x ∈ bookOrders { bb with bids := M.2.1, asks := M.2.2.1, orders := M.2.2.2.1 } :=
    cancelIocOrders_sub hx
  apply hAout
  rw [← idsOf_append]
  exact List.mem_map.mpr ⟨x, hx4, hxe⟩

/-- FIFO within a level during the FillOrKill collection phase: if a later
order B of the queue received a pair at all, the earlier order A was
collected for its full remaining quantity. -/
theorem collectLevel_fifo :
    ∀ (r : Nat) (l1 : List Order) {l2 l3 : List Order} {A B : Order} {qB : Nat},
      (idsOf (l1 ++ A :: l2 ++ B :: l3)).Nodup →
      (B, qB) ∈ (collectLevel r (l1 ++ A :: l2 ++ B :: l3)).1 →
      (A, A.remainingQuantity) ∈ (collectLevel r (l1 ++ A :: l2 ++ B :: l3)).1 := by
  intro r l1
  induction l1 generalizing r with
  | nil =>
    intro l2 l3 A B qB hnd hB
    simp only [List.nil_append] at hnd hB ⊢
    have hndc : (idsOf ((A :: l2) ++ B :: l3)).Nodup := hnd
    have hAB : A.orderId ≠ B.orderId := by
      rw [idsOf_append] at hndc
      rcases List.nodup_append.mp hndc with ⟨h1, h2, hdis⟩
      intro he
      have hl : A.orderId ∈ idsOf (A :: l2) := by simp [idsOf]
      have hr : A.orderId ∈ idsOf (B :: l3) := by rw [he]; simp [idsOf]
      exact hdis hl hr
    have hshape : (A :: l2) ++ B :: l3 = A :: (l2 ++ B :: l3) := by
      rw [List.cons_append]
    rw [hshape] at hB ⊢
    simp only [collectLevel] at hB ⊢
    by_cases hz : r - min r A.remainingQuantity = 0
    · rw [if_pos hz] at hB
      exfalso
      have h1 : (B, qB) = (A, min r A.remainingQuantity) := List.mem_singleton.mp hB
      have h2 : B = A := ((Prod.mk.injEq _ _ _ _).mp h1).1
      exact hAB (by rw [h2])
    · rw [if_neg hz] at hB ⊢
      have hm : min r A.remainingQuantity = A.remainingQuantity := by omega
      rw [hm]
      exact List.mem_cons_self _ _
  | cons x t ih =>
    intro l2 l3 A B qB hnd hB
    have hshape : (x :: t) ++ A :: l2 ++ B :: l3 = x :: (t ++ A :: l2 ++ B :: l3) := by
      simp
    rw [hshape] at hnd hB ⊢
    have hxB : x.orderId ≠ B.orderId := by
      simp only [idsOf, List.map_cons, List.nodup_cons] at hnd
      intro he
      apply hnd.1
      rw [he]
      refine List.mem_map.mpr ⟨B, ?_, rfl⟩
      exact List.mem_append_right _ (List.mem_cons_self _ _)
    have hndt : (idsOf (t ++ A :: l2 ++ B :: l3)).Nodup := by
      simp only [idsOf, List.map_cons, List.nodup_cons] at hnd
      exact hnd.2
    simp only [collectLevel] at hB ⊢
    by_cases hz : r - min r x.remainingQuantity = 0
    · rw [if_pos hz] at hB
      exfalso
      have h1 : (B, qB) = (x, min r x.remainingQuantity) := List.mem_singleton.mp hB
      have h2 : B = x := ((Prod.mk.injEq _ _ _ _).mp h1).1
      exact hxB (by rw [h2])
    · rw [if_neg hz] at hB ⊢
      rcases List.mem_cons.mp hB with h1 | h1
      · exfalso
        have h2 : B = x := ((Prod.mk.injEq _ _ _ _).mp h1).1
        exact hxB (by rw [h2])
      · exact List.mem_cons_of_mem _ (ih _ hndt h1)

/-- FIFO across the collected levels: a pair for B forces the full pair
for the order A queued in front of B at the same price. -/
theorem collectLevels_fifo (cross : Int → Bool) :
    ∀ (r : Nat) (ls : Levels) {p : Int} {l1 l2 l3 : List Order} {A B : Order} {qB : Nat},
      (idsOf (levelsOrders ls)).Nodup →
      (p, l1 ++ A :: l2 ++ B :: l3) ∈ ls →
      (B, qB) ∈ (collectLevels cross r ls).1 →
      (A, A.remainingQuantity) ∈ (collectLevels cross r ls).1 := by
  intro r ls
  induction ls generalizing r with
  | nil =>
    intro p l1 l2 l3 A B qB hnd hlev hB
    simp [collectLevels] at hB
  | cons pl t ih =>
    rcases pl with ⟨ph, qh⟩
    intro p l1 l2 l3 A B qB hnd hlev hB
    have hnd2 : (idsOf qh ++ idsOf (levelsOrders t)).Nodup := by
      rw [← idsOf_append]
      exact hnd
    rcases List.nodup_append.mp hnd2 with ⟨hndh, hndt, hdis⟩
    have hBQ : B ∈ l1 ++ A :: l2 ++ B :: l3 :=
      List.mem_append_right _ (List.mem_cons_self _ _)
    simp only [collectLevels] at hB ⊢
    by_cases hc : cross ph = true
    · rw [if_neg (by simp [hc])] at hB ⊢
      by_cases hz : (collectLevel r qh).2 = 0
      · rw [if_pos hz] at hB ⊢
        rcases List.mem_cons.mp hlev with e1 | m1
        · have hq : qh = l1 ++ A :: l2 ++ B :: l3 :=
            (((Prod.mk.injEq _ _ _ _).mp e1).2).symm
          subst hq
          exact collectLevel_fifo r l1 hndh hB
        · exfalso
          have h1 : B ∈ qh := (collectLevel_fst_sublist r qh).mem
            (List.mem_map.mpr ⟨(B, qB), hB, rfl⟩)
          refine hdis (List.mem_map.mpr ⟨B, h1, rfl⟩) ?_
          exact List.mem_map.mpr ⟨B, mem_levelsOrders.mpr ⟨_, m1, hBQ⟩, rfl⟩
      · rw [if_neg hz] at hB ⊢
        rcases List.mem_append.mp hB with h1 | h1
        · rcases List.mem_cons.mp hlev with e1 | m1
          · have hq : qh = l1 ++ A :: l2 ++ B :: l3 :=
              (((Prod.mk.injEq _ _ _ _).mp e1).2).symm
            subst hq
            exact List.mem_append_left _ (collectLevel_fifo r l1 hndh h1)
          · exfalso
            have h2 : B ∈ qh := (collectLevel_fst_sublist r qh).mem
              (List.mem_map.mpr ⟨(B, qB), h1, rfl⟩)
            refine hdis (List.mem_map.mpr ⟨B, h2, rfl⟩) ?_
            exact List.mem_map.mpr ⟨B, mem_levelsOrders.mpr ⟨_, m1, hBQ⟩, rfl⟩
        · rcases List.mem_cons.mp hlev with e1 | m1
          · exfalso
            have h2 : B ∈ levelsOrders t :=
              (collectLevels_fst_sublist cross (collectLevel r qh).2 t).mem
                (List.mem_map.mpr ⟨(B, qB), h1, rfl⟩)
            have hq : qh = l1 ++ A :: l2 ++ B :: l3 :=
              (((Prod.mk.injEq _ _ _ _).mp e1).2).symm
            refine hdis ?_ (List.mem_map.mpr ⟨B, h2, rfl⟩)
            rw [hq]
            exact List.mem_map.mpr ⟨B, hBQ, rfl⟩
          · exact List.mem_append_right _ (ih _ hndt m1 h1)
    · rw [if_pos (by simp [hc])] at hB
      cases hB

/-- A survivor of an in-place fill with a different id was already resting. -/
theorem fillInLevels_mem_rev {id q : Nat} {ls : Levels} {x : Order}
    (hx : x ∈ levelsOrders (fillInLevels id q ls).1) (hne : x.orderId ≠ id) :
    x ∈ levelsOrders ls := by
  rcases mem_levelsOrders.mp hx with ⟨pl', hpl', hm⟩
  rcases fillInLevels_mem_to id q ls pl' hpl' with h1 | ⟨pl, h1, h2, h3⟩
  · exact mem_levelsOrders.mpr ⟨pl', h1, hm⟩
  · rw [h3] at hm
    rcases fillInLevel_mem_to id q pl.2 x hm with h4 | ⟨o0, h4, h5, h6⟩
    · exact mem_levelsOrders.mpr ⟨pl, h1, h4⟩
    · exfalso
      apply hne
      rw [h6, Order.fill_orderId, h5]

theorem fillOrderInBook_mem_rev {b : Orderbook} {id q : Nat} {x : Order}
    (hx : x ∈ bookOrders (fillOrderInBook b id q).1) (hne : x.orderId ≠ id) :
    x ∈ bookOrders b := by
  unfold fillOrderInBook at hx
  cases hb : (fillInLevels id q b.bids).2 with
  | some ok =>
    rw [hb] at hx
    dsimp only at hx
    have hx2 : x ∈ levelsOrders (fillInLevels id q b.bids).1 ++ levelsOrders b.asks := hx
    rcases List.mem_append.mp hx2 with h1 | h1
    · exact List.mem_append_left _ (fillInLevels_mem_rev h1 hne)
    · exact List.mem_append_right _ h1
  | none =>
    rw [hb] at hx
    cases ha : (fillInLevels id q b.asks).2 with
    | some ok =>
      rw [ha] at hx
      dsimp only at hx
      have hx2 : x ∈ levelsOrders b.bids ++ levelsOrders (fillInLevels id q b.asks).1 := hx
      rcases List.mem_append.mp hx2 with h1 | h1
      · exact List.mem_append_left _ h1
      · exact List.mem_append_right _ (fillInLevels_mem_rev h1 hne)
    | none =>
      rw [ha] at hx
      exact hx

/-- The filled image of a resting order is in the level after the fill. -/
theorem fillInLevel_fill_mem (q : Nat) {l : List Order} {m : Order}
    (hnd : (idsOf l).Nodup) (hm : m ∈ l) :
    (m.fill q).1 ∈ (fillInLevel m.orderId q l).1 := by
  induction l with
  | nil => cases hm
  | cons o rest ih =>
    simp only [idsOf, List.map_cons, List.nodup_cons] at hnd
    simp only [fillInLevel]
    by_cases hid : o.orderId = m.orderId
    · rw [if_pos hid]
      have hom : o = m := by
        rcases List.mem_cons.mp hm with h1 | h1
        · exact h1.symm
        · exact absurd (by rw [hid]; exact List.mem_map.mpr ⟨m, h1, rfl⟩) hnd.1
      dsimp only
      rw [hom]
      exact List.mem_cons_self _ _
    · rw [if_neg hid]
      dsimp only
      rcases List.mem_cons.mp hm with h1 | h1
      · exact absurd (by rw [h1]) hid
      · exact List.mem_cons_of_mem _ (ih (by simpa [idsOf] using hnd.2) h1)

theorem fillInLevels_fill_mem (q : Nat) {ls : Levels} {m : Order}
    (hnd : (sideIds ls).Nodup) (hm : m ∈ levelsOrders ls) :
    (m.fill q).1 ∈ levelsOrders (fillInLevels m.orderId q ls).1 := by
  induction ls with
  | nil => cases hm
  | cons pl rest ih =>
    rcases pl with ⟨p, l⟩
    have hnd2 : (idsOf l ++ sideIds rest).Nodup := by
      simpa [sideIds, idsOf, levelsOrders] using hnd
    rcases List.nodup_append.mp hnd2 with ⟨hndl, hndr, hdis⟩
    replace hm : m ∈ l ++ levelsOrders rest := hm
    simp only [fillInLevels]
    rcases List.mem_append.mp hm with h1 | h1
    · rw [fillInLevel_found_spec q hndl h1]
      show (m.fill q).1 ∈ (fillInLevel m.orderId q l).1 ++ levelsOrders rest
      exact List.mem_append_left _ (fillInLevel_fill_mem q hndl h1)
    · have hnotl : m.orderId ∉ idsOf l := by
        intro hmem
        exact hdis hmem (List.mem_map.mpr ⟨m, h1, rfl⟩)
      rw [fillInLevel_not_found q hnotl]
      show (m.fill q).1 ∈ l ++ levelsOrders (fillInLevels m.orderId q rest).1
      exact List.mem_append_right _ (ih hndr h1)

theorem fillOrderInBook_fill_mem {b : Orderbook} (hwf : WFBook b) (q : Nat) {m : Order}
    (hm : m ∈ bookOrders b) :
    (m.fill q).1 ∈ bookOrders (fillOrderInBook b m.orderId q).1 := by
  have hids := hwf.idsNodup
  rw [show bookOrders b = levelsOrders b.bids ++ levelsOrders b.asks from rfl,
    idsOf_append] at hids
  rcases List.nodup_append.mp hids with ⟨hndb, hnda, hdis⟩
  unfold fillOrderInBook
  rcases List.mem_append.mp hm with h1 | h1
  · rw [fillInLevels_found_spec q hndb h1]
    dsimp only
    show (m.fill q).1 ∈ levelsOrders (fillInLevels m.orderId q b.bids).1 ++ levelsOrders b.asks
    exact List.mem_append_left _ (fillInLevels_fill_mem q hndb h1)
  · have hnotb : m.orderId ∉ sideIds b.bids := by
      intro hmem
      exact hdis hmem (List.mem_map.mpr ⟨m, h1, rfl⟩)
    rw [fillInLevels_not_found q hnotb]
    dsimp only
    rw [fillInLevels_found_spec q hnda h1]
    dsimp only
    show (m.fill q).1 ∈ levelsOrders b.bids ++ levelsOrders (fillInLevels m.orderId q b.asks).1
    exact List.mem_append_right _ (fillInLevels_fill_mem q hnda h1)

/-- Orders whose id appears in no pair are untouched by the FillOrKill
execution phase. -/
theorem executeMatches_id_untouched :
    ∀ (P : List (Order × Nat)) (o : Order) (b : Orderbook) {x : Order},
      x ∈ bookOrders (executeMatchesForFillOrKill o b P).2.2.1 →
      (∀ pr ∈ P, pr.1.orderId ≠ x.orderId) →
      x ∈ bookOrders b := by
  intro P
  induction P with
  | nil =>
    intro o b x hx _
    exact hx
  | cons pr rest ih =>
    rcases pr with ⟨mo, qq⟩
    intro o b x hx hne
    simp only [executeMatchesForFillOrKill] at hx
    have hnemo : mo.orderId ≠ x.orderId := hne (mo, qq) (List.mem_cons_self _ _)
    have hne2 : ∀ pr ∈ rest, pr.1.orderId ≠ x.orderId :=
      fun pr hpr => hne pr (List.mem_cons_of_mem _ hpr)
    split at hx
    · have h1 := ih _ _ hx hne2
      have h2 : x ∈ bookOrders (fillOrderInBook b mo.orderId qq).1 := cancelOrder_sub h1
      exact fillOrderInBook_mem_rev h2 (fun he => hnemo he.symm)
    · have h1 := ih _ _ hx hne2
      exact fillOrderInBook_mem_rev h1 (fun he => hnemo he.symm)

/-- A pair collected for an order's full remaining quantity leads to that
order being filled and cancelled by the execution phase: its id is gone
from the resulting book. -/
theorem executeMatches_removes_full :
    ∀ (P : List (Order × Nat)) {b : Orderbook} (o : Order) {A : Order},
      WFBook b →
      (∀ pr ∈ P, pr.1 ∈ bookOrders b) →
      (P.map (fun pr => pr.1.orderId)).Nodup →
      (A, A.remainingQuantity) ∈ P →
      A.orderId ∉ idsOf (bookOrders (executeMatchesForFillOrKill o b P).2.2.1) := by
  intro P
  induction P with
  | nil =>
    intro b o A _ _ _ hA
    cases hA
  | cons pr rest ih =>
    rcases pr with ⟨mo, qq⟩
    intro b o A hwf hmem hnd hA
    simp only [List.map_cons, List.nodup_cons] at hnd
    have hne : ∀ pr ∈ rest, pr.1.orderId ≠ mo.orderId := by
      intro pr hpr he
      exact hnd.1 (by rw [← he]; exact List.mem_map.mpr ⟨pr, hpr, rfl⟩)
    have hmo : mo ∈ bookOrders b := hmem (mo, qq) (List.mem_cons_self _ _)
    have hwfF : WFBook (fillOrderInBook b mo.orderId qq).1 := fillOrderInBook_wf hwf _ _
    by_cases hidh : mo.orderId = A.orderId
    · have hAhead : (A, A.remainingQuantity) = (mo, qq) := by
        rcases List.mem_cons.mp hA with h1 | h1
        · exact h1
        · exfalso
          apply hnd.1
          rw [hidh]
          exact List.mem_map.mpr ⟨(A, A.remainingQuantity), h1, rfl⟩
      obtain ⟨hmoA, hqq⟩ := (Prod.mk.injEq _ _ _ _).mp hAhead
      subst hmoA
      subst hqq
      have hfillmem : (A.fill A.remainingQuantity).1 ∈
          bookOrders (fillOrderInBook b A.orderId A.remainingQuantity).1 :=
        fillOrderInBook_fill_mem hwf A.remainingQuantity hmo
      have hfind : findOrderInBook (fillOrderInBook b A.orderId A.remainingQuantity).1
          A.orderId = some (A.fill A.remainingQuantity).1 := by
        have h1 := findOrderInBook_eq_some hwfF hfillmem
        rw [Order.fill_orderId] at h1
        exact h1
      have hfilled : (A.fill A.remainingQuantity).1.isFilled = true := by
        unfold Order.isFilled
        rw [Order.fill_remaining_of_le _ _ (le_refl _)]
        simp
      simp only [executeMatchesForFillOrKill]
      rw [hfind]
      dsimp only
      rw [if_pos hfilled]
      intro hmem2
      rcases List.mem_map.mp hmem2 with ⟨x, hx, hxid⟩
      have hxne : ∀ pr ∈ rest, pr.1.orderId ≠ x.orderId := by
        intro pr hpr he
        apply hne pr hpr
        rw [he, hxid]
      have hx2 : x ∈ bookOrders (cancelOrder
          (fillOrderInBook b A.orderId A.remainingQuantity).1 A.orderId) :=
        executeMatches_id_untouched rest _ _ hx hxne
      exact cancelOrder_removes_id hwfF x hx2 hxid
    · have hA2 : (A, A.remainingQuantity) ∈ rest := by
        rcases List.mem_cons.mp hA with h1 | h1
        · exfalso
          apply hidh
          have h2 : A = mo := ((Prod.mk.injEq _ _ _ _).mp h1).1
          rw [h2]
        · exact h1
      simp only [executeMatchesForFillOrKill]
      split
      · exact ih _ (cancelOrder_wf hwfF _)
          (fun pr hpr => mem_cancelOrder_of_ne
            (fillOrderInBook_mem_of_ne (hmem pr (List.mem_cons_of_mem _ hpr)) (hne pr hpr))
            (hne pr hpr))
          hnd.2 hA2
      · exact ih _ hwfF
          (fun pr hpr => fillOrderInBook_mem_of_ne (hmem pr (List.mem_cons_of_mem _ hpr))
            (hne pr hpr))
          hnd.2 hA2

/-- FIFO through the FillOrKill path: if the executed FOK pairs left B (an
order queued behind A at the same price) reduced but resting, A was
collected in full and cancelled. -/
theorem matchFillOrKill_fifo {o1 : Order} {b : Orderbook} (hwf : WFBook b)
    {p : Int} {l1 l2 l3 : List Order} {A B : Order}
    (hlev : (p, l1 ++ A :: l2 ++ B :: l3) ∈ b.bids ∨
      (p, l1 ++ A :: l2 ++ B :: l3) ∈ b.asks)
    {B' : Order}
    (hB' : B' ∈ bookOrders (matchFillOrKill o1 b).book)
    (hid : B'.orderId = B.orderId)
    (hlt : B'.remainingQuantity < B.remainingQuantity) :
    findOrderInBook (matchFillOrKill o1 b).book A.orderId = none := by
  have hBQ : B ∈ l1 ++ A :: l2 ++ B :: l3 :=
    List.mem_append_right _ (List.mem_cons_self _ _)
  have hAQ : A ∈ l1 ++ A :: l2 ++ B :: l3 :=
    List.mem_append_left _ (List.mem_append_right _ (List.mem_cons_self _ _))
  have hBbook : B ∈ bookOrders b := by
    rcases hlev with h | h
    · exact List.mem_append_left _ (mem_levelsOrders.mpr ⟨_, h, hBQ⟩)
    · exact List.mem_append_right _ (mem_levelsOrders.mpr ⟨_, h, hBQ⟩)
  have hnd2 : (idsOf (levelsOrders b.bids) ++ idsOf (levelsOrders b.asks)).Nodup := by
    rw [← idsOf_append]
    exact hwf.idsNodup
  rcases List.nodup_append.mp hnd2 with ⟨hndb, hnda, hdis⟩
  unfold matchFillOrKill at hB' ⊢
  dsimp only at hB' ⊢
  by_cases hrej : 0 < (collectMatchesForFillOrKill o1 b).2
  · rw [if_pos hrej] at hB' ⊢
    exfalso
    have h1 : B' = B := bookOrders_id_inj hwf hB' hBbook hid
    rw [h1] at hlt
    omega
  · rw [if_neg hrej] at hB' ⊢
    dsimp only at hB' ⊢
    have hBpair : ∃ qB, (B, qB) ∈ (collectMatchesForFillOrKill o1 b).1 := by
      by_contra hno
      push_neg at hno
      have hne : ∀ pr ∈ (collectMatchesForFillOrKill o1 b).1,
          pr.1.orderId ≠ B'.orderId := by
        intro pr hpr he
        have h1 : pr.1 ∈ bookOrders b := collectMatches_mem pr hpr
        have h2 : pr.1 = B := bookOrders_id_inj hwf h1 hBbook (by rw [he, hid])
        exact hno pr.2 (by rw [← h2]; exact hpr)
      have hB'b : B' ∈ bookOrders b := executeMatches_id_untouched _ _ _ hB' hne
      have h1 : B' = B := bookOrders_id_inj hwf hB'b hBbook hid
      rw [h1] at hlt
      omega
    rcases hBpair with ⟨qB, hBp⟩
    have hApair : (A, A.remainingQuantity) ∈ (collectMatchesForFillOrKill o1 b).1 := by
      unfold collectMatchesForFillOrKill at hBp ⊢
      by_cases hside : o1.side = Side.buy
      · rw [if_pos hside] at hBp ⊢
        have hBask : B ∈ levelsOrders b.asks :=
          (collectLevels_fst_sublist _ _ _).mem (List.mem_map.mpr ⟨(B, qB), hBp, rfl⟩)
        have hlevr : (p, l1 ++ A :: l2 ++ B :: l3) ∈ b.asks := by
          rcases hlev with h | h
          · exfalso
            refine hdis ?_ (List.mem_map.mpr ⟨B, hBask, rfl⟩)
            exact List.mem_map.mpr ⟨B, mem_levelsOrders.mpr ⟨_, h, hBQ⟩, rfl⟩
          · exact h
        exact collectLevels_fifo _ _ _ hnda hlevr hBp
      · rw [if_neg hside] at hBp ⊢
        have hBbid : B ∈ levelsOrders b.bids :=
          (collectLevels_fst_sublist _ _ _).mem (List.mem_map.mpr ⟨(B, qB), hBp, rfl⟩)
        have hlevl : (p, l1 ++ A :: l2 ++ B :: l3) ∈ b.bids := by
          rcases hlev with h | h
          · exact h
          · exfalso
            refine hdis (List.mem_map.mpr ⟨B, hBbid, rfl⟩) ?_
            exact List.mem_map.mpr ⟨B, mem_levelsOrders.mpr ⟨_, h, hBQ⟩, rfl⟩
        exact collectLevels_fifo _ _ _ hndb hlevl hBp
    refine findOrderInBook_eq_none_iff.mpr ?_
    exact executeMatches_removes_full _ o1 hwf collectMatches_mem
      (collectMatches_nodup hwf) hApair

/-- FIFO through insertion, the crossing loop and the IOC sweep (the
normal AddOrder path). -/
theorem insertMatch_fifo (order1 : Order) {b : Orderbook} (hwf : WFBook b)
    (hlook : lookupEntry b.orders order1.orderId = none)
    {p : Int} {l1 l2 l3 : List Order} {A B : Order}
    (hlev : (p, l1 ++ A :: l2 ++ B :: l3) ∈ b.bids ∨
      (p, l1 ++ A :: l2 ++ B :: l3) ∈ b.asks)
    {B' : Order}
    (hB' : B' ∈ bookOrders (cancelIocOrders { insertOrder b order1 with
      bids := (matchLoop (matchLoopFuel (insertOrder b order1).bids (insertOrder b order1).asks) (insertOrder b order1).bids (insertOrder b order1).asks (insertOrder b order1).orders).2.1,
      asks := (matchLoop (matchLoopFuel (insertOrder b order1).bids (insertOrder b order1).asks) (insertOrder b order1).bids (insertOrder b order1).asks (insertOrder b order1).orders).2.2.1,
      orders := (matchLoop (matchLoopFuel (insertOrder b order1).bids (insertOrder b order1).asks) (insertOrder b order1).bids (insertOrder b order1).asks (insertOrder b order1).orders).2.2.2.1 }))
    (hid : B'.orderId = B.orderId)
    (hlt : B'.remainingQuantity < B.remainingQuantity) :
    findOrderInBook (cancelIocOrders { insertOrder b order1 with
      bids := (matchLoop (matchLoopFuel (insertOrder b order1).bids (insertOrder b order1).asks) (insertOrder b order1).bids (insertOrder b order1).asks (insertOrder b order1).orders).2.1,
      asks := (matchLoop (matchLoopFuel (insertOrder b order1).bids (insertOrder b order1).asks) (insertOrder b order1).bids (insertOrder b order1).asks (insertOrder b order1).orders).2.2.1,
      orders := (matchLoop (matchLoopFuel (insertOrder b order1).bids (insertOrder b order1).asks) (insertOrder b order1).bids (insertOrder b order1).asks (insertOrder b order1).orders).2.2.2.1 }) A.orderId = none := by
  have hwf3 : WFBook (insertOrder b order1) := insertOrder_wf hwf hlook
  have hlev3 : ∃ l3', (p, l1 ++ A :: l2 ++ B :: l3') ∈ (insertOrder b order1).bids ∨
      (p, l1 ++ A :: l2 ++ B :: l3') ∈ (insertOrder b order1).asks := by
    unfold insertOrder
    split
    · dsimp only
      rcases hlev with h | h
      · rcases insertIntoLevels_level_of_mem _ order1.price order1 h with h2 | ⟨h2, h3⟩
        · exact ⟨l3, Or.inl h2⟩
        · refine ⟨l3 ++ [order1], Or.inl ?_⟩
          have hsh : (l1 ++ A :: l2 ++ B :: l3) ++ [order1] =
              l1 ++ A :: l2 ++ B :: (l3 ++ [order1]) := by
            simp
          rw [← hsh]
          exact h3
      · exact ⟨l3, Or.inr h⟩
    · dsimp only
      rcases hlev with h | h
      · exact ⟨l3, Or.inl h⟩
      · rcases insertIntoLevels_level_of_mem _ order1.price order1 h with h2 | ⟨h2, h3⟩
        · exact ⟨l3, Or.inr h2⟩
        · refine ⟨l3 ++ [order1], Or.inr ?_⟩
          have hsh : (l1 ++ A :: l2 ++ B :: l3) ++ [order1] =
              l1 ++ A :: l2 ++ B :: (l3 ++ [order1]) := by
            simp
          rw [← hsh]
          exact h3
  rcases hlev3 with ⟨l3', hlev3⟩
  exact matchSweep_fifo _ hwf3 rfl hlev3 hB' hid hlt

/-- C2: price-time priority within a level. On a well-formed book, when the
day reset does not fire during the call, if a resting level queues A in
front of B at the same price and an AddOrder call leaves a resting order
with B's id and a strictly smaller remaining quantity, then A has been
fully consumed: it is no longer found in the book. -/
theorem c2_fifo (o : Order) (now : Nat) (b : Orderbook)
    (hwf : WFBook b)
    (hreset : shouldResetDay b now = false)
    {p : Int} {l1 l2 l3 : List Order} {A B : Order}
    (hlev : (p, l1 ++ A :: l2 ++ B :: l3) ∈ b.bids ∨
      (p, l1 ++ A :: l2 ++ B :: l3) ∈ b.asks)
    {B' : Order}
    (hB' : B' ∈ bookOrders (addOrder o now b).book)
    (hid : B'.orderId = B.orderId)
    (hlt : B'.remainingQuantity < B.remainingQuantity) :
    findOrderInBook (addOrder o now b).book A.orderId = none := by
  have hBQ : B ∈ l1 ++ A :: l2 ++ B :: l3 :=
    List.mem_append_right _ (List.mem_cons_self _ _)
  have hBbook : B ∈ bookOrders b := by
    rcases hlev with h | h
    · exact List.mem_append_left _ (mem_levelsOrders.mpr ⟨_, h, hBQ⟩)
    · exact List.mem_append_right _ (mem_levelsOrders.mpr ⟨_, h, hBQ⟩)
  have hcontra : B' ∈ bookOrders b → False := by
    intro h
    have h1 : B' = B := bookOrders_id_inj hwf h hBbook hid
    rw [h1] at hlt
    omega
  unfold addOrder at hB' ⊢
  rw [checkAndResetDay_of_not hreset] at hB' ⊢
  dsimp only at hB' ⊢
  by_cases hmkt : o.orderType = OrderType.market
  · rw [if_pos hmkt] at hB' ⊢
    by_cases h1 : o.side = Side.buy ∧ b.asks ≠ []
    · rw [if_pos h1] at hB' ⊢
      dsimp only at hB' ⊢
      revert hB'
      generalize (o.toGoodTillCancel priceMax).1 = o1
      intro hB'
      by_cases hvalid : (validateOrder b o1).isValid = true
      · rw [if_neg (fun hc => hc hvalid)] at hB' ⊢
        by_cases hioc : o1.orderType = OrderType.immediateOrCancel ∧
            ¬canMatch b o1.side o1.price = true
        · rw [if_pos hioc] at hB' ⊢
          dsimp only at hB' ⊢
          exfalso
          exact hcontra hB'
        · rw [if_neg hioc] at hB' ⊢
          by_cases hfok : o1.orderType = OrderType.fillOrKill
          · rw [if_pos hfok] at hB' ⊢
            exact matchFillOrKill_fifo hwf hlev hB' hid hlt
          · rw [if_neg hfok] at hB' ⊢
            dsimp only at hB' ⊢
            exact insertMatch_fifo o1 hwf (lookup_none_of_valid hvalid) hlev hB' hid hlt
      · rw [if_pos hvalid] at hB' ⊢
        dsimp only at hB' ⊢
        exfalso
        exact hcontra hB'
    · rw [if_neg h1] at hB' ⊢
      by_cases h2 : o.side = Side.sell ∧ b.bids ≠ []
      · rw [if_pos h2] at hB' ⊢
        dsimp only at hB' ⊢
        revert hB'
        generalize (o.toGoodTillCancel priceMin).1 = o1
        intro hB'
        by_cases hvalid : (validateOrder b o1).isValid = true
        · rw [if_neg (fun hc => hc hvalid)] at hB' ⊢
          by_cases hioc : o1.orderType = OrderType.immediateOrCancel ∧
              ¬canMatch b o1.side o1.price = true
          · rw [if_pos hioc] at hB' ⊢
            dsimp only at hB' ⊢
            exfalso
            exact hcontra hB'
          · rw [if_neg hioc] at hB' ⊢
            by_cases hfok : o1.orderType = OrderType.fillOrKill
            · rw [if_pos hfok] at hB' ⊢
              exact matchFillOrKill_fifo hwf hlev hB' hid hlt
            · rw [if_neg hfok] at hB' ⊢
              dsimp only at hB' ⊢
              exact insertMatch_fifo o1 hwf (lookup_none_of_valid hvalid) hlev hB' hid hlt
        · rw [if_pos hvalid] at hB' ⊢
          dsimp only at hB' ⊢
          exfalso
          exact hcontra hB'
      · rw [if_neg h2] at hB' ⊢
        dsimp only at hB' ⊢
        exfalso
        exact hcontra hB'
  · rw [if_neg hmkt] at hB' ⊢
    dsimp only at hB' ⊢
    by_cases hvalid : (validateOrder b o).isValid = true
    · rw [if_neg (fun hc => hc hvalid)] at hB' ⊢
      by_cases hioc : o.orderType = OrderType.immediateOrCancel ∧
          ¬canMatch b o.side o.price = true
      · rw [if_pos hioc] at hB' ⊢
        dsimp only at hB' ⊢
        exfalso
        exact hcontra hB'
      · rw [if_neg hioc] at hB' ⊢
        by_cases hfok : o.orderType = OrderType.fillOrKill
        · rw [if_pos hfok] at hB' ⊢
          exact matchFillOrKill_fifo hwf hlev hB' hid hlt
        · rw [if_neg hfok] at hB' ⊢
          dsimp only at hB' ⊢
          exact insertMatch_fifo o hwf (lookup_none_of_valid hvalid) hlev hB' hid hlt
    · rw [if_pos hvalid] at hB' ⊢
      dsimp only at hB' ⊢
      exfalso
      exact hcontra hB'

/-- A book with one ask level at 100 queueing order 1 (quantity 5) in
front of order 2 (quantity 5), built by two AddOrder calls. -/
def c2book : Orderbook :=
  (addOrder ⟨OrderType.goodTillCancel, 2, Side.sell, 100, 5, 5⟩ 0
    (addOrder ⟨OrderType.goodTillCancel, 1, Side.sell, 100, 5, 5⟩ 0
      (initialBook 0)).book).book

theorem c2book_wf : WFBook c2book :=
  ⟨by decide, by decide, by decide, by decide, by decide, by decide, by decide,
    by decide, by decide, by decide⟩

/-- C2 witness: a buy for 7 against the level [order 1 (5), order 2 (5)]
fills order 1 completely and order 2 partially; order 2 rests reduced to 3
and order 1 is gone. -/
theorem c2_fifo_witness :
    findOrderInBook (addOrder ⟨OrderType.goodTillCancel, 3, Side.buy, 100, 7, 7⟩ 0
      c2book).book 1 = none := by
  have h := c2_fifo ⟨OrderType.goodTillCancel, 3, Side.buy, 100, 7, 7⟩ 0 c2book
    c2book_wf (by decide)
    (Or.inr (show (100, [] ++ (⟨OrderType.goodTillCancel, 1, Side.sell, 100, 5, 5⟩ : Order) ::
      [] ++ (⟨OrderType.goodTillCancel, 2, Side.sell, 100, 5, 5⟩ : Order) :: []) ∈ c2book.asks
      by decide))
    (show (⟨OrderType.goodTillCancel, 2, Side.sell, 100, 5, 3⟩ : Order) ∈
      bookOrders (addOrder ⟨OrderType.goodTillCancel, 3, Side.buy, 100, 7, 7⟩ 0 c2book).book
      by decide)
    rfl (by decide)
  exact h

/-! Generalized conservation: machinery for aggressors of every order
type.  The IOC sweep after the crossing loop may cancel the aggressor's
own residue, but the only index entry that can carry type
ImmediateOrCancel is the aggressor's, so the sweep never touches the
opposite side. -/

theorem toGoodTillCancel_side (o : Order) (p : Int) :
    (o.toGoodTillCancel p).1.side = o.side := by
  unfold Order.toGoodTillCancel
  split <;> rfl

theorem toGoodTillCancel_remaining (o : Order) (p : Int) :
    (o.toGoodTillCancel p).1.remainingQuantity = o.remainingQuantity := by
  unfold Order.toGoodTillCancel
  split <;> rfl

theorem toGoodTillCancel_initial (o : Order) (p : Int) :
    (o.toGoodTillCancel p).1.initialQuantity = o.initialQuantity := by
  unfold Order.toGoodTillCancel
  split <;> rfl

theorem toGoodTillCancel_type_of_market {o : Order} (p : Int)
    (h : o.orderType = OrderType.market) :
    (o.toGoodTillCancel p).1.orderType = OrderType.goodTillCancel := by
  unfold Order.toGoodTillCancel
  rw [if_neg (fun hne => hne h)]

/-- Lookup of a present key in a duplicate-free index. -/
theorem lookupEntry_of_mem_nodup {idx : List (Nat × EntryInfo)}
    (hnd : (idx.map Prod.fst).Nodup) {kv : Nat × EntryInfo} (hm : kv ∈ idx) :
    lookupEntry idx kv.1 = some kv.2 := by
  induction idx with
  | nil => cases hm
  | cons kv0 rest ih =>
    simp only [List.map_cons, List.nodup_cons] at hnd
    simp only [lookupEntry]
    by_cases h0 : kv0.1 = kv.1
    · rw [if_pos h0]
      rcases List.mem_cons.mp hm with h1 | h1
      · rw [h1]
      · exfalso
        apply hnd.1
        rw [h0]
        exact List.mem_map.mpr ⟨kv, h1, rfl⟩
    · rw [if_neg h0]
      rcases List.mem_cons.mp hm with h1 | h1
      · exact absurd (by rw [h1]) h0
      · exact ih hnd.2 h1

/-- Cancelling ids whose index entries are all on the buy side leaves the
ask side untouched. -/
theorem foldl_cancelOrder_asks_eq (L : List Nat) : ∀ (b : Orderbook),
    (b.orders.map Prod.fst).Nodup →
    (∀ id ∈ L, ∀ e, lookupEntry b.orders id = some e → e.side = Side.buy) →
    (L.foldl cancelOrder b).asks = b.asks := by
  induction L with
  | nil =>
    intro b _ _
    rfl
  | cons id L' ih =>
    intro b hnd h
    show (L'.foldl cancelOrder (cancelOrder b id)).asks = b.asks
    cases hl : lookupEntry b.orders id with
    | none =>
      have hcb : cancelOrder b id = b := by
        unfold cancelOrder
        rw [hl]
      rw [hcb]
      exact ih b hnd (fun id' hid' e' hl' => h id' (List.mem_cons_of_mem _ hid') e' hl')
    | some e =>
      have hs : e.side = Side.buy := h id (List.mem_cons_self _ _) e hl
      have hsne : ¬e.side = Side.sell := by
        rw [hs]
        simp
      rw [cancelOrder_eq_buy hl hsne]
      have hnd2 : (((eraseEntry b.orders id)).map Prod.fst).Nodup :=
        hnd.sublist (eraseEntry_keys_sublist b.orders id)
      have h2 : ∀ id' ∈ L', ∀ e', lookupEntry (eraseEntry b.orders id) id' = some e' →
          e'.side = Side.buy := by
        intro id' hid' e' hl'
        by_cases hii : id' = id
        · rw [hii, lookupEntry_eraseEntry_self b.orders id hnd] at hl'
          cases hl'
        · rw [lookupEntry_eraseEntry_ne b.orders id id' hii] at hl'
          exact h id' (List.mem_cons_of_mem _ hid') e' hl'
      exact ih { b with orders := eraseEntry b.orders id, bids := eraseFromLevels e.price id b.bids } hnd2 h2

/-- Mirror: sell-side entries leave the bid side untouched. -/
theorem foldl_cancelOrder_bids_eq (L : List Nat) : ∀ (b : Orderbook),
    (b.orders.map Prod.fst).Nodup →
    (∀ id ∈ L, ∀ e, lookupEntry b.orders id = some e → e.side = Side.sell) →
    (L.foldl cancelOrder b).bids = b.bids := by
  induction L with
  | nil =>
    intro b _ _
    rfl
  | cons id L' ih =>
    intro b hnd h
    show (L'.foldl cancelOrder (cancelOrder b id)).bids = b.bids
    cases hl : lookupEntry b.orders id with
    | none =>
      have hcb : cancelOrder b id = b := by
        unfold cancelOrder
        rw [hl]
      rw [hcb]
      exact ih b hnd (fun id' hid' e' hl' => h id' (List.mem_cons_of_mem _ hid') e' hl')
    | some e =>
      have hs : e.side = Side.sell := h id (List.mem_cons_self _ _) e hl
      rw [cancelOrder_eq_sell hl hs]
      have hnd2 : (((eraseEntry b.orders id)).map Prod.fst).Nodup :=
        hnd.sublist (eraseEntry_keys_sublist b.orders id)
      have h2 : ∀ id' ∈ L', ∀ e', lookupEntry (eraseEntry b.orders id) id' = some e' →
          e'.side = Side.sell := by
        intro id' hid' e' hl'
        by_cases hii : id' = id
        · rw [hii, lookupEntry_eraseEntry_self b.orders id hnd] at hl'
          cases hl'
        · rw [lookupEntry_eraseEntry_ne b.orders id id' hii] at hl'
          exact h id' (List.mem_cons_of_mem _ hid') e' hl'
      exact ih { b with orders := eraseEntry b.orders id, asks := eraseFromLevels e.price id b.asks } hnd2 h2

/-- The IOC sweep leaves the ask side untouched when every IOC index
entry is a buy. -/
theorem cancelIocOrders_asks_eq {b : Orderbook}
    (hnd : (b.orders.map Prod.fst).Nodup)
    (h : ∀ kv ∈ b.orders, kv.2.orderType = OrderType.immediateOrCancel →
      kv.2.side = Side.buy) :
    (cancelIocOrders b).asks = b.asks := by
  unfold cancelIocOrders
  refine foldl_cancelOrder_asks_eq _ b hnd ?_
  intro id hid e hl
  rcases List.mem_map.mp hid with ⟨kv, hkv, hkvid⟩
  rcases List.mem_filter.mp hkv with ⟨hkvmem, hkvioc⟩
  have h1 := lookupEntry_of_mem_nodup hnd hkvmem
  rw [hkvid] at h1
  rw [h1] at hl
  have he : e = kv.2 := (Option.some.injEq _ _).mp hl.symm
  rw [he]
  exact h kv hkvmem (by simpa using hkvioc)

/-- Mirror: the IOC sweep leaves the bid side untouched when every IOC
index entry is a sell. -/
theorem cancelIocOrders_bids_eq {b : Orderbook}
    (hnd : (b.orders.map Prod.fst).Nodup)
    (h : ∀ kv ∈ b.orders, kv.2.orderType = OrderType.immediateOrCancel →
      kv.2.side = Side.sell) :
    (cancelIocOrders b).bids = b.bids := by
  unfold cancelIocOrders
  refine foldl_cancelOrder_bids_eq _ b hnd ?_
  intro id hid e hl
  rcases List.mem_map.mp hid with ⟨kv, hkv, hkvid⟩
  rcases List.mem_filter.mp hkv with ⟨hkvmem, hkvioc⟩
  have h1 := lookupEntry_of_mem_nodup hnd hkvmem
  rw [hkvid] at h1
  rw [h1] at hl
  have he : e = kv.2 := (Option.some.injEq _ _).mp hl.symm
  rw [he]
  exact h kv hkvmem (by simpa using hkvioc)

/-- An in-place fill reduces the queue total by exactly the filled
quantity. -/
theorem fillInLevel_totals (q : Nat) {l : List Order} {m : Order}
    (hnd : (idsOf l).Nodup) (hm : m ∈ l) (hq : q ≤ m.remainingQuantity) :
    totalRemaining (fillInLevel m.orderId q l).1 + q = totalRemaining l := by
  induction l with
  | nil => cases hm
  | cons o rest ih =>
    simp only [idsOf, List.map_cons, List.nodup_cons] at hnd
    simp only [fillInLevel]
    by_cases hid : o.orderId = m.orderId
    · rw [if_pos hid]
      have hom : o = m := by
        rcases List.mem_cons.mp hm with h1 | h1
        · exact h1.symm
        · exact absurd (by rw [hid]; exact List.mem_map.mpr ⟨m, h1, rfl⟩) hnd.1
      dsimp only
      rw [hom]
      show (m.fill q).1.remainingQuantity + totalRemaining rest + q =
        m.remainingQuantity + totalRemaining rest
      rw [Order.fill_remaining_of_le m q hq]
      omega
    · rw [if_neg hid]
      dsimp only
      rcases List.mem_cons.mp hm with h1 | h1
      · exact absurd (by rw [h1]) hid
      · show o.remainingQuantity + totalRemaining (fillInLevel m.orderId q rest).1 + q =
          o.remainingQuantity + totalRemaining rest
        have h2 := ih (by simpa [idsOf] using hnd.2) h1
        omega

/-- An in-place fill reduces the side total by exactly the filled
quantity. -/
theorem fillInLevels_totals (q : Nat) {ls : Levels} {m : Order}
    (hnd : (sideIds ls).Nodup) (hm : m ∈ levelsOrders ls)
    (hq : q ≤ m.remainingQuantity) :
    levelsRemaining (fillInLevels m.orderId q ls).1 + q = levelsRemaining ls := by
  induction ls with
  | nil => cases hm
  | cons pl rest ih =>
    rcases pl with ⟨p, l⟩
    have hnd2 : (idsOf l ++ sideIds rest).Nodup := by
      simpa [sideIds, idsOf, levelsOrders] using hnd
    rcases List.nodup_append.mp hnd2 with ⟨hndl, hndr, hdis⟩
    replace hm : m ∈ l ++ levelsOrders rest := hm
    simp only [fillInLevels]
    rcases List.mem_append.mp hm with h1 | h1
    · rw [fillInLevel_found_spec q hndl h1]
      show totalRemaining (fillInLevel m.orderId q l).1 + levelsRemaining rest + q =
        totalRemaining l + levelsRemaining rest
      have h2 := fillInLevel_totals q hndl h1 hq
      omega
    · have hnotl : m.orderId ∉ idsOf l := by
        intro hmem
        exact hdis hmem (List.mem_map.mpr ⟨m, h1, rfl⟩)
      rw [fillInLevel_not_found q hnotl]
      show totalRemaining l + levelsRemaining (fillInLevels m.orderId q rest).1 + q =
        totalRemaining l + levelsRemaining rest
      have h2 := ih hndr h1
      omega

/-- Filling a resting ask in place: the bid side is untouched verbatim,
the ask side is the in-place fill, and the ask total drops by the filled
quantity. -/
theorem fillOrderInBook_totals_asks {b : Orderbook} (hwf : WFBook b) (q : Nat)
    {m : Order} (hm : m ∈ levelsOrders b.asks) (hq : q ≤ m.remainingQuantity) :
    (fillOrderInBook b m.orderId q).1.bids = b.bids ∧
    (fillOrderInBook b m.orderId q).1.asks = (fillInLevels m.orderId q b.asks).1 ∧
    levelsRemaining (fillOrderInBook b m.orderId q).1.asks + q =
      levelsRemaining b.asks := by
  have hids := hwf.idsNodup
  rw [show bookOrders b = levelsOrders b.bids ++ levelsOrders b.asks from rfl,
    idsOf_append] at hids
  rcases List.nodup_append.mp hids with ⟨hndb, hnda, hdis⟩
  have hnotb : m.orderId ∉ sideIds b.bids := by
    intro hmem
    exact hdis hmem (List.mem_map.mpr ⟨m, hm, rfl⟩)
  unfold fillOrderInBook
  rw [fillInLevels_not_found q hnotb]
  dsimp only
  rw [fillInLevels_found_spec q hnda hm]
  dsimp only
  exact ⟨rfl, rfl, fillInLevels_totals q hnda hm hq⟩

/-- Mirror for filling a resting bid in place. -/
theorem fillOrderInBook_totals_bids {b : Orderbook} (hwf : WFBook b) (q : Nat)
    {m : Order} (hm : m ∈ levelsOrders b.bids) (hq : q ≤ m.remainingQuantity) :
    (fillOrderInBook b m.orderId q).1.asks = b.asks ∧
    (fillOrderInBook b m.orderId q).1.bids = (fillInLevels m.orderId q b.bids).1 ∧
    levelsRemaining (fillOrderInBook b m.orderId q).1.bids + q =
      levelsRemaining b.bids := by
  have hids := hwf.idsNodup
  rw [show bookOrders b = levelsOrders b.bids ++ levelsOrders b.asks from rfl,
    idsOf_append] at hids
  rcases List.nodup_append.mp hids with ⟨hndb, hnda, hdis⟩
  unfold fillOrderInBook
  rw [fillInLevels_found_spec q hndb hm]
  dsimp only
  exact ⟨rfl, rfl, fillInLevels_totals q hndb hm hq⟩

/-- Erasing an id whose holder has zero remaining quantity does not change
a queue total. -/
theorem eraseFromLevel_totals_zero {l : List Order} {id : Nat}
    (h : ∀ o ∈ l, o.orderId = id → o.remainingQuantity = 0) :
    totalRemaining (eraseFromLevel id l) = totalRemaining l := by
  induction l with
  | nil => rfl
  | cons o rest ih =>
    simp only [eraseFromLevel]
    by_cases h0 : o.orderId = id
    · rw [if_pos h0]
      have h1 := h o (List.mem_cons_self _ _) h0
      show totalRemaining rest = o.remainingQuantity + totalRemaining rest
      omega
    · rw [if_neg h0]
      show o.remainingQuantity + totalRemaining (eraseFromLevel id rest) =
        o.remainingQuantity + totalRemaining rest
      rw [ih (fun o' ho' => h o' (List.mem_cons_of_mem _ ho'))]

/-- Erasing an id whose holder has zero remaining quantity does not change
a side total. -/
theorem eraseFromLevels_totals_zero {ls : Levels} {price : Int} {id : Nat}
    (h : ∀ pl ∈ ls, ∀ o ∈ pl.2, o.orderId = id → o.remainingQuantity = 0) :
    levelsRemaining (eraseFromLevels price id ls) = levelsRemaining ls := by
  induction ls with
  | nil => rfl
  | cons pl rest ih =>
    rcases pl with ⟨p, l⟩
    simp only [eraseFromLevels]
    by_cases hp : p = price
    · rw [if_pos hp]
      have he : totalRemaining (eraseFromLevel id l) = totalRemaining l :=
        eraseFromLevel_totals_zero (fun o ho hid => h (p, l) (List.mem_cons_self _ _) o ho hid)
      split
      · next hemp =>
        show levelsRemaining rest = totalRemaining l + levelsRemaining rest
        rw [← he, hemp]
        show levelsRemaining rest = 0 + levelsRemaining rest
        omega
      · show totalRemaining (eraseFromLevel id l) + levelsRemaining rest =
          totalRemaining l + levelsRemaining rest
        omega
    · rw [if_neg hp]
      show totalRemaining l + levelsRemaining (eraseFromLevels price id rest) =
        totalRemaining l + levelsRemaining rest
      rw [ih (fun pl' hpl' => h pl' (List.mem_cons_of_mem _ hpl'))]

/-- Cancelling a fully filled resting order changes no side total. -/
theorem cancelOrder_totals_zero {b : Orderbook} (hwf : WFBook b) {m : Order}
    (hm : m ∈ bookOrders b) (hz : m.remainingQuantity = 0) :
    levelsRemaining (cancelOrder b m.orderId).bids = levelsRemaining b.bids ∧
    levelsRemaining (cancelOrder b m.orderId).asks = levelsRemaining b.asks := by
  have hl := hwf.idxComplete m hm
  have hzasks : ∀ pl ∈ b.asks, ∀ o ∈ pl.2, o.orderId = m.orderId →
      o.remainingQuantity = 0 := by
    intro pl hpl o ho hoid
    have hob : o ∈ bookOrders b :=
      List.mem_append_right _ (mem_levelsOrders.mpr ⟨pl, hpl, ho⟩)
    have h1 : o = m := bookOrders_id_inj hwf hob hm hoid
    rw [h1]
    exact hz
  have hzbids : ∀ pl ∈ b.bids, ∀ o ∈ pl.2, o.orderId = m.orderId →
      o.remainingQuantity = 0 := by
    intro pl hpl o ho hoid
    have hob : o ∈ bookOrders b :=
      List.mem_append_left _ (mem_levelsOrders.mpr ⟨pl, hpl, ho⟩)
    have h1 : o = m := bookOrders_id_inj hwf hob hm hoid
    rw [h1]
    exact hz
  by_cases hs : (entryInfoOf m).side = Side.sell
  · rw [cancelOrder_eq_sell hl hs]
    exact ⟨rfl, eraseFromLevels_totals_zero hzasks⟩
  · rw [cancelOrder_eq_buy hl hs]
    exact ⟨eraseFromLevels_totals_zero hzbids, rfl⟩

theorem sumTradeQty_cons (t : Trade) (ts : Trades) :
    sumTradeQty (t :: ts) = t.bidTrade.quantity + sumTradeQty ts := rfl

/-- Conservation through the FillOrKill execution phase when every
collected order rests on the ask side: the emitted trade quantities sum to
the collected total, the aggressor is reduced by exactly that total, the
bid side is untouched, and the ask side total drops by that total. -/
theorem executeMatches_conservation_asks :
    ∀ (P : List (Order × Nat)) {b : Orderbook} (o : Order),
      WFBook b →
      (∀ pr ∈ P, pr.1 ∈ levelsOrders b.asks) →
      (∀ pr ∈ P, pr.2 ≤ pr.1.remainingQuantity) →
      (P.map (fun pr => pr.1.orderId)).Nodup →
      pairSum P ≤ o.remainingQuantity →
      sumTradeQty (executeMatchesForFillOrKill o b P).1 = pairSum P ∧
      (executeMatchesForFillOrKill o b P).2.1.remainingQuantity =
        o.remainingQuantity - pairSum P ∧
      (executeMatchesForFillOrKill o b P).2.2.1.bids = b.bids ∧
      levelsRemaining (executeMatchesForFillOrKill o b P).2.2.1.asks + pairSum P =
        levelsRemaining b.asks := by
  intro P
  induction P with
  | nil =>
    intro b o hwf _ _ _ _
    refine ⟨rfl, ?_, rfl, ?_⟩
    · show o.remainingQuantity = o.remainingQuantity - 0
      omega
    · show levelsRemaining b.asks + 0 = levelsRemaining b.asks
      omega
  | cons pr rest ih =>
    rcases pr with ⟨mo, q⟩
    intro b o hwf hmem hq hnd hsum
    have hmoa : mo ∈ levelsOrders b.asks := hmem (mo, q) (List.mem_cons_self _ _)
    have hmo : mo ∈ bookOrders b := List.mem_append_right _ hmoa
    have hqmo : q ≤ mo.remainingQuantity := hq (mo, q) (List.mem_cons_self _ _)
    simp only [List.map_cons, List.nodup_cons] at hnd
    have hne : ∀ pr ∈ rest, pr.1.orderId ≠ mo.orderId := by
      intro pr hpr he
      exact hnd.1 (by rw [← he]; exact List.mem_map.mpr ⟨pr, hpr, rfl⟩)
    have hsum0 : q + pairSum rest ≤ o.remainingQuantity := by
      have h0 : pairSum ((mo, q) :: rest) = q + pairSum rest := rfl
      omega
    have hwfF : WFBook (fillOrderInBook b mo.orderId q).1 := fillOrderInBook_wf hwf _ _
    have hF := fillOrderInBook_totals_asks hwf q hmoa hqmo
    have hfillmem : (mo.fill q).1 ∈ bookOrders (fillOrderInBook b mo.orderId q).1 :=
      fillOrderInBook_fill_mem hwf q hmo
    have hfind : findOrderInBook (fillOrderInBook b mo.orderId q).1 mo.orderId =
        some (mo.fill q).1 := by
      have h1 := findOrderInBook_eq_some hwfF hfillmem
      rw [Order.fill_orderId] at h1
      exact h1
    have hmemF : ∀ pr ∈ rest,
        pr.1 ∈ levelsOrders (fillOrderInBook b mo.orderId q).1.asks := by
      intro pr hpr
      rw [hF.2.1]
      exact fillInLevels_mem_order_ne (hmem pr (List.mem_cons_of_mem _ hpr)) (hne pr hpr)
    have hqC : ∀ pr ∈ rest, pr.2 ≤ pr.1.remainingQuantity :=
      fun pr hpr => hq pr (List.mem_cons_of_mem _ hpr)
    have hremo : (o.fill q).1.remainingQuantity = o.remainingQuantity - q :=
      Order.fill_remaining_of_le o q (by omega)
    have hsumC : pairSum rest ≤ (o.fill q).1.remainingQuantity := by
      rw [hremo]
      omega
    simp only [executeMatchesForFillOrKill]
    rw [hfind]
    dsimp only
    by_cases hfilled : (mo.fill q).1.isFilled = true
    · rw [if_pos hfilled]
      have hz : (mo.fill q).1.remainingQuantity = 0 := by
        unfold Order.isFilled at hfilled
        simpa using hfilled
      have hC := cancelOrder_totals_zero hwfF hfillmem hz
      rw [Order.fill_orderId] at hC
      have hmoside : mo.side = Side.sell := by
        rcases mem_levelsOrders.mp hmoa with ⟨pl, hpl, hin⟩
        exact (hwf.asksSide pl hpl mo hin).1
      have hlk : lookupEntry (fillOrderInBook b mo.orderId q).1.orders mo.orderId =
          some (entryInfoOf (mo.fill q).1) := by
        have h1 := hwfF.idxComplete (mo.fill q).1 hfillmem
        rw [Order.fill_orderId] at h1
        exact h1
      have hsellE : (entryInfoOf (mo.fill q).1).side = Side.sell := by
        show (mo.fill q).1.side = Side.sell
        rw [Order.fill_side]
        exact hmoside
      have hshape := cancelOrder_eq_sell hlk hsellE
      have hwfC : WFBook (cancelOrder (fillOrderInBook b mo.orderId q).1 mo.orderId) :=
        cancelOrder_wf hwfF _
      have hmemC : ∀ pr ∈ rest, pr.1 ∈
          levelsOrders (cancelOrder (fillOrderInBook b mo.orderId q).1 mo.orderId).asks := by
        intro pr hpr
        rw [hshape]
        show pr.1 ∈ levelsOrders (eraseFromLevels (entryInfoOf (mo.fill q).1).price
          mo.orderId (fillOrderInBook b mo.orderId q).1.asks)
        exact mem_eraseFromLevels_of_ne (hmemF pr hpr) (hne pr hpr)
      have hbidsC : (cancelOrder (fillOrderInBook b mo.orderId q).1 mo.orderId).bids =
          b.bids := by
        rw [hshape]
        show (fillOrderInBook b mo.orderId q).1.bids = b.bids
        exact hF.1
      have hih := ih ((o.fill q).1) hwfC hmemC hqC hnd.2 hsumC
      refine ⟨?_, ?_, ?_, ?_⟩
      · rw [sumTradeQty_cons, hih.1]
        show _ = q + pairSum rest
        split <;> rfl
      · show (executeMatchesForFillOrKill (o.fill q).1
            (cancelOrder (fillOrderInBook b mo.orderId q).1 mo.orderId)
            rest).2.1.remainingQuantity = o.remainingQuantity - (q + pairSum rest)
        rw [hih.2.1, hremo]
        omega
      · rw [hih.2.2.1]
        exact hbidsC
      · show levelsRemaining (executeMatchesForFillOrKill (o.fill q).1
            (cancelOrder (fillOrderInBook b mo.orderId q).1 mo.orderId)
            rest).2.2.1.asks + (q + pairSum rest) = levelsRemaining b.asks
        have h1 := hih.2.2.2
        have h2 := hC.2
        have h3 := hF.2.2
        omega
    · rw [if_neg hfilled]
      have hih := ih ((o.fill q).1) hwfF hmemF hqC hnd.2 hsumC
      refine ⟨?_, ?_, ?_, ?_⟩
      · rw [sumTradeQty_cons, hih.1]
        show _ = q + pairSum rest
        split <;> rfl
      · show (executeMatchesForFillOrKill (o.fill q).1
            (fillOrderInBook b mo.orderId q).1 rest).2.1.remainingQuantity =
            o.remainingQuantity - (q + pairSum rest)
        rw [hih.2.1, hremo]
        omega
      · rw [hih.2.2.1]
        exact hF.1
      · show levelsRemaining (executeMatchesForFillOrKill (o.fill q).1
            (fillOrderInBook b mo.orderId q).1 rest).2.2.1.asks + (q + pairSum rest) =
            levelsRemaining b.asks
        have h1 := hih.2.2.2
        have h3 := hF.2.2
        omega

/-- Mirror of executeMatches_conservation_asks for collected bid-side
orders. -/
theorem executeMatches_conservation_bids :
    ∀ (P : List (Order × Nat)) {b : Orderbook} (o : Order),
      WFBook b →
      (∀ pr ∈ P, pr.1 ∈ levelsOrders b.bids) →
      (∀ pr ∈ P, pr.2 ≤ pr.1.remainingQuantity) →
      (P.map (fun pr => pr.1.orderId)).Nodup →
      pairSum P ≤ o.remainingQuantity →
      sumTradeQty (executeMatchesForFillOrKill o b P).1 = pairSum P ∧
      (executeMatchesForFillOrKill o b P).2.1.remainingQuantity =
        o.remainingQuantity - pairSum P ∧
      (executeMatchesForFillOrKill o b P).2.2.1.asks = b.asks ∧
      levelsRemaining (executeMatchesForFillOrKill o b P).2.2.1.bids + pairSum P =
        levelsRemaining b.bids := by
  intro P
  induction P with
  | nil =>
    intro b o hwf _ _ _ _
    refine ⟨rfl, ?_, rfl, ?_⟩
    · show o.remainingQuantity = o.remainingQuantity - 0
      omega
    · show levelsRemaining b.bids + 0 = levelsRemaining b.bids
      omega
  | cons pr rest ih =>
    rcases pr with ⟨mo, q⟩
    intro b o hwf hmem hq hnd hsum
    have hmob : mo ∈ levelsOrders b.bids := hmem (mo, q) (List.mem_cons_self _ _)
    have hmo : mo ∈ bookOrders b := List.mem_append_left _ hmob
    have hqmo : q ≤ mo.remainingQuantity := hq (mo, q) (List.mem_cons_self _ _)
    simp only [List.map_cons, List.nodup_cons] at hnd
    have hne : ∀ pr ∈ rest, pr.1.orderId ≠ mo.orderId := by
      intro pr hpr he
      exact hnd.1 (by rw [← he]; exact List.mem_map.mpr ⟨pr, hpr, rfl⟩)
    have hsum0 : q + pairSum rest ≤ o.remainingQuantity := by
      have h0 : pairSum ((mo, q) :: rest) = q + pairSum rest := rfl
      omega
    have hwfF : WFBook (fillOrderInBook b mo.orderId q).1 := fillOrderInBook_wf hwf _ _
    have hF := fillOrderInBook_totals_bids hwf q hmob hqmo
    have hfillmem : (mo.fill q).1 ∈ bookOrders (fillOrderInBook b mo.orderId q).1 :=
      fillOrderInBook_fill_mem hwf q hmo
    have hfind : findOrderInBook (fillOrderInBook b mo.orderId q).1 mo.orderId =
        some (mo.fill q).1 := by
      have h1 := findOrderInBook_eq_some hwfF hfillmem
      rw [Order.fill_orderId] at h1
      exact h1
    have hmemF : ∀ pr ∈ rest,
        pr.1 ∈ levelsOrders (fillOrderInBook b mo.orderId q).1.bids := by
      intro pr hpr
      rw [hF.2.1]
      exact fillInLevels_mem_order_ne (hmem pr (List.mem_cons_of_mem _ hpr)) (hne pr hpr)
    have hqC : ∀ pr ∈ rest, pr.2 ≤ pr.1.remainingQuantity :=
      fun pr hpr => hq pr (List.mem_cons_of_mem _ hpr)
    have hremo : (o.fill q).1.remainingQuantity = o.remainingQuantity - q :=
      Order.fill_remaining_of_le o q (by omega)
    have hsumC : pairSum rest ≤ (o.fill q).1.remainingQuantity := by
      rw [hremo]
      omega
    simp only [executeMatchesForFillOrKill]
    rw [hfind]
    dsimp only
    by_cases hfilled : (mo.fill q).1.isFilled = true
    · rw [if_pos hfilled]
      have hz : (mo.fill q).1.remainingQuantity = 0 := by
        unfold Order.isFilled at hfilled
        simpa using hfilled
      have hC := cancelOrder_totals_zero hwfF hfillmem hz
      rw [Order.fill_orderId] at hC
      have hmoside : mo.side = Side.buy := by
        rcases mem_levelsOrders.mp hmob with ⟨pl, hpl, hin⟩
        exact (hwf.bidsSide pl hpl mo hin).1
      have hlk : lookupEntry (fillOrderInBook b mo.orderId q).1.orders mo.orderId =
          some (entryInfoOf (mo.fill q).1) := by
        have h1 := hwfF.idxComplete (mo.fill q).1 hfillmem
        rw [Order.fill_orderId] at h1
        exact h1
      have hbuyE : ¬(entryInfoOf (mo.fill q).1).side = Side.sell := by
        show ¬(mo.fill q).1.side = Side.sell
        rw [Order.fill_side, hmoside]
        simp
      have hshape := cancelOrder_eq_buy hlk hbuyE
      have hwfC : WFBook (cancelOrder (fillOrderInBook b mo.orderId q).1 mo.orderId) :=
        cancelOrder_wf hwfF _
      have hmemC : ∀ pr ∈ rest, pr.1 ∈
          levelsOrders (cancelOrder (fillOrderInBook b mo.orderId q).1 mo.orderId).bids := by
        intro pr hpr
        rw [hshape]
        show pr.1 ∈ levelsOrders (eraseFromLevels (entryInfoOf (mo.fill q).1).price
          mo.orderId (fillOrderInBook b mo.orderId q).1.bids)
        exact mem_eraseFromLevels_of_ne (hmemF pr hpr) (hne pr hpr)
      have hasksC : (cancelOrder (fillOrderInBook b mo.orderId q).1 mo.orderId).asks =
          b.asks := by
        rw [hshape]
        show (fillOrderInBook b mo.orderId q).1.asks = b.asks
        exact hF.1
      have hih := ih ((o.fill q).1) hwfC hmemC hqC hnd.2 hsumC
      refine ⟨?_, ?_, ?_, ?_⟩
      · rw [sumTradeQty_cons, hih.1]
        show _ = q + pairSum rest
        split <;> rfl
      · show (executeMatchesForFillOrKill (o.fill q).1
            (cancelOrder (fillOrderInBook b mo.orderId q).1 mo.orderId)
            rest).2.1.remainingQuantity = o.remainingQuantity - (q + pairSum rest)
        rw [hih.2.1, hremo]
        omega
      · rw [hih.2.2.1]
        exact hasksC
      · show levelsRemaining (executeMatchesForFillOrKill (o.fill q).1
            (cancelOrder (fillOrderInBook b mo.orderId q).1 mo.orderId)
            rest).2.2.1.bids + (q + pairSum rest) = levelsRemaining b.bids
        have h1 := hih.2.2.2
        have h2 := hC.1
        have h3 := hF.2.2
        omega
    · rw [if_neg hfilled]
      have hih := ih ((o.fill q).1) hwfF hmemF hqC hnd.2 hsumC
      refine ⟨?_, ?_, ?_, ?_⟩
      · rw [sumTradeQty_cons, hih.1]
        show _ = q + pairSum rest
        split <;> rfl
      · show (executeMatchesForFillOrKill (o.fill q).1
            (fillOrderInBook b mo.orderId q).1 rest).2.1.remainingQuantity =
            o.remainingQuantity - (q + pairSum rest)
        rw [hih.2.1, hremo]
        omega
      · rw [hih.2.2.1]
        exact hF.1
      · show levelsRemaining (executeMatchesForFillOrKill (o.fill q).1
            (fillOrderInBook b mo.orderId q).1 rest).2.2.1.bids + (q + pairSum rest) =
            levelsRemaining b.bids
        have h1 := hih.2.2.2
        have h3 := hF.2.2
        omega

/-- Conservation through the FillOrKill path: either the call is rejected
with no trades and an untouched book, or the collected pairs sum to the
whole demand and the execution drains exactly that amount from the
opposite side and from the aggressor. -/
theorem matchFillOrKill_conservation {o1 : Order} {b : Orderbook} (hwf : WFBook b)
    (hrem : o1.remainingQuantity = o1.initialQuantity) :
    sumTradeQty (matchFillOrKill o1 b).trades =
      o1.initialQuantity - (matchFillOrKill o1 b).aggressor.remainingQuantity ∧
    (o1.side = Side.buy → levelsRemaining b.asks =
      levelsRemaining (matchFillOrKill o1 b).book.asks +
        sumTradeQty (matchFillOrKill o1 b).trades) ∧
    (o1.side = Side.sell → levelsRemaining b.bids =
      levelsRemaining (matchFillOrKill o1 b).book.bids +
        sumTradeQty (matchFillOrKill o1 b).trades) := by
  unfold matchFillOrKill
  dsimp only
  by_cases hrej : 0 < (collectMatchesForFillOrKill o1 b).2
  · rw [if_pos hrej]
    refine ⟨?_, ?_, ?_⟩
    · show sumTradeQty [] = o1.initialQuantity - o1.remainingQuantity
      simp only [sumTradeQty]
      omega
    · intro _
      show levelsRemaining b.asks = levelsRemaining b.asks + sumTradeQty []
      simp [sumTradeQty]
    · intro _
      show levelsRemaining b.bids = levelsRemaining b.bids + sumTradeQty []
      simp [sumTradeQty]
  · rw [if_neg hrej]
    dsimp only
    have hsum := collectMatches_sum o1 b
    have hps : pairSum (collectMatchesForFillOrKill o1 b).1 = o1.remainingQuantity := by
      omega
    by_cases hside : o1.side = Side.buy
    · have hmemasks : ∀ pr ∈ (collectMatchesForFillOrKill o1 b).1,
          pr.1 ∈ levelsOrders b.asks := by
        intro pr hpr
        unfold collectMatchesForFillOrKill at hpr
        rw [if_pos hside] at hpr
        exact (collectLevels_fst_sublist _ _ _).mem (List.mem_map.mpr ⟨pr, hpr, rfl⟩)
      have hc := executeMatches_conservation_asks _ o1 hwf hmemasks collectMatches_qty
        (collectMatches_nodup hwf) (by omega)
      refine ⟨?_, ?_, ?_⟩
      · have h1 := hc.1
        have h2 := hc.2.1
        omega
      · intro _
        have h1 := hc.1
        have h2 := hc.2.2.2
        omega
      · intro hs
        rw [hside] at hs
        cases hs
    · have hsell : o1.side = Side.sell := by
        cases h : o1.side with
        | buy => exact absurd h hside
        | sell => rfl
      have hmembids : ∀ pr ∈ (collectMatchesForFillOrKill o1 b).1,
          pr.1 ∈ levelsOrders b.bids := by
        intro pr hpr
        unfold collectMatchesForFillOrKill at hpr
        rw [if_neg hside] at hpr
        exact (collectLevels_fst_sublist _ _ _).mem (List.mem_map.mpr ⟨pr, hpr, rfl⟩)
      have hc := executeMatches_conservation_bids _ o1 hwf hmembids collectMatches_qty
        (collectMatches_nodup hwf) (by omega)
      refine ⟨?_, ?_, ?_⟩
      · have h1 := hc.1
        have h2 := hc.2.1
        omega
      · intro hs
        rw [hsell] at hs
        cases hs
      · intro _
        have h1 := hc.1
        have h2 := hc.2.2.2
        omega

/-- Conservation through the normal AddOrder path (insert, crossing loop,
IOC sweep) for an aggressor of any order type: the traded total equals the
aggressor's consumed quantity (read before the sweep, as AddOrder does),
and the opposite side's total drops by the traded total; the sweep can
cancel only the aggressor's own residue, never the opposite side. -/
theorem insertMatch_conservation (order1 : Order) {b : Orderbook}
    (hwf : WFBook b) (hu : allUncrossed b)
    (hnoioc : ∀ x ∈ bookOrders b, x.orderType ≠ OrderType.immediateOrCancel)
    (hlook : lookupEntry b.orders order1.orderId = none)
    (hrem : order1.remainingQuantity = order1.initialQuantity) :
    sumTradeQty (matchLoop (matchLoopFuel (insertOrder b order1).bids (insertOrder b order1).asks) (insertOrder b order1).bids (insertOrder b order1).asks (insertOrder b order1).orders).1 = order1.initialQuantity - ((findOrderInBook { insertOrder b order1 with bids := (matchLoop (matchLoopFuel (insertOrder b order1).bids (insertOrder b order1).asks) (insertOrder b order1).bids (insertOrder b order1).asks (insertOrder b order1).orders).2.1, asks := (matchLoop (matchLoopFuel (insertOrder b order1).bids (insertOrder b order1).asks) (insertOrder b order1).bids (insertOrder b order1).asks (insertOrder b order1).orders).2.2.1, orders := (matchLoop (matchLoopFuel (insertOrder b order1).bids (insertOrder b order1).asks) (insertOrder b order1).bids (insertOrder b order1).asks (insertOrder b order1).orders).2.2.2.1 } order1.orderId).getD { order1 with remainingQuantity := 0 }).remainingQuantity ∧
    (order1.side = Side.buy → levelsRemaining b.asks = levelsRemaining (cancelIocOrders { insertOrder b order1 with bids := (matchLoop (matchLoopFuel (insertOrder b order1).bids (insertOrder b order1).asks) (insertOrder b order1).bids (insertOrder b order1).asks (insertOrder b order1).orders).2.1, asks := (matchLoop (matchLoopFuel (insertOrder b order1).bids (insertOrder b order1).asks) (insertOrder b order1).bids (insertOrder b order1).asks (insertOrder b order1).orders).2.2.1, orders := (matchLoop (matchLoopFuel (insertOrder b order1).bids (insertOrder b order1).asks) (insertOrder b order1).bids (insertOrder b order1).asks (insertOrder b order1).orders).2.2.2.1 }).asks + sumTradeQty (matchLoop (matchLoopFuel (insertOrder b order1).bids (insertOrder b order1).asks) (insertOrder b order1).bids (insertOrder b order1).asks (insertOrder b order1).orders).1) ∧
    (order1.side = Side.sell → levelsRemaining b.bids = levelsRemaining (cancelIocOrders { insertOrder b order1 with bids := (matchLoop (matchLoopFuel (insertOrder b order1).bids (insertOrder b order1).asks) (insertOrder b order1).bids (insertOrder b order1).asks (insertOrder b order1).orders).2.1, asks := (matchLoop (matchLoopFuel (insertOrder b order1).bids (insertOrder b order1).asks) (insertOrder b order1).bids (insertOrder b order1).asks (insertOrder b order1).orders).2.2.1, orders := (matchLoop (matchLoopFuel (insertOrder b order1).bids (insertOrder b order1).asks) (insertOrder b order1).bids (insertOrder b order1).asks (insertOrder b order1).orders).2.2.2.1 }).bids + sumTradeQty (matchLoop (matchLoopFuel (insertOrder b order1).bids (insertOrder b order1).asks) (insertOrder b order1).bids (insertOrder b order1).asks (insertOrder b order1).orders).1) := by
  have hfresh2 : order1.orderId ∉ idsOf (bookOrders b) :=
    not_mem_ids_of_lookup_none hwf hlook
  have hwf3 : WFBook (insertOrder b order1) := insertOrder_wf hwf hlook
  have hEo : (insertOrder b order1).orders =
      (order1.orderId, entryInfoOf order1) :: b.orders := by
    unfold insertOrder
    split <;> rfl
  have hentio : ∀ kv ∈ (order1.orderId, entryInfoOf order1) :: b.orders,
      kv.2.orderType = OrderType.immediateOrCancel → kv.2.side = order1.side := by
    intro kv hkv hioc
    rcases List.mem_cons.mp hkv with h1 | h1
    · rw [h1]
      rfl
    · exact absurd hioc (entries_no_ioc hwf hnoioc kv h1)
  by_cases hside : order1.side = Side.buy
  · have E3 : insertOrder b order1 =
        { b with bids := insertIntoLevels (fun x y => decide (y < x)) order1.price order1 b.bids,
                 orders := (order1.orderId, entryInfoOf order1) :: b.orders } := by
      unfold insertOrder
      rw [if_pos hside]
    by_cases hcross : ∀ ka ∈ b.asks.map Prod.fst, order1.price < ka
    · -- the order1 does not cross: the loop does nothing
      have hallpairs : ∀ kb ∈ (insertIntoLevels (fun x y => decide (y < x)) order1.price order1 b.bids).map Prod.fst,
          ∀ ka ∈ b.asks.map Prod.fst, kb < ka := by
        intro kb hkb ka hka
        rcases insertIntoLevels_keys _ order1.price order1 b.bids kb hkb with h1 | h1
        · rw [h1]
          exact hcross ka hka
        · exact hu kb h1 ka hka
      rw [E3]
      dsimp only
      rw [matchLoop_stop
        (matchLoopFuel (insertIntoLevels (fun x y => decide (y < x)) order1.price order1 b.bids) b.asks)
        (insertIntoLevels (fun x y => decide (y < x)) order1.price order1 b.bids) b.asks
        ((order1.orderId, entryInfoOf order1) :: b.orders) hallpairs]
      dsimp only
      have hwf3b : WFBook
          { b with bids := insertIntoLevels (fun x y => decide (y < x)) order1.price order1 b.bids,
                   orders := (order1.orderId, entryInfoOf order1) :: b.orders } := by
        rw [E3] at hwf3
        exact hwf3
      have hmem3 : order1 ∈ bookOrders
          { b with bids := insertIntoLevels (fun x y => decide (y < x)) order1.price order1 b.bids,
                   orders := (order1.orderId, entryInfoOf order1) :: b.orders } := by
        show order1 ∈ levelsOrders (insertIntoLevels (fun x y => decide (y < x)) order1.price order1 b.bids) ++ levelsOrders b.asks
        refine List.mem_append_left _ ?_
        exact (insertIntoLevels_orders_perm _ order1.price order1 b.bids).symm.subset
          (List.mem_cons_self _ _)
      have hfind := findOrderInBook_eq_some hwf3b hmem3
      rw [hfind]
      have hsweepasks : (cancelIocOrders { b with bids := insertIntoLevels (fun x y => decide (y < x)) order1.price order1 b.bids, orders := (order1.orderId, entryInfoOf order1) :: b.orders }).asks = ({ b with bids := insertIntoLevels (fun x y => decide (y < x)) order1.price order1 b.bids, orders := (order1.orderId, entryInfoOf order1) :: b.orders } : Orderbook).asks := by
        refine cancelIocOrders_asks_eq hwf3b.idxKeysNodup ?_
        intro kv hkv hioc
        have h1 := hentio kv hkv hioc
        rw [h1]
        exact hside
      refine ⟨?_, ?_, ?_⟩
      · show sumTradeQty [] = order1.initialQuantity - order1.remainingQuantity
        simp only [sumTradeQty]
        omega
      · intro _
        rw [hsweepasks]
        show levelsRemaining b.asks = levelsRemaining b.asks + sumTradeQty []
        simp [sumTradeQty]
      · intro hsell
        rw [hside] at hsell
        cases hsell
    · -- the order1 crosses: it sits alone at the strictly best bid level
      push_neg at hcross
      rcases hcross with ⟨ka0, hka0, hka0le⟩
      have hfrontkeys : ∀ k ∈ b.bids.map Prod.fst, k < order1.price := by
        intro k hk
        have h1 := hu k hk ka0 hka0
        omega
      have hfront := @insertIntoLevels_front_buy order1.price order1 b.bids hfrontkeys
      rw [E3, hfront] at hwf3 ⊢
      dsimp only
      have hwfm : WFBook (mkBook ((order1.price, [order1]) :: b.bids) b.asks
          ((order1.orderId, entryInfoOf order1) :: b.orders)) := wf_mkBook_of_wf hwf3
      have hukeys : ∀ kb ∈ b.bids.map Prod.fst, ∀ ka ∈ b.asks.map Prod.fst, kb < ka := hu
      have haggr := matchLoop_aggr
        (matchLoopFuel ((order1.price, [order1]) :: b.bids) b.asks)
        order1.price order1 b.bids b.asks
        ((order1.orderId, entryInfoOf order1) :: b.orders)
        (le_refl _) hwfm hukeys
      have hmain := matchLoop_main
        (matchLoopFuel ((order1.price, [order1]) :: b.bids) b.asks)
        ((order1.price, [order1]) :: b.bids) b.asks
        ((order1.orderId, entryInfoOf order1) :: b.orders)
        (le_refl _) hwfm
      have hsweepasks : ∀ bb : Orderbook,
          bb.orders = (matchLoop (matchLoopFuel ((order1.price, [order1]) :: b.bids) b.asks)
            ((order1.price, [order1]) :: b.bids) b.asks
            ((order1.orderId, entryInfoOf order1) :: b.orders)).2.2.2.1 →
          (cancelIocOrders bb).asks = bb.asks := by
        intro bb hbb
        refine cancelIocOrders_asks_eq ?_ ?_
        · rw [hbb]
          exact hmain.1.idxKeysNodup
        · intro kv hkv hioc
          rw [hbb] at hkv
          have h1 := matchLoop_idx_sub _ _ _ _ kv hkv
          have h2 := hentio kv h1 hioc
          rw [h2]
          exact hside
      have hids_b : idsOf (bookOrders b) =
          idsOf (levelsOrders b.bids) ++ idsOf (levelsOrders b.asks) := by
        rw [← idsOf_append]
        rfl
      rcases haggr with ⟨hA1, hA2⟩ | ⟨hB1, hB2⟩
      · rw [hA1]
        have hfindnone : findOrderInBook
            { bids := b.bids,
              asks := (matchLoop (matchLoopFuel ((order1.price, [order1]) :: b.bids) b.asks) ((order1.price, [order1]) :: b.bids) b.asks ((order1.orderId, entryInfoOf order1) :: b.orders)).2.2.1,
              orders := (matchLoop (matchLoopFuel ((order1.price, [order1]) :: b.bids) b.asks) ((order1.price, [order1]) :: b.bids) b.asks ((order1.orderId, entryInfoOf order1) :: b.orders)).2.2.2.1,
              lastDayReset := b.lastDayReset, dayResetHour := b.dayResetHour,
              dayResetMinute := b.dayResetMinute, stats := b.stats,
              lastSequenceNumber := b.lastSequenceNumber, isInitialized := b.isInitialized,
              exchangeRules := b.exchangeRules } order1.orderId = none := by
          refine findOrderInBook_eq_none_iff.mpr ?_
          intro hmem
          rw [show bookOrders
            { bids := b.bids,
              asks := (matchLoop (matchLoopFuel ((order1.price, [order1]) :: b.bids) b.asks) ((order1.price, [order1]) :: b.bids) b.asks ((order1.orderId, entryInfoOf order1) :: b.orders)).2.2.1,
              orders := (matchLoop (matchLoopFuel ((order1.price, [order1]) :: b.bids) b.asks) ((order1.price, [order1]) :: b.bids) b.asks ((order1.orderId, entryInfoOf order1) :: b.orders)).2.2.2.1,
              lastDayReset := b.lastDayReset, dayResetHour := b.dayResetHour,
              dayResetMinute := b.dayResetMinute, stats := b.stats,
              lastSequenceNumber := b.lastSequenceNumber, isInitialized := b.isInitialized,
              exchangeRules := b.exchangeRules } = levelsOrders b.bids ++
              levelsOrders (matchLoop (matchLoopFuel ((order1.price, [order1]) :: b.bids) b.asks) ((order1.price, [order1]) :: b.bids) b.asks ((order1.orderId, entryInfoOf order1) :: b.orders)).2.2.1
            from rfl, idsOf_append] at hmem
          rcases List.mem_append.mp hmem with h1 | h1
          · refine hfresh2 ?_
            rw [hids_b]
            exact List.mem_append_left _ h1
          · have hevolA := hmain.2.2.2.2.2
            have h2 := (levelEvol_ids_sublist hevolA).mem h1
            refine hfresh2 ?_
            rw [hids_b]
            exact List.mem_append_right _ h2
        rw [hfindnone]
        refine ⟨?_, ?_, ?_⟩
        · dsimp only [Option.getD]
          have h2 := hA2
          show sumTradeQty (matchLoop (matchLoopFuel ((order1.price, [order1]) :: b.bids) b.asks) ((order1.price, [order1]) :: b.bids) b.asks ((order1.orderId, entryInfoOf order1) :: b.orders)).1 = order1.initialQuantity - 0
          omega
        · intro _
          rw [hsweepasks _ rfl]
          exact hmain.2.2.2.1
        · intro hsell
          rw [hside] at hsell
          cases hsell
      · have hwf4 : WFBook
            { bids := (matchLoop (matchLoopFuel ((order1.price, [order1]) :: b.bids) b.asks) ((order1.price, [order1]) :: b.bids) b.asks ((order1.orderId, entryInfoOf order1) :: b.orders)).2.1,
              asks := (matchLoop (matchLoopFuel ((order1.price, [order1]) :: b.bids) b.asks) ((order1.price, [order1]) :: b.bids) b.asks ((order1.orderId, entryInfoOf order1) :: b.orders)).2.2.1,
              orders := (matchLoop (matchLoopFuel ((order1.price, [order1]) :: b.bids) b.asks) ((order1.price, [order1]) :: b.bids) b.asks ((order1.orderId, entryInfoOf order1) :: b.orders)).2.2.2.1,
              lastDayReset := b.lastDayReset, dayResetHour := b.dayResetHour,
              dayResetMinute := b.dayResetMinute, stats := b.stats,
              lastSequenceNumber := b.lastSequenceNumber, isInitialized := b.isInitialized,
              exchangeRules := b.exchangeRules } := wf_of_wf_mkBook hmain.1
        have hmem4 : { order1 with remainingQuantity := order1.remainingQuantity - sumTradeQty (matchLoop (matchLoopFuel ((order1.price, [order1]) :: b.bids) b.asks) ((order1.price, [order1]) :: b.bids) b.asks ((order1.orderId, entryInfoOf order1) :: b.orders)).1 } ∈ bookOrders
            { bids := (matchLoop (matchLoopFuel ((order1.price, [order1]) :: b.bids) b.asks) ((order1.price, [order1]) :: b.bids) b.asks ((order1.orderId, entryInfoOf order1) :: b.orders)).2.1,
              asks := (matchLoop (matchLoopFuel ((order1.price, [order1]) :: b.bids) b.asks) ((order1.price, [order1]) :: b.bids) b.asks ((order1.orderId, entryInfoOf order1) :: b.orders)).2.2.1,
              orders := (matchLoop (matchLoopFuel ((order1.price, [order1]) :: b.bids) b.asks) ((order1.price, [order1]) :: b.bids) b.asks ((order1.orderId, entryInfoOf order1) :: b.orders)).2.2.2.1,
              lastDayReset := b.lastDayReset, dayResetHour := b.dayResetHour,
              dayResetMinute := b.dayResetMinute, stats := b.stats,
              lastSequenceNumber := b.lastSequenceNumber, isInitialized := b.isInitialized,
              exchangeRules := b.exchangeRules } := by
          show _ ∈ levelsOrders (matchLoop (matchLoopFuel ((order1.price, [order1]) :: b.bids) b.asks) ((order1.price, [order1]) :: b.bids) b.asks ((order1.orderId, entryInfoOf order1) :: b.orders)).2.1 ++ levelsOrders (matchLoop (matchLoopFuel ((order1.price, [order1]) :: b.bids) b.asks) ((order1.price, [order1]) :: b.bids) b.asks ((order1.orderId, entryInfoOf order1) :: b.orders)).2.2.1
          refine List.mem_append_left _ ?_
          rw [hB1]
          show _ ∈ [{ order1 with remainingQuantity := order1.remainingQuantity - sumTradeQty (matchLoop (matchLoopFuel ((order1.price, [order1]) :: b.bids) b.asks) ((order1.price, [order1]) :: b.bids) b.asks ((order1.orderId, entryInfoOf order1) :: b.orders)).1 }] ++ levelsOrders b.bids
          exact List.mem_append_left _ (List.mem_singleton.mpr rfl)
        have hfind := findOrderInBook_eq_some hwf4 hmem4
        rw [hfind]
        refine ⟨?_, ?_, ?_⟩
        · dsimp only [Option.getD]
          have h2 := hB2
          show sumTradeQty (matchLoop (matchLoopFuel ((order1.price, [order1]) :: b.bids) b.asks) ((order1.price, [order1]) :: b.bids) b.asks ((order1.orderId, entryInfoOf order1) :: b.orders)).1 = order1.initialQuantity - (order1.remainingQuantity - sumTradeQty (matchLoop (matchLoopFuel ((order1.price, [order1]) :: b.bids) b.asks) ((order1.price, [order1]) :: b.bids) b.asks ((order1.orderId, entryInfoOf order1) :: b.orders)).1)
          omega
        · intro _
          rw [hsweepasks _ rfl]
          exact hmain.2.2.2.1
        · intro hsell
          rw [hside] at hsell
          cases hsell
  · have hsellside : order1.side = Side.sell := by
      cases h : order1.side with
      | buy => exact absurd h hside
      | sell => rfl
    have E3 : insertOrder b order1 =
        { b with asks := insertIntoLevels (fun x y => decide (x < y)) order1.price order1 b.asks,
                 orders := (order1.orderId, entryInfoOf order1) :: b.orders } := by
      unfold insertOrder
      rw [if_neg hside]
    by_cases hcross : ∀ kb ∈ b.bids.map Prod.fst, kb < order1.price
    · have hallpairs : ∀ kb ∈ b.bids.map Prod.fst,
          ∀ ka ∈ (insertIntoLevels (fun x y => decide (x < y)) order1.price order1 b.asks).map Prod.fst, kb < ka := by
        intro kb hkb ka hka
        rcases insertIntoLevels_keys _ order1.price order1 b.asks ka hka with h1 | h1
        · rw [h1]
          exact hcross kb hkb
        · exact hu kb hkb ka h1
      rw [E3]
      dsimp only
      rw [matchLoop_stop
        (matchLoopFuel b.bids (insertIntoLevels (fun x y => decide (x < y)) order1.price order1 b.asks))
        b.bids (insertIntoLevels (fun x y => decide (x < y)) order1.price order1 b.asks)
        ((order1.orderId, entryInfoOf order1) :: b.orders) hallpairs]
      dsimp only
      have hwf3b : WFBook
          { b with asks := insertIntoLevels (fun x y => decide (x < y)) order1.price order1 b.asks,
                   orders := (order1.orderId, entryInfoOf order1) :: b.orders } := by
        rw [E3] at hwf3
        exact hwf3
      have hmem3 : order1 ∈ bookOrders
          { b with asks := insertIntoLevels (fun x y => decide (x < y)) order1.price order1 b.asks,
                   orders := (order1.orderId, entryInfoOf order1) :: b.orders } := by
        show order1 ∈ levelsOrders b.bids ++ levelsOrders (insertIntoLevels (fun x y => decide (x < y)) order1.price order1 b.asks)
        refine List.mem_append_right _ ?_
        exact (insertIntoLevels_orders_perm _ order1.price order1 b.asks).symm.subset
          (List.mem_cons_self _ _)
      have hfind := findOrderInBook_eq_some hwf3b hmem3
      rw [hfind]
      have hsweepbids : (cancelIocOrders { b with asks := insertIntoLevels (fun x y => decide (x < y)) order1.price order1 b.asks, orders := (order1.orderId, entryInfoOf order1) :: b.orders }).bids = ({ b with asks := insertIntoLevels (fun x y => decide (x < y)) order1.price order1 b.asks, orders := (order1.orderId, entryInfoOf order1) :: b.orders } : Orderbook).bids := by
        refine cancelIocOrders_bids_eq hwf3b.idxKeysNodup ?_
        intro kv hkv hioc
        have h1 := hentio kv hkv hioc
        rw [h1]
        exact hsellside
      refine ⟨?_, ?_, ?_⟩
      · show sumTradeQty [] = order1.initialQuantity - order1.remainingQuantity
        simp only [sumTradeQty]
        omega
      · intro hbuy
        rw [hsellside] at hbuy
        cases hbuy
      · intro _
        rw [hsweepbids]
        show levelsRemaining b.bids = levelsRemaining b.bids + sumTradeQty []
        simp [sumTradeQty]
    · push_neg at hcross
      rcases hcross with ⟨kb0, hkb0, hkb0le⟩
      have hfrontkeys : ∀ k ∈ b.asks.map Prod.fst, order1.price < k := by
        intro k hk
        have h1 := hu kb0 hkb0 k hk
        omega
      have hfront := @insertIntoLevels_front_sell order1.price order1 b.asks hfrontkeys
      rw [E3, hfront] at hwf3 ⊢
      dsimp only
      have hwfm : WFBook (mkBook b.bids ((order1.price, [order1]) :: b.asks)
          ((order1.orderId, entryInfoOf order1) :: b.orders)) := wf_mkBook_of_wf hwf3
      have hukeys : ∀ kb ∈ b.bids.map Prod.fst, ∀ ka ∈ b.asks.map Prod.fst, kb < ka := hu
      have haggr := matchLoop_aggr_ask
        (matchLoopFuel b.bids ((order1.price, [order1]) :: b.asks))
        order1.price order1 b.bids b.asks
        ((order1.orderId, entryInfoOf order1) :: b.orders)
        (le_refl _) hwfm hukeys
      have hmain := matchLoop_main
        (matchLoopFuel b.bids ((order1.price, [order1]) :: b.asks))
        b.bids ((order1.price, [order1]) :: b.asks)
        ((order1.orderId, entryInfoOf order1) :: b.orders)
        (le_refl _) hwfm
      have hsweepbids : ∀ bb : Orderbook,
          bb.orders = (matchLoop (matchLoopFuel b.bids ((order1.price, [order1]) :: b.asks))
            b.bids ((order1.price, [order1]) :: b.asks)
            ((order1.orderId, entryInfoOf order1) :: b.orders)).2.2.2.1 →
          (cancelIocOrders bb).bids = bb.bids := by
        intro bb hbb
        refine cancelIocOrders_bids_eq ?_ ?_
        · rw [hbb]
          exact hmain.1.idxKeysNodup
        · intro kv hkv hioc
          rw [hbb] at hkv
          have h1 := matchLoop_idx_sub _ _ _ _ kv hkv
          have h2 := hentio kv h1 hioc
          rw [h2]
          exact hsellside
      have hids_b : idsOf (bookOrders b) =
          idsOf (levelsOrders b.bids) ++ idsOf (levelsOrders b.asks) := by
        rw [← idsOf_append]
        rfl
      rcases haggr with ⟨hA1, hA2⟩ | ⟨hB1, hB2⟩
      · rw [hA1]
        have hfindnone : findOrderInBook
            { bids := (matchLoop (matchLoopFuel b.bids ((order1.price, [order1]) :: b.asks)) b.bids ((order1.price, [order1]) :: b.asks) ((order1.orderId, entryInfoOf order1) :: b.orders)).2.1,
              asks := b.asks,
              orders := (matchLoop (matchLoopFuel b.bids ((order1.price, [order1]) :: b.asks)) b.bids ((order1.price, [order1]) :: b.asks) ((order1.orderId, entryInfoOf order1) :: b.orders)).2.2.2.1,
              lastDayReset := b.lastDayReset, dayResetHour := b.dayResetHour,
              dayResetMinute := b.dayResetMinute, stats := b.stats,
              lastSequenceNumber := b.lastSequenceNumber, isInitialized := b.isInitialized,
              exchangeRules := b.exchangeRules } order1.orderId = none := by
          refine findOrderInBook_eq_none_iff.mpr ?_
          intro hmem
          rw [show bookOrders
            { bids := (matchLoop (matchLoopFuel b.bids ((order1.price, [order1]) :: b.asks)) b.bids ((order1.price, [order1]) :: b.asks) ((order1.orderId, entryInfoOf order1) :: b.orders)).2.1,
              asks := b.asks,
              orders := (matchLoop (matchLoopFuel b.bids ((order1.price, [order1]) :: b.asks)) b.bids ((order1.price, [order1]) :: b.asks) ((order1.orderId, entryInfoOf order1) :: b.orders)).2.2.2.1,
              lastDayReset := b.lastDayReset, dayResetHour := b.dayResetHour,
              dayResetMinute := b.dayResetMinute, stats := b.stats,
              lastSequenceNumber := b.lastSequenceNumber, isInitialized := b.isInitialized,
              exchangeRules := b.exchangeRules } =
              levelsOrders (matchLoop (matchLoopFuel b.bids ((order1.price, [order1]) :: b.asks)) b.bids ((order1.price, [order1]) :: b.asks) ((order1.orderId, entryInfoOf order1) :: b.orders)).2.1 ++
              levelsOrders b.asks
            from rfl, idsOf_append] at hmem
          rcases List.mem_append.mp hmem with h1 | h1
          · have hevolB := hmain.2.2.2.2.1
            have h2 := (levelEvol_ids_sublist hevolB).mem h1
            refine hfresh2 ?_
            rw [hids_b]
            exact List.mem_append_left _ h2
          · refine hfresh2 ?_
            rw [hids_b]
            exact List.mem_append_right _ h1
        rw [hfindnone]
        refine ⟨?_, ?_, ?_⟩
        · dsimp only [Option.getD]
          have h2 := hA2
          show sumTradeQty (matchLoop (matchLoopFuel b.bids ((order1.price, [order1]) :: b.asks)) b.bids ((order1.price, [order1]) :: b.asks) ((order1.orderId, entryInfoOf order1) :: b.orders)).1 = order1.initialQuantity - 0
          omega
        · intro hbuy
          rw [hsellside] at hbuy
          cases hbuy
        · intro _
          rw [hsweepbids _ rfl]
          exact hmain.2.2.1
      · have hwf4 : WFBook
            { bids := (matchLoop (matchLoopFuel b.bids ((order1.price, [order1]) :: b.asks)) b.bids ((order1.price, [order1]) :: b.asks) ((order1.orderId, entryInfoOf order1) :: b.orders)).2.1,
              asks := (matchLoop (matchLoopFuel b.bids ((order1.price, [order1]) :: b.asks)) b.bids ((order1.price, [order1]) :: b.asks) ((order1.orderId, entryInfoOf order1) :: b.orders)).2.2.1,
              orders := (matchLoop (matchLoopFuel b.bids ((order1.price, [order1]) :: b.asks)) b.bids ((order1.price, [order1]) :: b.asks) ((order1.orderId, entryInfoOf order1) :: b.orders)).2.2.2.1,
              lastDayReset := b.lastDayReset, dayResetHour := b.dayResetHour,
              dayResetMinute := b.dayResetMinute, stats := b.stats,
              lastSequenceNumber := b.lastSequenceNumber, isInitialized := b.isInitialized,
              exchangeRules := b.exchangeRules } := wf_of_wf_mkBook hmain.1
        have hmem4 : { order1 with remainingQuantity := order1.remainingQuantity - sumTradeQty (matchLoop (matchLoopFuel b.bids ((order1.price, [order1]) :: b.asks)) b.bids ((order1.price, [order1]) :: b.asks) ((order1.orderId, entryInfoOf order1) :: b.orders)).1 } ∈ bookOrders
            { bids := (matchLoop (matchLoopFuel b.bids ((order1.price, [order1]) :: b.asks)) b.bids ((order1.price, [order1]) :: b.asks) ((order1.orderId, entryInfoOf order1) :: b.orders)).2.1,
              asks := (matchLoop (matchLoopFuel b.bids ((order1.price, [order1]) :: b.asks)) b.bids ((order1.price, [order1]) :: b.asks) ((order1.orderId, entryInfoOf order1) :: b.orders)).2.2.1,
              orders := (matchLoop (matchLoopFuel b.bids ((order1.price, [order1]) :: b.asks)) b.bids ((order1.price, [order1]) :: b.asks) ((order1.orderId, entryInfoOf order1) :: b.orders)).2.2.2.1,
              lastDayReset := b.lastDayReset, dayResetHour := b.dayResetHour,
              dayResetMinute := b.dayResetMinute, stats := b.stats,
              lastSequenceNumber := b.lastSequenceNumber, isInitialized := b.isInitialized,
              exchangeRules := b.exchangeRules } := by
          show _ ∈ levelsOrders (matchLoop (matchLoopFuel b.bids ((order1.price, [order1]) :: b.asks)) b.bids ((order1.price, [order1]) :: b.asks) ((order1.orderId, entryInfoOf order1) :: b.orders)).2.1 ++ levelsOrders (matchLoop (matchLoopFuel b.bids ((order1.price, [order1]) :: b.asks)) b.bids ((order1.price, [order1]) :: b.asks) ((order1.orderId, entryInfoOf order1) :: b.orders)).2.2.1
          refine List.mem_append_right _ ?_
          rw [hB1]
          show _ ∈ [{ order1 with remainingQuantity := order1.remainingQuantity - sumTradeQty (matchLoop (matchLoopFuel b.bids ((order1.price, [order1]) :: b.asks)) b.bids ((order1.price, [order1]) :: b.asks) ((order1.orderId, entryInfoOf order1) :: b.orders)).1 }] ++ levelsOrders b.asks
          exact List.mem_append_left _ (List.mem_singleton.mpr rfl)
        have hfind := findOrderInBook_eq_some hwf4 hmem4
        rw [hfind]
        refine ⟨?_, ?_, ?_⟩
        · dsimp only [Option.getD]
          have h2 := hB2
          show sumTradeQty (matchLoop (matchLoopFuel b.bids ((order1.price, [order1]) :: b.asks)) b.bids ((order1.price, [order1]) :: b.asks) ((order1.orderId, entryInfoOf order1) :: b.orders)).1 = order1.initialQuantity - (order1.remainingQuantity - sumTradeQty (matchLoop (matchLoopFuel b.bids ((order1.price, [order1]) :: b.asks)) b.bids ((order1.price, [order1]) :: b.asks) ((order1.orderId, entryInfoOf order1) :: b.orders)).1)
          omega
        · intro hbuy
          rw [hsellside] at hbuy
          cases hbuy
        · intro _
          rw [hsweepbids _ rfl]
          exact hmain.2.2.1

/-- C3 (amended): conservation of traded quantity for an AddOrder of any
fresh order with remaining = initial quantity, of any order type, on a
well-formed, uncrossed book with no resting IOC orders, when the
day-reset does not fire: the traded total equals the aggressor's consumed
quantity, and equals the decrease of the opposite side's resting
quantity. -/
theorem c3_conservation (order : Order) (now : Nat) (b : Orderbook)
    (hwf : WFBook b) (hu : allUncrossed b)
    (hnoioc : ∀ x ∈ bookOrders b, x.orderType ≠ OrderType.immediateOrCancel)
    (hreset : shouldResetDay b now = false)
    (hrem : order.remainingQuantity = order.initialQuantity) :
    sumTradeQty (addOrder order now b).trades =
      order.initialQuantity - (addOrder order now b).aggressor.remainingQuantity ∧
    (order.side = Side.buy →
      levelsRemaining b.asks =
        levelsRemaining (addOrder order now b).book.asks +
          sumTradeQty (addOrder order now b).trades) ∧
    (order.side = Side.sell →
      levelsRemaining b.bids =
        levelsRemaining (addOrder order now b).book.bids +
          sumTradeQty (addOrder order now b).trades) := by
  unfold addOrder
  rw [checkAndResetDay_of_not hreset]
  dsimp only
  by_cases hmkt : order.orderType = OrderType.market
  · rw [if_pos hmkt]
    by_cases h1 : order.side = Side.buy ∧ b.asks ≠ []
    · rw [if_pos h1]
      dsimp only
      have hsd : (order.toGoodTillCancel priceMax).1.side = order.side :=
        toGoodTillCancel_side order priceMax
      have hin : (order.toGoodTillCancel priceMax).1.initialQuantity =
          order.initialQuantity := toGoodTillCancel_initial order priceMax
      have hrm : (order.toGoodTillCancel priceMax).1.remainingQuantity =
          (order.toGoodTillCancel priceMax).1.initialQuantity := by
        rw [toGoodTillCancel_remaining, hin, hrem]
      have hty : (order.toGoodTillCancel priceMax).1.orderType =
          OrderType.goodTillCancel := toGoodTillCancel_type_of_market priceMax hmkt
      rw [← hin, ← hsd]
      by_cases hvalid : (validateOrder b (order.toGoodTillCancel priceMax).1).isValid = true
      · rw [if_neg (fun hc => hc hvalid)]
        rw [if_neg (fun hc => absurd (hty.symm.trans hc.1) (by decide))]
        rw [if_neg (fun hc => absurd (hty.symm.trans hc) (by decide))]
        dsimp only
        exact insertMatch_conservation _ hwf hu hnoioc (lookup_none_of_valid hvalid) hrm
      · rw [if_pos hvalid]
        refine ⟨?_, ?_, ?_⟩
        · show sumTradeQty [] = (order.toGoodTillCancel priceMax).1.initialQuantity -
            (order.toGoodTillCancel priceMax).1.remainingQuantity
          simp only [sumTradeQty]
          omega
        · intro _
          show levelsRemaining b.asks = levelsRemaining b.asks + sumTradeQty []
          simp [sumTradeQty]
        · intro _
          show levelsRemaining b.bids = levelsRemaining b.bids + sumTradeQty []
          simp [sumTradeQty]
    · rw [if_neg h1]
      by_cases h2 : order.side = Side.sell ∧ b.bids ≠ []
      · rw [if_pos h2]
        dsimp only
        have hsd : (order.toGoodTillCancel priceMin).1.side = order.side :=
          toGoodTillCancel_side order priceMin
        have hin : (order.toGoodTillCancel priceMin).1.initialQuantity =
            order.initialQuantity := toGoodTillCancel_initial order priceMin
        have hrm : (order.toGoodTillCancel priceMin).1.remainingQuantity =
            (order.toGoodTillCancel priceMin).1.initialQuantity := by
          rw [toGoodTillCancel_remaining, hin, hrem]
        have hty : (order.toGoodTillCancel priceMin).1.orderType =
            OrderType.goodTillCancel := toGoodTillCancel_type_of_market priceMin hmkt
        rw [← hin, ← hsd]
        by_cases hvalid : (validateOrder b (order.toGoodTillCancel priceMin).1).isValid = true
        · rw [if_neg (fun hc => hc hvalid)]
          rw [if_neg (fun hc => absurd (hty.symm.trans hc.1) (by decide))]
          rw [if_neg (fun hc => absurd (hty.symm.trans hc) (by decide))]
          dsimp only
          exact insertMatch_conservation _ hwf hu hnoioc (lookup_none_of_valid hvalid) hrm
        · rw [if_pos hvalid]
          refine ⟨?_, ?_, ?_⟩
          · show sumTradeQty [] = (order.toGoodTillCancel priceMin).1.initialQuantity -
              (order.toGoodTillCancel priceMin).1.remainingQuantity
            simp only [sumTradeQty]
            omega
          · intro _
            show levelsRemaining b.asks = levelsRemaining b.asks + sumTradeQty []
            simp [sumTradeQty]
          · intro _
            show levelsRemaining b.bids = levelsRemaining b.bids + sumTradeQty []
            simp [sumTradeQty]
      · rw [if_neg h2]
        dsimp only
        refine ⟨?_, ?_, ?_⟩
        · show sumTradeQty [] = order.initialQuantity - order.remainingQuantity
          simp only [sumTradeQty]
          omega
        · intro _
          show levelsRemaining b.asks = levelsRemaining b.asks + sumTradeQty []
          simp [sumTradeQty]
        · intro _
          show levelsRemaining b.bids = levelsRemaining b.bids + sumTradeQty []
          simp [sumTradeQty]
  · rw [if_neg hmkt]
    dsimp only
    by_cases hvalid : (validateOrder b order).isValid = true
    · rw [if_neg (fun hc => hc hvalid)]
      by_cases hioc2 : order.orderType = OrderType.immediateOrCancel ∧
          ¬canMatch b order.side order.price = true
      · rw [if_pos hioc2]
        refine ⟨?_, ?_, ?_⟩
        · show sumTradeQty [] = order.initialQuantity - order.remainingQuantity
          simp only [sumTradeQty]
          omega
        · intro _
          show levelsRemaining b.asks = levelsRemaining b.asks + sumTradeQty []
          simp [sumTradeQty]
        · intro _
          show levelsRemaining b.bids = levelsRemaining b.bids + sumTradeQty []
          simp [sumTradeQty]
      · rw [if_neg hioc2]
        by_cases hfok : order.orderType = OrderType.fillOrKill
        · rw [if_pos hfok]
          exact matchFillOrKill_conservation hwf hrem
        · rw [if_neg hfok]
          dsimp only
          exact insertMatch_conservation order hwf hu hnoioc
            (lookup_none_of_valid hvalid) hrem
    · rw [if_pos hvalid]
      refine ⟨?_, ?_, ?_⟩
      · show sumTradeQty [] = order.initialQuantity - order.remainingQuantity
        simp only [sumTradeQty]
        omega
      · intro _
        show levelsRemaining b.asks = levelsRemaining b.asks + sumTradeQty []
        simp [sumTradeQty]
      · intro _
        show levelsRemaining b.bids = levelsRemaining b.bids + sumTradeQty []
        simp [sumTradeQty]

/-- C3 witness: an ImmediateOrCancel buy for 3 crossing the resting sell
for 5 trades exactly 3, matching both the aggressor's decrease and the
ask side's decrease. -/
theorem c3_conservation_witness :
    sumTradeQty (addOrder ⟨OrderType.immediateOrCancel, 2, Side.buy, 100, 3, 3⟩ 0
        sellBook).trades =
      (⟨OrderType.immediateOrCancel, 2, Side.buy, 100, 3, 3⟩ : Order).initialQuantity -
        (addOrder ⟨OrderType.immediateOrCancel, 2, Side.buy, 100, 3, 3⟩ 0
          sellBook).aggressor.remainingQuantity ∧
    ((⟨OrderType.immediateOrCancel, 2, Side.buy, 100, 3, 3⟩ : Order).side = Side.buy →
      levelsRemaining sellBook.asks =
        levelsRemaining (addOrder ⟨OrderType.immediateOrCancel, 2, Side.buy, 100, 3, 3⟩ 0
            sellBook).book.asks +
          sumTradeQty (addOrder ⟨OrderType.immediateOrCancel, 2, Side.buy, 100, 3, 3⟩ 0
            sellBook).trades) ∧
    ((⟨OrderType.immediateOrCancel, 2, Side.buy, 100, 3, 3⟩ : Order).side = Side.sell →
      levelsRemaining sellBook.bids =
        levelsRemaining (addOrder ⟨OrderType.immediateOrCancel, 2, Side.buy, 100, 3, 3⟩ 0
            sellBook).book.bids +
          sumTradeQty (addOrder ⟨OrderType.immediateOrCancel, 2, Side.buy, 100, 3, 3⟩ 0
            sellBook).trades) :=
  c3_conservation ⟨OrderType.immediateOrCancel, 2, Side.buy, 100, 3, 3⟩ 0 sellBook
    sellBook_wf
    (by intro p hp; rw [show bidPriceKeys sellBook = [] from by decide] at hp; cases hp)
    (by decide) (by decide) rfl
